import Mathlib

/-!
# Verification of the progressive Mandelbrot viewer (mandelbrot.c)

A shallow embedding of `src/mandelbrot.c`:

* `F64` is an executable model of IEEE 754 binary64 (`double`) with
  round-to-nearest-even: the arithmetic of `scaleX`, `scaleY` and of the
  escape-time loop is the machine arithmetic, including NaN, infinities,
  signed zeros and subnormals; every operation of the source rounds once
  (no fused multiply-add, no extended precision);
* `int` variables are `Int` (no operation of the program on them overflows),
  the `Uint32` pixel is the stored value modulo `2 ^ 32`;
* the globals of the program are the fields of `State`; every function of the
  program is a function on `State`;
* the loops of `mandelbrot3` whose step is the argument `resolution` are run
  with fuel, the loops that provably end are total functions;
* the `sprintf` of the pointer-motion branch of `event` is modelled by the
  number of bytes it writes into `char title[80]` (`titleBytes`,
  `eventDefined`);
* `toRat` is the exact rational value of a finite double, used to state the
  rounding error of `scaleX` and `scaleY`.
-/

set_option maxRecDepth 100000
set_option exponentiation.threshold 4096

/-! ## IEEE 754 binary64 -/

/-- A value of type `double`: NaN, an infinity with its sign (`true` is
negative), or the finite value `(-1)^s * m * 2^e`. -/
inductive F64 where
  | nan : F64
  | inf (s : Bool) : F64
  | fin (s : Bool) (m : Nat) (e : Int) : F64
deriving DecidableEq, Repr

namespace F64

/-- Number of binary digits of `n`, by halving at most `fuel` times. -/
def bitsAux : Nat → Nat → Nat
  | 0, _ => 0
  | fuel + 1, n => if n = 0 then 0 else bitsAux fuel (n / 2) + 1

/-- Number of binary digits of `n` (0 for 0). -/
def bits (n : Nat) : Nat := bitsAux n n

/-- The representable values: 53-bit significand, exponent of the unit in the
last place between -1074 (subnormals) and 971, normalised when not subnormal. -/
def IsDouble : F64 → Prop
  | nan => True
  | inf _ => True
  | fin _ m e => m < 2 ^ 53 ∧ -1074 ≤ e ∧ e ≤ 971 ∧ (2 ^ 52 ≤ m ∨ e = -1074)

instance instDecidableIsDouble (a : F64) : Decidable (IsDouble a) := by
  cases a <;> unfold IsDouble <;> infer_instance

/-- Test for NaN. -/
def isNaN : F64 → Bool
  | nan => true
  | _ => false

/-- Neither NaN nor an infinity. -/
def isFinite : F64 → Bool
  | fin _ _ _ => true
  | _ => false

/-- Round the exact value `(-1)^s * m * 2^e` to the nearest double, ties to
even; overflow gives the infinity of that sign. -/
def round (s : Bool) (m : Nat) (e : Int) : F64 :=
  if m = 0 then fin s 0 (-1074)
  else
    let e1 : Int := max (e + (bits m : Nat) - 53) (-1074)
    if 971 < e1 then inf s
    else if e1 ≤ e then fin s (m * 2 ^ (e - e1).toNat) e1
    else
      let sh : Nat := (e1 - e).toNat
      let q : Nat := m / 2 ^ sh
      let r : Nat := m % 2 ^ sh
      let h : Nat := 2 ^ (sh - 1)
      let q1 : Nat := if h < r ∨ (r = h ∧ q % 2 = 1) then q + 1 else q
      let m2 : Nat := if q1 = 2 ^ 53 then 2 ^ 52 else q1
      let e2 : Int := if q1 = 2 ^ 53 then e1 + 1 else e1
      if 971 < e2 then inf s else fin s m2 e2

/-- Unary minus. -/
def neg : F64 → F64
  | nan => nan
  | inf s => inf (!s)
  | fin s m e => fin (!s) m e

/-- Multiplication `a * b`. -/
def mul : F64 → F64 → F64
  | nan, _ => nan
  | _, nan => nan
  | inf s, inf t => inf (xor s t)
  | inf s, fin t m _ => if m = 0 then nan else inf (xor s t)
  | fin s m _, inf t => if m = 0 then nan else inf (xor s t)
  | fin s m e, fin t n f => round (xor s t) (m * n) (e + f)

/-- The integer `k` with `(-1)^s * m * 2^e = k * 2^c`, for `c ≤ e`. -/
def scaled (s : Bool) (m : Nat) (e c : Int) : Int :=
  let k : Int := (m * 2 ^ (e - c).toNat : Nat)
  if s then -k else k

/-- Addition `a + b`. An exact zero sum is `-0` only when both terms are
negative. -/
def add : F64 → F64 → F64
  | nan, _ => nan
  | _, nan => nan
  | inf s, inf t => if s = t then inf s else nan
  | inf s, fin _ _ _ => inf s
  | fin _ _ _, inf t => inf t
  | fin s m e, fin t n f =>
    let c : Int := min e f
    let k : Int := scaled s m e c + scaled t n f c
    if k = 0 then fin (s && t) 0 (-1074)
    else round (decide (k < 0)) k.natAbs c

/-- Subtraction `a - b`. -/
def sub (a b : F64) : F64 := add a (neg b)

/-- Division `a / b`: the quotient is computed with more than 64 extra bits and
a sticky bit, then rounded once. -/
def div : F64 → F64 → F64
  | nan, _ => nan
  | _, nan => nan
  | inf _, inf _ => nan
  | inf s, fin t _ _ => inf (xor s t)
  | fin s _ _, inf t => fin (xor s t) 0 (-1074)
  | fin s m e, fin t n f =>
    if n = 0 then (if m = 0 then nan else inf (xor s t))
    else
      let k : Nat := bits n + 64
      let q : Nat := (m * 2 ^ k) / n
      let r : Nat := (m * 2 ^ k) % n
      round (xor s t) (2 * q + (if r = 0 then 0 else 1)) (e - f - k - 1)

/-- Conversion `(double)i` of an `int`. -/
def ofInt (i : Int) : F64 := round (decide (i < 0)) i.natAbs 0

/-- Comparison `a <= b` (false when either side is NaN). -/
def le : F64 → F64 → Bool
  | nan, _ => false
  | _, nan => false
  | inf s, inf t => s || !t
  | inf s, fin _ _ _ => s
  | fin _ _ _, inf t => !t
  | fin s m e, fin t n f => decide (scaled s m e (min e f) ≤ scaled t n f (min e f))

/-- Comparison `a == b` (false when either side is NaN, true for `0 == -0`). -/
def eq : F64 → F64 → Bool
  | nan, _ => false
  | _, nan => false
  | inf s, inf t => s == t
  | inf _, fin _ _ _ => false
  | fin _ _ _, inf _ => false
  | fin s m e, fin t n f => decide (scaled s m e (min e f) = scaled t n f (min e f))

/-- Comparison `a != b`. -/
def ne (a b : F64) : Bool := !(eq a b)

/-- The literal `0.5`. -/
def c0_5 : F64 := fin false (2 ^ 52) (-53)

/-- The literal `1.5`. -/
def c1_5 : F64 := fin false (3 * 2 ^ 51) (-52)

end F64

/-! ## The program -/

namespace Mandel

open F64

/-- Source: `const int SCREEN_WIDTH = 640;` -/
def SCREEN_WIDTH : Int := 640

/-- Source: `const int SCREEN_HEIGHT = 480;` -/
def SCREEN_HEIGHT : Int := 480

/-- Source: `const double SCREEN_RATIO = (double)SCREEN_HEIGHT / SCREEN_WIDTH;` -/
def SCREEN_RATIO : F64 := F64.div (ofInt SCREEN_HEIGHT) (ofInt SCREEN_WIDTH)

/-- Source: `const int INITIAL_RESOLUTION = 1 << 4;` -/
def INITIAL_RESOLUTION : Int := 1 <<< (4 : Int)

/-- Number of entries of `Uint32 pixels[SCREEN_WIDTH*SCREEN_HEIGHT*4]`. -/
def PIXELS_LEN : Int := SCREEN_WIDTH * SCREEN_HEIGHT * 4

/-- The globals of the program. `pixels i` is the content of `pixels[i]`;
`presented` counts the frames handed to `SDL_RenderPresent`; `title` is the
pair of plane coordinates last formatted into the window title. -/
structure State where
  pixels : Nat → Nat
  gResolution : Int
  gScale : F64
  gOffsetX : F64
  gOffsetY : F64
  gLastScale : F64
  presented : Nat
  title : Option (F64 × F64)

/-- The globals as initialised at program start (the array is zeroed). -/
def initState : State where
  pixels := fun _ => 0
  gResolution := INITIAL_RESOLUTION
  gScale := ofInt 2
  gOffsetX := ofInt 0
  gOffsetY := ofInt 0
  gLastScale := ofInt 0
  presented := 0
  title := none

/-- Source: `(((double)x / SCREEN_WIDTH) - 0.5) * gScale + gOffsetX`. -/
def scaleX (s : State) (x : Int) : F64 :=
  F64.add (F64.mul (F64.sub (F64.div (ofInt x) (ofInt SCREEN_WIDTH)) c0_5) s.gScale) s.gOffsetX

/-- Source:
`-(((double)y / SCREEN_HEIGHT * SCREEN_RATIO) - SCREEN_RATIO / 2) * gScale + gOffsetY`. -/
def scaleY (s : State) (y : Int) : F64 :=
  F64.add
    (F64.mul
      (F64.neg (F64.sub (F64.mul (F64.div (ofInt y) (ofInt SCREEN_HEIGHT)) SCREEN_RATIO)
        (F64.div SCREEN_RATIO (ofInt 2))))
      s.gScale)
    s.gOffsetY

/-- The variables `x`, `y`, `iteration` of the escape-time loop. -/
structure Orbit where
  x : F64
  y : F64
  iteration : Int

/-- The loop guard `(x*x + y*y <= 4) && iteration <= 0xff`. -/
def loopCond (z : Orbit) : Bool :=
  F64.le (F64.add (F64.mul z.x z.x) (F64.mul z.y z.y)) (ofInt 4) && decide (z.iteration ≤ 0xff)

/-- The loop body:
`xtemp = x*x - y*y + x0; y = 2*x*y + y0; x = xtemp; iteration++`. -/
def loopBody (x0 y0 : F64) (z : Orbit) : Orbit where
  x := F64.add (F64.sub (F64.mul z.x z.x) (F64.mul z.y z.y)) x0
  y := F64.add (F64.mul (F64.mul (ofInt 2) z.x) z.y) y0
  iteration := z.iteration + 1

/-- The loop `while (loopCond) loopBody`; it ends because the counter grows
towards `0xff`. -/
def escapeLoop (x0 y0 : F64) (z : Orbit) : Orbit :=
  if loopCond z = true then escapeLoop x0 y0 (loopBody x0 y0 z) else z
termination_by (0x100 - z.iteration).toNat
decreasing_by
  rename_i h
  have h1 : z.iteration ≤ 0xff := by
    simp only [loopCond, Bool.and_eq_true, decide_eq_true_eq] at h
    exact h.2
  simp only [loopBody]
  omega

/-- The counter `iteration` after the loop started with
`x = 0; y = 0; iteration = 0`. -/
def escapeTime (x0 y0 : F64) : Int :=
  (escapeLoop x0 y0 { x := ofInt 0, y := ofInt 0, iteration := 0 }).iteration

/-- The value `iteration << 8` as stored in a `Uint32`. -/
def colorOf (iteration : Int) : Nat := ((iteration <<< (8 : Int)) % 2 ^ 32).toNat

/-- The assignment `pixels[idx] = iteration << 8`; outside the array it has
no defined result. -/
def store (s : State) (idx : Int) (iteration : Int) : Option State :=
  if 0 ≤ idx ∧ idx < PIXELS_LEN then
    some { s with pixels := Function.update s.pixels idx.toNat (colorOf iteration) }
  else none

/-- Source: `for (ry = ...; ry < resolution; ry++)
pixels[(screenY + ry) * SCREEN_WIDTH + screenX + rx] = iteration << 8;` -/
def fillRy (resolution screenX screenY iteration rx ry : Int) (s : State) : Option State :=
  if ry < resolution then
    match store s ((screenY + ry) * SCREEN_WIDTH + screenX + rx) iteration with
    | none => none
    | some s1 => fillRy resolution screenX screenY iteration rx (ry + 1) s1
  else some s
termination_by (resolution - ry).toNat
decreasing_by omega

/-- Source: `for (rx = ...; rx < resolution; rx++) for (ry = 0; ...) ...`. -/
def fillRx (resolution screenX screenY iteration rx : Int) (s : State) : Option State :=
  if rx < resolution then
    match fillRy resolution screenX screenY iteration rx 0 s with
    | none => none
    | some s1 => fillRx resolution screenX screenY iteration (rx + 1) s1
  else some s
termination_by (resolution - rx).toNat
decreasing_by omega

/-- The body of the inner loop of `mandelbrot3` for the block at
`(screenX, screenY)`: sample, iterate, write the block. -/
def blockBody (resolution offset screenX screenY : Int) (s : State) : Option State :=
  let x0 := scaleX s (screenX - offset)
  let y0 := scaleY s (screenY - offset)
  let iteration := escapeTime x0 y0
  match (if resolution = 1 then store s (screenY * SCREEN_WIDTH + screenX) iteration
         else some s) with
  | none => none
  | some s1 => fillRx resolution screenX screenY iteration 0 s1

/-- Source: `for (screenY = ...; screenY < SCREEN_HEIGHT; screenY += resolution)`.
Out of fuel is `none`. -/
def loopY (resolution offset screenX : Int) : Nat → Int → State → Option State
  | 0, _, _ => none
  | fuel + 1, screenY, s =>
    if screenY < SCREEN_HEIGHT then
      match blockBody resolution offset screenX screenY s with
      | none => none
      | some s1 => loopY resolution offset screenX fuel (screenY + resolution) s1
    else some s

/-- Source: `for (screenX = ...; screenX < SCREEN_WIDTH; screenX += resolution)`.
Out of fuel is `none`. -/
def loopX (resolution offset : Int) : Nat → Int → State → Option State
  | 0, _, _ => none
  | fuel + 1, screenX, s =>
    if screenX < SCREEN_WIDTH then
      match loopY resolution offset screenX fuel 0 s with
      | none => none
      | some s1 => loopX resolution offset fuel (screenX + resolution) s1
    else some s

/-- Source: `int offset = resolution == 1 ? 0 : resolution >> 1;` -/
def sampleOffset (resolution : Int) : Int :=
  if resolution = 1 then 0 else resolution >>> (1 : Nat)

/-- Source: `void mandelbrot3(int resolution)`. -/
def mandelbrot3 (fuel : Nat) (resolution : Int) (s : State) : Option State :=
  loopX resolution (sampleOffset resolution) fuel 0 s

/-- The colour `mandelbrot3` computes for the block with origin `(ox, oy)`
when its offset is `offset`. -/
def blockColor (s : State) (offset ox oy : Int) : Nat :=
  colorOf (escapeTime (scaleX s (ox - offset)) (scaleY s (oy - offset)))

/-- The state `s` with the pixel buffer replaced by `p`. -/
def setPixels (s : State) (p : Nat → Nat) : State := { s with pixels := p }

/-- The buffer `p` with the cells of column range `[x0, x1)` and row range
`[y0, y1)` replaced by `g column row` (cell `i` is in column `i % 640` of row
`i / 640`). -/
def paint (p : Nat → Nat) (g : Int → Int → Nat) (x0 x1 y0 y1 : Int) : Nat → Nat :=
  fun i =>
    if x0 ≤ (i : Int) % 640 ∧ (i : Int) % 640 < x1 ∧ y0 ≤ (i : Int) / 640 ∧ (i : Int) / 640 < y1
    then g ((i : Int) % 640) ((i : Int) / 640)
    else p i

/-- The colour `mandelbrot3 resolution` leaves in the pixel `(px, py)`: that of
the block the pixel lies in. -/
def pixelColor (s : State) (resolution px py : Int) : Nat :=
  blockColor s (sampleOffset resolution) (px - px % resolution) (py - py % resolution)

/-- The condition of `render`: `gLastScale != gScale || gResolution != 0`. -/
def dirty (s : State) : Bool :=
  F64.ne s.gLastScale s.gScale || decide (s.gResolution ≠ 0)

/-- Source: `int render()`. The four SDL calls hand the buffer to the
screen, which is counted in `presented`. -/
def render (fuel : Nat) (s : State) : Option State :=
  if dirty s = true then
    match mandelbrot3 fuel s.gResolution s with
    | none => none
    | some s1 =>
      some { s1 with
        presented := s1.presented + 1
        gLastScale := s1.gScale
        gResolution := s1.gResolution >>> (1 : Nat) }
  else some s

/-- The state `render` returns when the pass run from `s` has left the pixel
buffer `p`. -/
def afterPass (s : State) (p : Nat → Nat) : State :=
  { s with
    pixels := p
    presented := s.presented + 1
    gLastScale := s.gScale
    gResolution := s.gResolution >>> (1 : Nat) }

/-- Event type `SDL_MOUSEMOTION` of SDL2. -/
def SDL_MOUSEMOTION : Nat := 0x400

/-- Event type `SDL_MOUSEBUTTONDOWN` of SDL2. -/
def SDL_MOUSEBUTTONDOWN : Nat := 0x401

/-- Event type `SDL_MOUSEBUTTONUP` of SDL2. -/
def SDL_MOUSEBUTTONUP : Nat := 0x402

/-- Button index `SDL_BUTTON_LEFT` of SDL2. -/
def SDL_BUTTON_LEFT : Nat := 1

/-- Button index `SDL_BUTTON_MIDDLE` of SDL2. -/
def SDL_BUTTON_MIDDLE : Nat := 2

/-- Button index `SDL_BUTTON_RIGHT` of SDL2. -/
def SDL_BUTTON_RIGHT : Nat := 3

/-- The fields of `SDL_Event` the program reads: `type`, the pointer position
(`motion.x`, `motion.y`, at the same place in the union as `button.x`,
`button.y`) and `button.button`. -/
structure SDL_Event where
  type : Nat
  x : Int
  y : Int
  button : Nat

/-- Source: `void event(SDL_Event* e)`: the globals after the call. In the
`SDL_MOUSEMOTION` branch the source first formats the two plane coordinates
with `sprintf` into `char title[80]`; `titleBytes` is the number of bytes that
call writes and `eventDefined` tells whether they fit. `event` gives the state
after a call that is defined; the other branches are always defined. -/
def event (s : State) (e : SDL_Event) : State :=
  if e.type = SDL_MOUSEBUTTONUP then
    let s1 : State := { s with gOffsetX := scaleX s e.x }
    let s2 : State := { s1 with gOffsetY := scaleY s1 e.y }
    if e.button = SDL_BUTTON_LEFT then
      { s2 with gScale := F64.mul s2.gScale c0_5, gResolution := INITIAL_RESOLUTION }
    else if e.button = SDL_BUTTON_RIGHT then
      { s2 with gScale := F64.mul s2.gScale c1_5, gResolution := INITIAL_RESOLUTION }
    else s2
  else if e.type = SDL_MOUSEBUTTONDOWN then s
  else if e.type = SDL_MOUSEMOTION then
    { s with title := some (scaleX s e.x, scaleY s e.y) }
  else s

/-- The state after `n` further calls of `render` with no event in between. -/
def renderTimes (fuel : Nat) : Nat → State → Option State
  | 0, s => some s
  | n + 1, s =>
    match render fuel s with
    | none => none
    | some s1 => renderTimes fuel n s1

/-- The state `s` with the viewport replaced. -/
def setView (s : State) (scale offsetX offsetY : F64) : State :=
  { s with gScale := scale, gOffsetX := offsetX, gOffsetY := offsetY }

/-- The globals once the start-up view is fully refined: `gResolution = 0` and
`gLastScale = gScale = 2`, offset (0, 0). -/
def refinedState : State := { initState with gResolution := 0, gLastScale := ofInt 2 }

/-- The start-up state with the scale replaced by a NaN. -/
def nanScaleState : State := { initState with gScale := F64.nan }

/-- The start-up state with the scale replaced by `+inf`. -/
def infScaleState : State := { initState with gScale := F64.inf false }

/-- The value of `x` after `n` executions of `x *= c`. -/
def timesC (c : F64) : Nat → F64 → F64
  | 0, x => x
  | n + 1, x => timesC c n (F64.mul x c)

/-- The state after `n` releases of the right button at the surface centre
`(320, 240)`. -/
def zoomOutCentre : Nat → State → State
  | 0, s => s
  | n + 1, s =>
    zoomOutCentre n
      (event s { type := SDL_MOUSEBUTTONUP, x := 320, y := 240, button := SDL_BUTTON_RIGHT })

/-- The alpha byte (bits 24..31) of a pixel of format `SDL_PIXELFORMAT_ARGB8888`. -/
def alphaByte (c : Nat) : Nat := c / 2 ^ 24 % 2 ^ 8

/-- The red byte (bits 16..23) of a pixel of format `SDL_PIXELFORMAT_ARGB8888`. -/
def redByte (c : Nat) : Nat := c / 2 ^ 16 % 2 ^ 8

/-- The green byte (bits 8..15) of a pixel of format `SDL_PIXELFORMAT_ARGB8888`. -/
def greenByte (c : Nat) : Nat := c / 2 ^ 8 % 2 ^ 8

/-- The blue byte (bits 0..7) of a pixel of format `SDL_PIXELFORMAT_ARGB8888`. -/
def blueByte (c : Nat) : Nat := c % 2 ^ 8

end Mandel

namespace F64

/-- Comparison `a < b` (false when either side is NaN). The program compares
doubles with `<=` and `!=` only; `<` is used to state properties. -/
def lt : F64 → F64 → Bool
  | nan, _ => false
  | _, nan => false
  | inf s, inf t => s && !t
  | inf s, fin _ _ _ => s
  | fin _ _ _, inf t => !t
  | fin s m e, fin t n f => decide (scaled s m e (min e f) < scaled t n f (min e f))

end F64

namespace Mandel

open F64

/-- One step of the main loop as the engine sees it: an input event handed to
`event`, or a call of `render` (with the fuel of its pass). -/
inductive Step where
  | input (e : SDL_Event)
  | tick (fuel : Nat)

/-- The effect of one step; a call of `render` whose pass does not return has
no successor state. An input step applies `event` also where the call is not
defined (`eventDefined`): the states `run` reaches include those of every run
of the program, so an invariant of `run` holds in the program. -/
def step (s : State) : Step → Option State
  | Step.input e => some (event s e)
  | Step.tick fuel => render fuel s

/-- The state after a sequence of steps. -/
def run : List Step → State → Option State
  | [], s => some s
  | a :: rest, s =>
    match step s a with
    | none => none
    | some s1 => run rest s1

/-- The state after `n` events equal to `e`. -/
def repeatEvent (e : SDL_Event) : Nat → State → State
  | 0, s => s
  | n + 1, s => repeatEvent e n (event s e)

/-- A release of the left button at the surface centre. -/
def leftAtCentre : SDL_Event :=
  { type := SDL_MOUSEBUTTONUP, x := 320, y := 240, button := SDL_BUTTON_LEFT }

/-- The value `x*x + y*y` the loop guard compares with 4. -/
def normSq (z : Orbit) : F64 := F64.add (F64.mul z.x z.x) (F64.mul z.y z.y)

/-- The loop variables after `k` executions of the loop body from
`x = 0; y = 0; iteration = 0`: the point `z_k` of the orbit, with `k`. -/
def orbit (x0 y0 : F64) (k : Nat) : Orbit :=
  (loopBody x0 y0)^[k] { x := ofInt 0, y := ofInt 0, iteration := 0 }

/-- Source: the inner loop of `mandelbrot()`,
`for (screenY = ...; screenY < SCREEN_HEIGHT; screenY++)`, whose body iterates
the point of the pixel and stores `iteration << 8` in
`pixels[screenY * SCREEN_WIDTH + screenX]`. -/
def mandelbrotY (screenX screenY : Int) (s : State) : Option State :=
  if screenY < SCREEN_HEIGHT then
    match store s (screenY * SCREEN_WIDTH + screenX)
        (escapeTime (scaleX s screenX) (scaleY s screenY)) with
    | none => none
    | some s1 => mandelbrotY screenX (screenY + 1) s1
  else some s
termination_by (SCREEN_HEIGHT - screenY).toNat
decreasing_by
  simp only [SCREEN_HEIGHT] at *
  omega

/-- Source: the outer loop of `mandelbrot()`,
`for (screenX = ...; screenX < SCREEN_WIDTH; screenX++)`. -/
def mandelbrotX (screenX : Int) (s : State) : Option State :=
  if screenX < SCREEN_WIDTH then
    match mandelbrotY screenX 0 s with
    | none => none
    | some s1 => mandelbrotX (screenX + 1) s1
  else some s
termination_by (SCREEN_WIDTH - screenX).toNat
decreasing_by
  simp only [SCREEN_WIDTH] at *
  omega

/-- Source: `void mandelbrot()`, the plain full-resolution render. -/
def mandelbrot (s : State) : Option State := mandelbrotX 0 s

/-- A write to `pixels`: the column and the row of the cell the program
addresses and the index it computes for it. -/
structure Write where
  x : Int
  y : Int
  idx : Int

/-- The assignment `pixels[idx] = iteration << 8` for the cell `(x, y)`,
recorded in the log of writes. -/
def storeLog (x y idx iteration : Int) (st : State × List Write) : Option (State × List Write) :=
  match store st.1 idx iteration with
  | none => none
  | some s1 => some (s1, { x := x, y := y, idx := idx } :: st.2)

/-- The loop `fillRy` with its writes recorded. -/
def fillRyLog (resolution screenX screenY iteration rx ry : Int) (st : State × List Write) :
    Option (State × List Write) :=
  if ry < resolution then
    match storeLog (screenX + rx) (screenY + ry)
        ((screenY + ry) * SCREEN_WIDTH + screenX + rx) iteration st with
    | none => none
    | some st1 => fillRyLog resolution screenX screenY iteration rx (ry + 1) st1
  else some st
termination_by (resolution - ry).toNat
decreasing_by omega

/-- The loop `fillRx` with its writes recorded. -/
def fillRxLog (resolution screenX screenY iteration rx : Int) (st : State × List Write) :
    Option (State × List Write) :=
  if rx < resolution then
    match fillRyLog resolution screenX screenY iteration rx 0 st with
    | none => none
    | some st1 => fillRxLog resolution screenX screenY iteration (rx + 1) st1
  else some st
termination_by (resolution - rx).toNat
decreasing_by omega

/-- The body `blockBody` with its writes recorded. -/
def blockBodyLog (resolution offset screenX screenY : Int) (st : State × List Write) :
    Option (State × List Write) :=
  let x0 := scaleX st.1 (screenX - offset)
  let y0 := scaleY st.1 (screenY - offset)
  let iteration := escapeTime x0 y0
  match (if resolution = 1 then
      storeLog screenX screenY (screenY * SCREEN_WIDTH + screenX) iteration st
    else some st) with
  | none => none
  | some st1 => fillRxLog resolution screenX screenY iteration 0 st1

/-- The loop `loopY` with its writes recorded. -/
def loopYLog (resolution offset screenX : Int) :
    Nat → Int → State × List Write → Option (State × List Write)
  | 0, _, _ => none
  | fuel + 1, screenY, st =>
    if screenY < SCREEN_HEIGHT then
      match blockBodyLog resolution offset screenX screenY st with
      | none => none
      | some st1 => loopYLog resolution offset screenX fuel (screenY + resolution) st1
    else some st

/-- The loop `loopX` with its writes recorded. -/
def loopXLog (resolution offset : Int) :
    Nat → Int → State × List Write → Option (State × List Write)
  | 0, _, _ => none
  | fuel + 1, screenX, st =>
    if screenX < SCREEN_WIDTH then
      match loopYLog resolution offset screenX fuel 0 st with
      | none => none
      | some st1 => loopXLog resolution offset fuel (screenX + resolution) st1
    else some st

/-- The function `mandelbrot3` with its writes recorded, latest first. -/
def mandelbrot3Log (fuel : Nat) (resolution : Int) (s : State) : Option (State × List Write) :=
  loopXLog resolution (sampleOffset resolution) fuel 0 (s, [])

/-- The write addresses a cell of the surface with the index of that cell. -/
def Write.onSurface (w : Write) : Prop :=
  w.idx = w.y * 640 + w.x ∧ 0 ≤ w.x ∧ w.x < 640 ∧ 0 ≤ w.y ∧ w.y < 480

end Mandel

namespace F64

/-- The exponent of the unit in the last place of the double nearest to
`m * 2^e`, as `round` chooses it. -/
def expOf (m : Nat) (e : Int) : Int := max (e + (bits m : Nat) - 53) (-1074)

/-- The integer nearest to `m / 2^sh`, ties to even, as `round` computes it. -/
def rne (m sh : Nat) : Nat :=
  if 2 ^ (sh - 1) < m % 2 ^ sh ∨ (m % 2 ^ sh = 2 ^ (sh - 1) ∧ m / 2 ^ sh % 2 = 1) then
    m / 2 ^ sh + 1
  else m / 2 ^ sh

/-- The significand `round` computes for `m * 2^e` at the exponent `expOf m e`,
before a carry to `2^53` is renormalised. -/
def mantOf (m : Nat) (e : Int) : Nat :=
  if expOf m e ≤ e then m * 2 ^ (e - expOf m e).toNat else rne m (expOf m e - e).toNat

/-- The double of sign `s` and value `q * 2^e` for `q ≤ 2^53`: a carry to
`2^53` moves to the next exponent, an exponent above 971 is an overflow. -/
def pack (s : Bool) (q : Nat) (e : Int) : F64 :=
  if 971 < e then inf s
  else if q = 2 ^ 53 then (if 971 < e + 1 then inf s else fin s (2 ^ 52) (e + 1))
  else fin s q e

end F64

namespace Mandel

open F64

/-- A release of the left button at the top left pixel of the surface. -/
def leftAtOrigin : SDL_Event :=
  { type := SDL_MOUSEBUTTONUP, x := 0, y := 0, button := SDL_BUTTON_LEFT }

/-- The state after a left release at the top left pixel followed by 44 left
releases at the surface centre: the view is centred at `(-1, 0.75)` and
`gScale` is `2^-44`. -/
def zoomedAtCorner : State := repeatEvent leftAtCentre 44 (event initState leftAtOrigin)

end Mandel

namespace F64

/-- Number of decimal digits of `n` (1 for 0), dividing by 10 at most `fuel`
times. -/
def decimalDigitsAux : Nat → Nat → Nat
  | 0, _ => 1
  | fuel + 1, n => if n < 10 then 1 else decimalDigitsAux fuel (n / 10) + 1

/-- Number of decimal digits of `n` (1 for 0). -/
def decimalDigits (n : Nat) : Nat := decimalDigitsAux n n

/-- The value `m * 2^e` in millionths, rounded to the nearest integer, ties to
even: the digits `printf` shows for `%f`. -/
def millionths (m : Nat) (e : Int) : Nat :=
  if 0 ≤ e then m * 10 ^ 6 * 2 ^ e.toNat else rne (m * 10 ^ 6) (-e).toNat

/-- Number of characters `printf` writes for the conversion `%f` of a double:
a minus sign for a set sign bit, the integer part of the value rounded to six
decimals, the point and six decimals; `inf` or `-inf` for an infinity. A NaN is
written `nan` or `-nan` according to a sign bit that `F64.nan` does not carry:
the longer form is counted. -/
def fmtLen : F64 → Nat
  | nan => 4
  | inf s => (if s then 1 else 0) + 3
  | fin s m e => (if s then 1 else 0) + decimalDigits (millionths m e / 10 ^ 6) + 1 + 6

end F64

namespace Mandel

open F64

/-- Source: `char title[80];` in the `SDL_MOUSEMOTION` branch of `event`. -/
def TITLE_SIZE : Nat := 80

/-- Number of bytes written by
`sprintf(title, "offset x: %f, offset y: %f", x, y)`: the characters of the
format, the two numbers and the terminating NUL. Exact when neither number is
a NaN, an upper bound otherwise. -/
def titleBytes (x y : F64) : Nat :=
  "offset x: ".length + fmtLen x + ", offset y: ".length + fmtLen y + 1

/-- Whether the call `event(e)` in state `s` stays within its buffers: in the
`SDL_MOUSEMOTION` branch the formatted title must fit `char title[80]`. -/
def eventDefined (s : State) (e : SDL_Event) : Bool :=
  if e.type = SDL_MOUSEBUTTONUP then true
  else if e.type = SDL_MOUSEBUTTONDOWN then true
  else if e.type = SDL_MOUSEMOTION then
    decide (titleBytes (scaleX s e.x) (scaleY s e.y) ≤ TITLE_SIZE)
  else true

/-- A release of the right button at the surface centre. -/
def rightAtCentre : SDL_Event :=
  { type := SDL_MOUSEBUTTONUP, x := 320, y := 240, button := SDL_BUTTON_RIGHT }

/-- A pointer motion to the top left pixel of the surface. -/
def motionAtOrigin : SDL_Event :=
  { type := SDL_MOUSEMOTION, x := 0, y := 0, button := 0 }

end Mandel

namespace F64

/-- The rational value `(-1)^s * m * 2^e` of a finite double; 0 for a NaN and
for the infinities, which have none. -/
def toRat : F64 → ℚ
  | fin s m e => (if s then -1 else 1) * ((m : ℚ) * (2 : ℚ) ^ e)
  | _ => 0

end F64

/-! ## IEEE 754 binary64: exactness of rounding on representable values -/

namespace F64

theorem bitsAux_bounds (fuel : Nat) :
    ∀ n : Nat, n ≤ fuel → n < 2 ^ bitsAux fuel n ∧ (n ≠ 0 → 2 ^ (bitsAux fuel n - 1) ≤ n) := by
  induction fuel with
  | zero =>
    intro n hn
    have : n = 0 := by omega
    subst this
    simp [bitsAux]
  | succ fuel ih =>
    intro n hn
    by_cases h0 : n = 0
    · subst h0
      simp [bitsAux]
    · simp only [bitsAux, if_neg h0, Nat.add_sub_cancel]
      obtain ⟨h1, h2⟩ := ih (n / 2) (by omega)
      refine ⟨?_, fun _ => ?_⟩
      · rw [pow_succ]
        omega
      · by_cases h3 : n / 2 = 0
        · rw [h3]
          have : bitsAux fuel 0 = 0 := by cases fuel <;> simp [bitsAux]
          rw [this]
          simp
          omega
        · have h4 := h2 h3
          have h5 : 1 ≤ bitsAux fuel (n / 2) := by
            by_contra hc
            have : bitsAux fuel (n / 2) = 0 := by omega
            rw [this] at h1
            simp at h1
            exact h3 h1
          have h6 : 2 ^ bitsAux fuel (n / 2) = 2 ^ (bitsAux fuel (n / 2) - 1) * 2 := by
            rw [← pow_succ]
            congr 1
            omega
          rw [h6]
          omega

theorem bits_eq (n k : Nat) (h1 : 2 ^ k ≤ n) (h2 : n < 2 ^ (k + 1)) : bits n = k + 1 := by
  have hn : n ≠ 0 := by
    have : 0 < 2 ^ k := Nat.two_pow_pos k
    omega
  obtain ⟨a, b⟩ := bitsAux_bounds n n (le_refl n)
  have b := b hn
  unfold bits
  have hlt : k < bitsAux n n := by
    by_contra hc
    have : 2 ^ bitsAux n n ≤ 2 ^ k := Nat.pow_le_pow_right (by decide) (by omega)
    omega
  have hle : bitsAux n n - 1 < k + 1 := by
    by_contra hc
    have : 2 ^ (k + 1) ≤ 2 ^ (bitsAux n n - 1) := Nat.pow_le_pow_right (by decide) (by omega)
    omega
  omega

theorem bits_le (n k : Nat) (h : n < 2 ^ k) : bits n ≤ k := by
  by_cases hn : n = 0
  · subst hn
    unfold bits
    simp [bitsAux]
  · obtain ⟨-, b⟩ := bitsAux_bounds n n (le_refl n)
    have b := b hn
    unfold bits
    by_contra hc
    have : 2 ^ k ≤ 2 ^ (bitsAux n n - 1) := Nat.pow_le_pow_right (by decide) (by omega)
    omega

/-- Rounding is the identity on a representable value, given with its
significand scaled to the exponent -1074. -/
theorem round_of_double (t : Bool) (n : Nat) (f : Int) (h : IsDouble (fin t n f)) (hn : n ≠ 0) :
    round t (n * 2 ^ (f - -1074).toNat) (-1074) = fin t n f := by
  obtain ⟨h1, h2, h3, h4⟩ := h
  have hpos : 0 < 2 ^ (f - -1074).toNat := Nat.two_pow_pos _
  have hm : n * 2 ^ (f - -1074).toNat ≠ 0 := Nat.mul_ne_zero hn (by omega)
  unfold round
  rw [if_neg hm]
  simp only
  by_cases hf : f = -1074
  · subst hf
    have hb : bits (n * 2 ^ ((-1074 : Int) - -1074).toNat) ≤ 53 := by
      apply bits_le
      simpa using h1
    rw [if_neg (by omega), if_pos (by omega)]
    have e1 : max (-1074 + ((bits (n * 2 ^ ((-1074 : Int) - -1074).toNat) : Nat) : Int) - 53)
        (-1074) = -1074 := by omega
    rw [e1]
    simp
  · have hnorm : 2 ^ 52 ≤ n := by omega
    have hj : (f - -1074).toNat = (f + 1074).toNat := by congr 1
    generalize hjj : (f - -1074).toNat = j at *
    have hjpos : 0 < j := by omega
    have hfj : f = (j : Int) - 1074 := by omega
    have hb : bits (n * 2 ^ j) = 52 + j + 1 := by
      apply bits_eq
      · rw [pow_add]
        exact Nat.mul_le_mul_right _ hnorm
      · have : 2 ^ (52 + j + 1) = 2 ^ 53 * 2 ^ j := by
          rw [show 52 + j + 1 = 53 + j by omega, pow_add]
        rw [this]
        exact Nat.mul_lt_mul_of_pos_right h1 hpos
    rw [hb]
    have e1 : max (-1074 + ((52 + j + 1 : Nat) : Int) - 53) (-1074) = f := by
      push_cast
      omega
    rw [e1, if_neg (by omega), if_neg (by omega)]
    have hsh : (f - -1074).toNat = j := by omega
    rw [hsh]
    have hq : n * 2 ^ j / 2 ^ j = n := Nat.mul_div_cancel _ hpos
    have hr : n * 2 ^ j % 2 ^ j = 0 := Nat.mul_mod_left _ _
    have hh : 0 < 2 ^ (j - 1) := Nat.two_pow_pos _
    rw [hq, hr]
    have hc : ¬ (2 ^ (j - 1) < 0 ∨ (0 = 2 ^ (j - 1) ∧ n % 2 = 1)) := by omega
    rw [if_neg hc, if_neg (by omega), if_neg (by omega), if_neg (by omega)]

theorem scaled_zero (s : Bool) (e c : Int) : scaled s 0 e c = 0 := by
  unfold scaled
  cases s <;> simp

theorem eq_self_of_not_nan (a : F64) (h : isNaN a = false) : F64.eq a a = true := by
  cases a with
  | nan => simp [isNaN] at h
  | inf s => simp [F64.eq]
  | fin s m e => simp [F64.eq]

theorem add_zero_left_eq (z : Bool) (b : F64) (hd : IsDouble b) (hn : isNaN b = false) :
    F64.eq (F64.add (fin z 0 (-1074)) b) b = true := by
  cases b with
  | nan => simp [isNaN] at hn
  | inf t => simp [F64.add, F64.eq]
  | fin t n f =>
    have hf : -1074 ≤ f := hd.2.1
    have hmin : min (-1074) f = -1074 := by omega
    unfold F64.add
    simp only [hmin, scaled_zero, zero_add]
    by_cases h0 : n = 0
    · subst h0
      simp [scaled_zero, F64.eq]
    · have hpos : 0 < 2 ^ (f - -1074).toNat := Nat.two_pow_pos _
      have hm : 0 < n * 2 ^ (f - -1074).toNat := Nat.mul_pos (by omega) hpos
      have hk : scaled t n f (-1074) ≠ 0 := by
        unfold scaled
        cases t <;> simp <;> omega
      have hsign : decide (scaled t n f (-1074) < 0) = t := by
        unfold scaled
        cases t
        · simp
        · simp
          omega
      have habs : (scaled t n f (-1074)).natAbs = n * 2 ^ (f - -1074).toNat := by
        unfold scaled
        cases t
        · exact Int.natAbs_ofNat _
        · simp only [if_true, Int.natAbs_neg]
          exact Int.natAbs_ofNat _
      rw [if_neg hk, hsign, habs, round_of_double t n f hd h0]
      exact eq_self_of_not_nan _ rfl

theorem mul_zero_left (z : Bool) (e : Int) (b : F64) (hb : isFinite b = true) :
    ∃ t : Bool, F64.mul (fin z 0 e) b = fin t 0 (-1074) := by
  cases b with
  | nan => simp [isFinite] at hb
  | inf t => simp [isFinite] at hb
  | fin t n f => exact ⟨xor z t, by simp [F64.mul, F64.round]⟩

end F64

namespace Mandel

open F64

/-! ### The escape-time loop -/


/-- The run of the loop from `z`: the guard holds for the first `n` states of
the orbit of `loopBody` and fails at the `n`-th, which the loop returns. -/
theorem escapeLoop_run (x0 y0 : F64) (m : Nat) :
    ∀ z : Orbit, (0x100 - z.iteration).toNat = m → z.iteration ≤ 0x100 →
      ∃ n : Nat, z.iteration + n ≤ 0x100 ∧
        escapeLoop x0 y0 z = (loopBody x0 y0)^[n] z ∧
        loopCond (escapeLoop x0 y0 z) = false ∧
        ∀ k : Nat, k < n → loopCond ((loopBody x0 y0)^[k] z) = true := by
  induction m with
  | zero =>
    intro z hm hz
    have hc : loopCond z = false := by
      simp only [loopCond, Bool.and_eq_false_imp, decide_eq_false_iff_not]
      intro _
      omega
    refine ⟨0, by simpa using hz, ?_, ?_, ?_⟩
    · rw [escapeLoop]; simp [hc]
    · rw [escapeLoop]; simp [hc]
    · intro k hk; omega
  | succ m ih =>
    intro z hm hz
    by_cases hc : loopCond z = true
    · have hlt : z.iteration ≤ 0xff := by
        simp only [loopCond, Bool.and_eq_true, decide_eq_true_eq] at hc
        exact hc.2
      have hb : (loopBody x0 y0 z).iteration = z.iteration + 1 := rfl
      obtain ⟨n, hn, hrun, hend, hall⟩ := ih (loopBody x0 y0 z) (by rw [hb]; omega) (by rw [hb]; omega)
      have hunf : escapeLoop x0 y0 z = escapeLoop x0 y0 (loopBody x0 y0 z) := by
        rw [escapeLoop]; simp [hc]
      refine ⟨n + 1, by rw [hb] at hn; push_cast; omega, ?_, ?_, ?_⟩
      · rw [hunf, hrun, Function.iterate_succ_apply]
      · rw [hunf]; exact hend
      · intro k hk
        cases k with
        | zero => simpa using hc
        | succ k =>
          rw [Function.iterate_succ_apply]
          exact hall k (by omega)
    · have hc2 : loopCond z = false := by simpa using hc
      refine ⟨0, by simpa using hz, ?_, ?_, ?_⟩
      · rw [escapeLoop]; simp [hc2]
      · rw [escapeLoop]; simp [hc2]
      · intro k hk; omega

theorem loopBody_iterate_iteration (x0 y0 : F64) (n : Nat) (z : Orbit) :
    ((loopBody x0 y0)^[n] z).iteration = z.iteration + n := by
  induction n generalizing z with
  | zero => simp
  | succ n ih =>
    rw [Function.iterate_succ_apply, ih]
    simp only [loopBody]
    push_cast
    omega

theorem loopCond_origin (i : Int) (hi : i ≤ 0xff) :
    loopCond { x := ofInt 0, y := ofInt 0, iteration := i } = true := by
  have h : F64.le (F64.add (F64.mul (ofInt 0) (ofInt 0)) (F64.mul (ofInt 0) (ofInt 0))) (ofInt 4)
      = true := by decide
  simp only [loopCond, h, Bool.true_and, decide_eq_true_eq]
  exact hi

theorem loopBody_origin (i : Int) :
    loopBody (ofInt 0) (ofInt 0) { x := ofInt 0, y := ofInt 0, iteration := i }
      = { x := ofInt 0, y := ofInt 0, iteration := i + 1 } := by
  have hx : F64.add (F64.sub (F64.mul (ofInt 0) (ofInt 0)) (F64.mul (ofInt 0) (ofInt 0))) (ofInt 0)
      = ofInt 0 := by decide
  have hy : F64.add (F64.mul (F64.mul (ofInt 2) (ofInt 0)) (ofInt 0)) (ofInt 0) = ofInt 0 := by
    decide
  simp only [loopBody, hx, hy]

theorem escapeLoop_origin (n : Nat) :
    ∀ i : Int, (0x100 - i).toNat = n → i ≤ 0x100 →
      (escapeLoop (ofInt 0) (ofInt 0) { x := ofInt 0, y := ofInt 0, iteration := i }).iteration
        = 256 := by
  induction n with
  | zero =>
    intro i hn hi
    have hc : loopCond { x := ofInt 0, y := ofInt 0, iteration := i } = false := by
      simp only [loopCond, Bool.and_eq_false_imp, decide_eq_false_iff_not]
      intro _
      omega
    rw [escapeLoop, if_neg (by simp [hc])]
    show i = 256
    omega
  | succ n ih =>
    intro i hn hi
    have hc := loopCond_origin i (by omega)
    rw [escapeLoop, if_pos hc, loopBody_origin]
    exact ih (i + 1) (by omega) (by omega)

theorem escapeTime_two_two : escapeTime (ofInt 2) (ofInt 2) = 1 := by
  have hc0 : loopCond { x := ofInt 0, y := ofInt 0, iteration := 0 } = true :=
    loopCond_origin 0 (by decide)
  have hb : loopBody (ofInt 2) (ofInt 2) { x := ofInt 0, y := ofInt 0, iteration := 0 }
      = { x := ofInt 2, y := ofInt 2, iteration := 1 } := by
    have hx : F64.add (F64.sub (F64.mul (ofInt 0) (ofInt 0)) (F64.mul (ofInt 0) (ofInt 0)))
        (ofInt 2) = ofInt 2 := by decide
    have hy : F64.add (F64.mul (F64.mul (ofInt 2) (ofInt 0)) (ofInt 0)) (ofInt 2) = ofInt 2 := by
      decide
    simp only [loopBody, hx, hy]
    rfl
  have hc1 : loopCond { x := ofInt 2, y := ofInt 2, iteration := 1 } = false := by
    have h : F64.le (F64.add (F64.mul (ofInt 2) (ofInt 2)) (F64.mul (ofInt 2) (ofInt 2)))
        (ofInt 4) = false := by decide
    simp only [loopCond, h, Bool.false_and]
  unfold escapeTime
  rw [escapeLoop, if_pos hc0, hb, escapeLoop, if_neg (by simp [hc1])]

theorem colorOf_eq (i : Int) (h0 : 0 ≤ i) (h1 : i ≤ 256) : (colorOf i : Int) = i * 256 := by
  unfold colorOf
  have h := Int.shiftLeft_eq_mul_pow i 8
  simp only [Nat.cast_ofNat] at h
  rw [h]
  norm_num
  omega

/-! ### The block fill -/


theorem setPixels_setPixels (s : State) (p q : Nat → Nat) :
    setPixels (setPixels s p) q = setPixels s q := rfl

theorem setPixels_pixels (s : State) (p : Nat → Nat) : (setPixels s p).pixels = p := rfl

theorem setPixels_self (s : State) : setPixels s s.pixels = s := rfl

theorem blockColor_setPixels (s : State) (p : Nat → Nat) (off ox oy : Int) :
    blockColor (setPixels s p) off ox oy = blockColor s off ox oy := rfl

theorem paint_empty (p : Nat → Nat) (g : Int → Int → Nat) (x0 x1 y0 y1 : Int)
    (h : x1 ≤ x0 ∨ y1 ≤ y0) : paint p g x0 x1 y0 y1 = p := by
  funext i
  unfold paint
  rw [if_neg]
  omega

theorem store_some (s : State) (idx iter : Int) (h0 : 0 ≤ idx) (h1 : idx < 1228800) :
    store s idx iter
      = some (setPixels s (Function.update s.pixels idx.toNat (colorOf iter))) := by
  unfold store setPixels
  rw [if_pos]
  simp only [PIXELS_LEN, SCREEN_WIDTH, SCREEN_HEIGHT]
  omega

theorem fillRy_spec (R sx sy iter rx : Int) (h1 : 0 ≤ sx + rx) (h2 : sx + rx < 640)
    (h3 : 0 ≤ sy) (h4 : sy + R ≤ 1920) (n : Nat) :
    ∀ (ry : Int) (s : State), (R - ry).toNat = n → 0 ≤ ry →
      fillRy R sx sy iter rx ry s = some (setPixels s
        (paint s.pixels (fun _ _ => colorOf iter) (sx + rx) (sx + rx + 1) (sy + ry) (sy + R))) := by
  induction n with
  | zero =>
    intro ry s hn hry
    rw [fillRy, if_neg (by omega), paint_empty _ _ _ _ _ _ (by omega), setPixels_self]
  | succ n ih =>
    intro ry s hn hry
    rw [fillRy, if_pos (by omega)]
    simp only [SCREEN_WIDTH]
    rw [store_some s _ iter (by omega) (by omega)]
    simp only
    rw [ih (ry + 1) _ (by omega) (by omega), setPixels_setPixels, setPixels_pixels]
    congr 2
    funext i
    simp only [paint, Function.update_apply]
    split_ifs <;> first | rfl | omega

theorem fillRx_spec (R sx sy iter : Int) (h1 : 0 ≤ sx) (h2 : sx + R ≤ 640)
    (h3 : 0 ≤ sy) (h4 : sy + R ≤ 1920) (n : Nat) :
    ∀ (rx : Int) (s : State), (R - rx).toNat = n → 0 ≤ rx →
      fillRx R sx sy iter rx s = some (setPixels s
        (paint s.pixels (fun _ _ => colorOf iter) (sx + rx) (sx + R) sy (sy + R))) := by
  induction n with
  | zero =>
    intro rx s hn hrx
    rw [fillRx, if_neg (by omega), paint_empty _ _ _ _ _ _ (by omega), setPixels_self]
  | succ n ih =>
    intro rx s hn hrx
    rw [fillRx, if_pos (by omega)]
    rw [fillRy_spec R sx sy iter rx (by omega) (by omega) h3 h4 _ 0 s rfl (by omega)]
    simp only
    rw [ih (rx + 1) _ (by omega) (by omega), setPixels_setPixels, setPixels_pixels]
    congr 2
    funext i
    simp only [paint]
    split_ifs <;> first | rfl | omega

theorem blockBody_spec (R off sx sy : Int) (s : State) (hR : 1 ≤ R) (h1 : 0 ≤ sx)
    (h2 : sx + R ≤ 640) (h3 : 0 ≤ sy) (h4 : sy + R ≤ 1920) :
    blockBody R off sx sy s = some (setPixels s
      (paint s.pixels (fun _ _ => blockColor s off sx sy) sx (sx + R) sy (sy + R))) := by
  unfold blockBody
  simp only [SCREEN_WIDTH]
  by_cases h : R = 1
  · subst h
    rw [if_pos rfl, store_some s _ _ (by omega) (by omega)]
    simp only
    rw [fillRx_spec 1 sx sy _ h1 h2 h3 h4 _ 0 _ rfl (by omega), setPixels_setPixels,
      setPixels_pixels]
    congr 2
    funext i
    simp only [paint, Function.update_apply, blockColor]
    split_ifs <;> first | rfl | omega
  · rw [if_neg h]
    simp only
    rw [fillRx_spec R sx sy _ h1 h2 h3 h4 _ 0 _ rfl (by omega)]
    congr 2
    funext i
    simp only [paint, blockColor]
    split_ifs <;> first | rfl | omega

theorem loopY_spec (R off sx : Int) (hR : R = 1 ∨ R = 2 ∨ R = 4 ∨ R = 8 ∨ R = 16)
    (h1 : 0 ≤ sx) (h2 : sx + R ≤ 640) (fuel : Nat) :
    ∀ (sy : Int) (s : State), 0 ≤ sy → sy % R = 0 → sy ≤ 480 → (480 - sy) / R + 1 ≤ fuel →
      loopY R off sx fuel sy s = some (setPixels s
        (paint s.pixels (fun _ y => blockColor s off sx (y - y % R)) sx (sx + R) sy 480)) := by
  induction fuel with
  | zero =>
    intro sy s h0 hm hle hf
    rcases hR with rfl | rfl | rfl | rfl | rfl <;> omega
  | succ fuel ih =>
    intro sy s h0 hm hle hf
    rw [loopY]
    simp only [SCREEN_HEIGHT]
    by_cases hlt : sy < 480
    · rw [if_pos hlt, blockBody_spec R off sx sy s (by omega) h1 h2 h0 (by omega)]
      simp only
      have hf2 : (480 - (sy + R)) / R + 1 ≤ fuel := by
        rcases hR with rfl | rfl | rfl | rfl | rfl <;> omega
      have hm2 : (sy + R) % R = 0 := by
        rcases hR with rfl | rfl | rfl | rfl | rfl <;> omega
      have hle2 : sy + R ≤ 480 := by
        rcases hR with rfl | rfl | rfl | rfl | rfl <;> omega
      rw [ih (sy + R) _ (by omega) hm2 hle2 hf2, setPixels_setPixels, setPixels_pixels]
      simp only [blockColor_setPixels]
      congr 2
      funext i
      simp only [paint]
      rcases hR with rfl | rfl | rfl | rfl | rfl <;>
        (split_ifs <;> first | rfl | omega | (congr 1; omega))
    · rw [if_neg hlt, paint_empty _ _ _ _ _ _ (by omega), setPixels_self]

theorem loopX_spec (R off : Int) (hR : R = 1 ∨ R = 2 ∨ R = 4 ∨ R = 8 ∨ R = 16) (fuel : Nat) :
    ∀ (sx : Int) (s : State), 0 ≤ sx → sx % R = 0 → sx ≤ 640 →
      (640 - sx) / R + 480 / R + 2 ≤ fuel →
      loopX R off fuel sx s = some (setPixels s
        (paint s.pixels (fun x y => blockColor s off (x - x % R) (y - y % R)) sx 640 0 480)) := by
  induction fuel with
  | zero =>
    intro sx s h0 hm hle hf
    rcases hR with rfl | rfl | rfl | rfl | rfl <;> omega
  | succ fuel ih =>
    intro sx s h0 hm hle hf
    rw [loopX]
    simp only [SCREEN_WIDTH]
    by_cases hlt : sx < 640
    · have hle2 : sx + R ≤ 640 := by
        rcases hR with rfl | rfl | rfl | rfl | rfl <;> omega
      have hfy : (480 - 0) / R + 1 ≤ fuel := by
        rcases hR with rfl | rfl | rfl | rfl | rfl <;> omega
      have hf2 : (640 - (sx + R)) / R + 480 / R + 2 ≤ fuel := by
        rcases hR with rfl | rfl | rfl | rfl | rfl <;> omega
      have hm2 : (sx + R) % R = 0 := by
        rcases hR with rfl | rfl | rfl | rfl | rfl <;> omega
      have hm0 : (0 : Int) % R = 0 := by simp
      rw [if_pos hlt, loopY_spec R off sx hR h0 hle2 fuel 0 s (by omega) hm0 (by omega) hfy]
      simp only
      rw [ih (sx + R) _ (by omega) hm2 hle2 hf2, setPixels_setPixels, setPixels_pixels]
      simp only [blockColor_setPixels]
      congr 2
      funext i
      simp only [paint]
      rcases hR with rfl | rfl | rfl | rfl | rfl <;>
        (split_ifs <;> first | rfl | omega | (congr 1; omega))
    · rw [if_neg hlt, paint_empty _ _ _ _ _ _ (by omega), setPixels_self]

/-- Closed form of the buffer after `mandelbrot3 R`, for the block sizes that
divide the surface: the surface cells hold the colour of their block, the rest
of the array is untouched. -/
theorem mandelbrot3_spec (R : Int) (hR : R = 1 ∨ R = 2 ∨ R = 4 ∨ R = 8 ∨ R = 16) (fuel : Nat)
    (hf : 1122 ≤ fuel) (s : State) :
    mandelbrot3 fuel R s = some (setPixels s (paint s.pixels (pixelColor s R) 0 640 0 480)) := by
  unfold mandelbrot3
  have hfx : (640 - 0) / R + 480 / R + 2 ≤ fuel := by
    rcases hR with rfl | rfl | rfl | rfl | rfl <;> omega
  rw [loopX_spec R _ hR fuel 0 s (by omega) (by simp) (by omega) hfx]
  rfl

/-! ### Frame: a pass only writes pixels -/

theorem store_frame (s s1 : State) (idx iter : Int) (h : store s idx iter = some s1) :
    ∃ p, s1 = setPixels s p := by
  unfold store at h
  split_ifs at h
  exact ⟨_, (Option.some.inj h).symm⟩

theorem fillRy_frame (R sx sy iter rx : Int) (n : Nat) :
    ∀ (ry : Int) (s s1 : State), (R - ry).toNat = n →
      fillRy R sx sy iter rx ry s = some s1 → ∃ p, s1 = setPixels s p := by
  induction n with
  | zero =>
    intro ry s s1 hn h
    rw [fillRy, if_neg (by omega)] at h
    exact ⟨s.pixels, (Option.some.inj h).symm⟩
  | succ n ih =>
    intro ry s s1 hn h
    rw [fillRy, if_pos (by omega)] at h
    cases hst : store s ((sy + ry) * SCREEN_WIDTH + sx + rx) iter with
    | none => rw [hst] at h; simp at h
    | some s2 =>
      rw [hst] at h
      obtain ⟨p, hp⟩ := store_frame _ _ _ _ hst
      obtain ⟨q, hq⟩ := ih (ry + 1) s2 s1 (by omega) h
      exact ⟨q, by rw [hq, hp, setPixels_setPixels]⟩

theorem fillRx_frame (R sx sy iter : Int) (n : Nat) :
    ∀ (rx : Int) (s s1 : State), (R - rx).toNat = n →
      fillRx R sx sy iter rx s = some s1 → ∃ p, s1 = setPixels s p := by
  induction n with
  | zero =>
    intro rx s s1 hn h
    rw [fillRx, if_neg (by omega)] at h
    exact ⟨s.pixels, (Option.some.inj h).symm⟩
  | succ n ih =>
    intro rx s s1 hn h
    rw [fillRx, if_pos (by omega)] at h
    cases hst : fillRy R sx sy iter rx 0 s with
    | none => rw [hst] at h; simp at h
    | some s2 =>
      rw [hst] at h
      obtain ⟨p, hp⟩ := fillRy_frame _ _ _ _ _ _ _ _ _ rfl hst
      obtain ⟨q, hq⟩ := ih (rx + 1) s2 s1 (by omega) h
      exact ⟨q, by rw [hq, hp, setPixels_setPixels]⟩

theorem blockBody_frame (R off sx sy : Int) (s s1 : State)
    (h : blockBody R off sx sy s = some s1) : ∃ p, s1 = setPixels s p := by
  unfold blockBody at h
  simp only at h
  by_cases hR : R = 1
  · rw [if_pos hR] at h
    cases hst : store s (sy * SCREEN_WIDTH + sx)
        (escapeTime (scaleX s (sx - off)) (scaleY s (sy - off))) with
    | none => rw [hst] at h; simp at h
    | some s2 =>
      rw [hst] at h
      obtain ⟨p, hp⟩ := store_frame _ _ _ _ hst
      obtain ⟨q, hq⟩ := fillRx_frame _ _ _ _ _ _ _ _ rfl h
      exact ⟨q, by rw [hq, hp, setPixels_setPixels]⟩
  · rw [if_neg hR] at h
    exact fillRx_frame _ _ _ _ _ _ _ _ rfl h

theorem loopY_frame (R off sx : Int) (fuel : Nat) :
    ∀ (sy : Int) (s s1 : State), loopY R off sx fuel sy s = some s1 →
      ∃ p, s1 = setPixels s p := by
  induction fuel with
  | zero => intro sy s s1 h; simp [loopY] at h
  | succ fuel ih =>
    intro sy s s1 h
    rw [loopY] at h
    split_ifs at h
    · cases hb : blockBody R off sx sy s with
      | none => rw [hb] at h; simp at h
      | some s2 =>
        rw [hb] at h
        obtain ⟨p, hp⟩ := blockBody_frame _ _ _ _ _ _ hb
        obtain ⟨q, hq⟩ := ih _ s2 s1 h
        exact ⟨q, by rw [hq, hp, setPixels_setPixels]⟩
    · exact ⟨s.pixels, (Option.some.inj h).symm⟩

theorem loopX_frame (R off : Int) (fuel : Nat) :
    ∀ (sx : Int) (s s1 : State), loopX R off fuel sx s = some s1 →
      ∃ p, s1 = setPixels s p := by
  induction fuel with
  | zero => intro sx s s1 h; simp [loopX] at h
  | succ fuel ih =>
    intro sx s s1 h
    rw [loopX] at h
    split_ifs at h
    · cases hb : loopY R off sx fuel 0 s with
      | none => rw [hb] at h; simp at h
      | some s2 =>
        rw [hb] at h
        obtain ⟨p, hp⟩ := loopY_frame _ _ _ _ _ _ _ hb
        obtain ⟨q, hq⟩ := ih _ s2 s1 h
        exact ⟨q, by rw [hq, hp, setPixels_setPixels]⟩
    · exact ⟨s.pixels, (Option.some.inj h).symm⟩

/-- Whatever the block size, a pass that returns has changed the pixel buffer
only. -/
theorem mandelbrot3_frame (fuel : Nat) (R : Int) (s s1 : State)
    (h : mandelbrot3 fuel R s = some s1) : ∃ p, s1 = setPixels s p :=
  loopX_frame _ _ _ _ _ _ h

/-! ### Block size 0: the pass never returns -/

theorem loopY_zero (off sx : Int) (s : State) (fuel : Nat) :
    loopY 0 off sx fuel 0 s = none := by
  induction fuel with
  | zero => rfl
  | succ fuel ih =>
    rw [loopY, if_pos (by decide)]
    have hb : blockBody 0 off sx 0 s = some s := by
      unfold blockBody
      simp only
      rw [if_neg (by decide)]
      simp only
      rw [fillRx, if_neg (by decide)]
    rw [hb]
    simpa using ih

/-- With block size 0 the loop counters never advance: no amount of fuel lets
the pass return. -/
theorem mandelbrot3_zero (s : State) (fuel : Nat) : mandelbrot3 fuel 0 s = none := by
  unfold mandelbrot3
  cases fuel with
  | zero => rfl
  | succ fuel => rw [loopX, if_pos (by decide), loopY_zero]

/-! ### render -/

theorem ne_self_of_not_nan (a : F64) (h : F64.isNaN a = false) : F64.ne a a = false := by
  cases a with
  | nan => simp [F64.isNaN] at h
  | inf s => simp [F64.ne, F64.eq]
  | fin s m e => simp [F64.ne, F64.eq]

theorem render_clean (fuel : Nat) (s : State) (h : dirty s = false) : render fuel s = some s := by
  unfold render
  rw [if_neg (by simp [h])]

theorem render_dirty (fuel : Nat) (s : State) (h : dirty s = true) :
    render fuel s
      = Option.map (fun s1 => afterPass s1 s1.pixels) (mandelbrot3 fuel s.gResolution s) := by
  unfold render
  rw [if_pos h]
  cases mandelbrot3 fuel s.gResolution s <;> rfl

theorem render_pass (fuel : Nat) (s : State) (h : dirty s = true)
    (hR : s.gResolution = 1 ∨ s.gResolution = 2 ∨ s.gResolution = 4 ∨ s.gResolution = 8 ∨
      s.gResolution = 16) (hf : 1122 ≤ fuel) :
    render fuel s
      = some (afterPass s (paint s.pixels (pixelColor s s.gResolution) 0 640 0 480)) := by
  rw [render_dirty fuel s h, mandelbrot3_spec _ hR fuel hf s]
  rfl

theorem dirty_of_resolution (s : State) (h : s.gResolution ≠ 0) : dirty s = true := by
  simp [dirty, h]

/-! ### Claims: escape time and pixel buffer -/

theorem escapeTime_run (x0 y0 : F64) :
    ∃ n : Nat, n ≤ 256 ∧ escapeTime x0 y0 = n ∧
      escapeLoop x0 y0 { x := ofInt 0, y := ofInt 0, iteration := 0 }
        = (loopBody x0 y0)^[n] { x := ofInt 0, y := ofInt 0, iteration := 0 } ∧
      loopCond ((loopBody x0 y0)^[n] { x := ofInt 0, y := ofInt 0, iteration := 0 }) = false ∧
      ∀ k : Nat, k < n →
        loopCond ((loopBody x0 y0)^[k] { x := ofInt 0, y := ofInt 0, iteration := 0 }) = true := by
  obtain ⟨n, hn, hrun, hend, hall⟩ :=
    escapeLoop_run x0 y0 256 { x := ofInt 0, y := ofInt 0, iteration := 0 } (by simp) (by simp)
  refine ⟨n, ?_, ?_, hrun, ?_, hall⟩
  · simp only at hn; omega
  · unfold escapeTime
    rw [hrun, loopBody_iterate_iteration]
    simp
  · rw [← hrun]; exact hend

theorem escapeTime_nonneg (x0 y0 : F64) : 0 ≤ escapeTime x0 y0 := by
  obtain ⟨n, -, h, -⟩ := escapeTime_run x0 y0
  rw [h]; omega

theorem escapeTime_le (x0 y0 : F64) : escapeTime x0 y0 ≤ 256 := by
  obtain ⟨n, hn, h, -⟩ := escapeTime_run x0 y0
  rw [h]; omega

/-- C2. For every plane point the escape-time loop ends after at most 256
iterations, with a counter between 0 and 256: the guard first fails after
exactly `n ≤ 256` executions of the body, and the counter is then `n`. -/
theorem escape_loop_terminates_bounded (x0 y0 : F64) :
    0 ≤ escapeTime x0 y0 ∧ escapeTime x0 y0 ≤ 256 ∧
      ∃ n : Nat, n ≤ 256 ∧ escapeTime x0 y0 = n ∧
        escapeLoop x0 y0 { x := ofInt 0, y := ofInt 0, iteration := 0 }
          = (loopBody x0 y0)^[n] { x := ofInt 0, y := ofInt 0, iteration := 0 } ∧
        loopCond ((loopBody x0 y0)^[n] { x := ofInt 0, y := ofInt 0, iteration := 0 }) = false ∧
        ∀ k : Nat, k < n →
          loopCond ((loopBody x0 y0)^[k] { x := ofInt 0, y := ofInt 0, iteration := 0 })
            = true :=
  ⟨escapeTime_nonneg x0 y0, escapeTime_le x0 y0, escapeTime_run x0 y0⟩

theorem colorOf_shift (x0 y0 : F64) :
    (colorOf (escapeTime x0 y0) : Int) = escapeTime x0 y0 <<< (8 : Int) := by
  rw [colorOf_eq _ (escapeTime_nonneg x0 y0) (escapeTime_le x0 y0)]
  have h := Int.shiftLeft_eq_mul_pow (escapeTime x0 y0) 8
  simp only [Nat.cast_ofNat] at h
  rw [h]
  norm_num

theorem sampleOffset_eq (r : Int) : sampleOffset r = if r = 1 then 0 else r / 2 := by
  unfold sampleOffset
  split_ifs
  · rfl
  · rw [Int.shiftRight_eq_div_pow]; norm_num

theorem paint_surface (p : Nat → Nat) (g : Int → Int → Nat) (px py : Int) (h0 : 0 ≤ px)
    (h1 : px < 640) (h2 : 0 ≤ py) (h3 : py < 480) :
    paint p g 0 640 0 480 (py * 640 + px).toNat = g px py := by
  unfold paint
  have hx : (((py * 640 + px).toNat : Nat) : Int) % 640 = px := by omega
  have hy : (((py * 640 + px).toNat : Nat) : Int) / 640 = py := by omega
  rw [hx, hy, if_pos ⟨h0, h1, h2, h3⟩]

/-- C1. For every viewport, every initial pixel buffer and every resolution `r`
in {1,2,4,8,16}, `mandelbrot3 r` returns (given enough fuel for its outer
loops), and afterwards every surface pixel `(px, py)`, `0 ≤ px < 640`,
`0 ≤ py < 480`, holds `pixels[py*640+px] = iter(scaleX(bx - off), scaleY(by - off)) << 8`
with `bx = px - px % r`, `by = py - py % r`, `off = 0` if `r = 1` and `r / 2`
otherwise, `iter` the final counter of the escape-time loop. The surface
pixels do not depend on what the buffer held before. -/
theorem mandelbrot3_populates (s : State) (r : Int) (fuel : Nat)
    (hr : r = 1 ∨ r = 2 ∨ r = 4 ∨ r = 8 ∨ r = 16) (hf : 1122 ≤ fuel) :
    ∃ s1 : State, mandelbrot3 fuel r s = some s1 ∧
      (∀ px py : Int, 0 ≤ px → px < 640 → 0 ≤ py → py < 480 →
        (s1.pixels (py * 640 + px).toNat : Int)
          = escapeTime (scaleX s (px - px % r - (if r = 1 then 0 else r / 2)))
              (scaleY s (py - py % r - (if r = 1 then 0 else r / 2))) <<< (8 : Int)) ∧
      ∀ p0 : Nat → Nat, ∃ t1 : State, mandelbrot3 fuel r (setPixels s p0) = some t1 ∧
        ∀ px py : Int, 0 ≤ px → px < 640 → 0 ≤ py → py < 480 →
          t1.pixels (py * 640 + px).toNat = s1.pixels (py * 640 + px).toNat := by
  refine ⟨_, mandelbrot3_spec r hr fuel hf s, ?_, ?_⟩
  · intro px py h0 h1 h2 h3
    rw [setPixels_pixels, paint_surface _ _ px py h0 h1 h2 h3, ← sampleOffset_eq]
    exact colorOf_shift _ _
  · intro p0
    refine ⟨_, mandelbrot3_spec r hr fuel hf (setPixels s p0), ?_⟩
    intro px py h0 h1 h2 h3
    simp only [setPixels_pixels, paint_surface _ _ px py h0 h1 h2 h3]
    rfl

theorem mandelbrot3_populates_witness :
    ((16 : Int) = 1 ∨ (16 : Int) = 2 ∨ (16 : Int) = 4 ∨ (16 : Int) = 8 ∨ (16 : Int) = 16) ∧
    1122 ≤ 1122 ∧
    ∃ s1 : State, mandelbrot3 1122 16 initState = some s1 ∧
      (∀ px py : Int, 0 ≤ px → px < 640 → 0 ≤ py → py < 480 →
        (s1.pixels (py * 640 + px).toNat : Int)
          = escapeTime (scaleX initState (px - px % 16 - (if (16 : Int) = 1 then 0 else 16 / 2)))
              (scaleY initState (py - py % 16 - (if (16 : Int) = 1 then 0 else 16 / 2)))
                <<< (8 : Int)) ∧
      ∀ p0 : Nat → Nat, ∃ t1 : State, mandelbrot3 1122 16 (setPixels initState p0) = some t1 ∧
        ∀ px py : Int, 0 ≤ px → px < 640 → 0 ≤ py → py < 480 →
          t1.pixels (py * 640 + px).toNat = s1.pixels (py * 640 + px).toNat :=
  ⟨by decide, by decide, mandelbrot3_populates initState 16 1122 (by decide) (by decide)⟩

/-- C9. Block-fill uniformity: for every viewport and every `r` in {2,4,8,16},
`mandelbrot3 r` returns, and any two surface pixels `(px, py)`, `(qx, qy)` of
the same `r`-by-`r` block (`px / r = qx / r` and `py / r = qy / r`) then hold
the same colour value. -/
theorem block_fill_uniform (s : State) (r : Int) (fuel : Nat)
    (hr : r = 2 ∨ r = 4 ∨ r = 8 ∨ r = 16) (hf : 1122 ≤ fuel) :
    ∃ s1 : State, mandelbrot3 fuel r s = some s1 ∧
      ∀ px py qx qy : Int, 0 ≤ px → px < 640 → 0 ≤ py → py < 480 →
        0 ≤ qx → qx < 640 → 0 ≤ qy → qy < 480 → px / r = qx / r → py / r = qy / r →
          s1.pixels (py * 640 + px).toNat = s1.pixels (qy * 640 + qx).toNat := by
  have hr1 : r = 1 ∨ r = 2 ∨ r = 4 ∨ r = 8 ∨ r = 16 := Or.inr hr
  refine ⟨_, mandelbrot3_spec r hr1 fuel hf s, ?_⟩
  intro px py qx qy h0 h1 h2 h3 k0 k1 k2 k3 hx hy
  rw [setPixels_pixels, paint_surface _ _ px py h0 h1 h2 h3,
    paint_surface _ _ qx qy k0 k1 k2 k3]
  unfold pixelColor
  have ex : px - px % r = qx - qx % r := by
    rcases hr with rfl | rfl | rfl | rfl <;> omega
  have ey : py - py % r = qy - qy % r := by
    rcases hr with rfl | rfl | rfl | rfl <;> omega
  rw [ex, ey]

theorem block_fill_uniform_witness :
    ((16 : Int) = 2 ∨ (16 : Int) = 4 ∨ (16 : Int) = 8 ∨ (16 : Int) = 16) ∧ 1122 ≤ 1122 ∧
    ∃ s1 : State, mandelbrot3 1122 16 initState = some s1 ∧
      ∀ px py qx qy : Int, 0 ≤ px → px < 640 → 0 ≤ py → py < 480 →
        0 ≤ qx → qx < 640 → 0 ≤ qy → qy < 480 → px / 16 = qx / 16 → py / 16 = qy / 16 →
          s1.pixels (py * 640 + px).toNat = s1.pixels (qy * 640 + qx).toNat :=
  ⟨by decide, by decide, block_fill_uniform initState 16 1122 (by decide) (by decide)⟩

/-! ### Claims: the refinement state machine -/

theorem renderTimes_succ (fuel n : Nat) (s s1 : State) (h : render fuel s = some s1) :
    renderTimes fuel (n + 1) s = renderTimes fuel n s1 := by
  simp only [renderTimes, h]

theorem render_step (fuel : Nat) (s : State)
    (hR : s.gResolution = 1 ∨ s.gResolution = 2 ∨ s.gResolution = 4 ∨ s.gResolution = 8 ∨
      s.gResolution = 16) (hf : 1122 ≤ fuel) :
    ∃ s1 : State, render fuel s = some s1 ∧ dirty s = true ∧ s1.gScale = s.gScale ∧
      s1.gOffsetX = s.gOffsetX ∧ s1.gOffsetY = s.gOffsetY ∧ s1.gLastScale = s.gScale ∧
      s1.gResolution = s.gResolution >>> (1 : Nat) ∧ s1.presented = s.presented + 1 := by
  have hd : dirty s = true := dirty_of_resolution s (by omega)
  exact ⟨_, render_pass fuel s hd hR hf, hd, rfl, rfl, rfl, rfl, rfl, rfl⟩

theorem five_renders (fuel : Nat) (s : State) (hres : s.gResolution = 16) (hf : 1122 ≤ fuel) :
    ∃ s1 s2 s3 s4 s5 : State,
      render fuel s = some s1 ∧ render fuel s1 = some s2 ∧ render fuel s2 = some s3 ∧
      render fuel s3 = some s4 ∧ render fuel s4 = some s5 ∧
      dirty s = true ∧ dirty s1 = true ∧ dirty s2 = true ∧ dirty s3 = true ∧ dirty s4 = true ∧
      s1.gResolution = 8 ∧ s2.gResolution = 4 ∧ s3.gResolution = 2 ∧ s4.gResolution = 1 ∧
      s5.gResolution = 0 ∧ s5.gScale = s.gScale ∧ s5.gLastScale = s.gScale ∧
      s5.presented = s.presented + 5 := by
  obtain ⟨s1, h1, d0, a1, -, -, -, r1, p1⟩ := render_step fuel s (by omega) hf
  rw [hres] at r1
  have r1 : s1.gResolution = 8 := r1
  obtain ⟨s2, h2, d1, a2, -, -, -, r2, p2⟩ := render_step fuel s1 (by omega) hf
  rw [r1] at r2
  have r2 : s2.gResolution = 4 := r2
  obtain ⟨s3, h3, d2, a3, -, -, -, r3, p3⟩ := render_step fuel s2 (by omega) hf
  rw [r2] at r3
  have r3 : s3.gResolution = 2 := r3
  obtain ⟨s4, h4, d3, a4, -, -, -, r4, p4⟩ := render_step fuel s3 (by omega) hf
  rw [r3] at r4
  have r4 : s4.gResolution = 1 := r4
  obtain ⟨s5, h5, d4, a5, -, -, l5, r5, p5⟩ := render_step fuel s4 (by omega) hf
  rw [r4] at r5
  have r5 : s5.gResolution = 0 := r5
  refine ⟨s1, s2, s3, s4, s5, h1, h2, h3, h4, h5, d0, d1, d2, d3, d4, r1, r2, r3, r4, r5, ?_, ?_, ?_⟩
  · rw [a5, a4, a3, a2, a1]
  · rw [l5, a4, a3, a2, a1]
  · omega

/-- Five passes from a state whose `gScale` is not a NaN: with
`gResolution = 16` and no event in between, five calls of `render` run the
passes at 16, 8, 4, 2, 1 and reach `gResolution = 0`; the condition of `render`
holds before each of them and fails after the fifth, and a sixth call changes
nothing. -/
theorem five_passes_of_not_nan (s : State) (fuel : Nat)
    (hres : s.gResolution = INITIAL_RESOLUTION) (hnan : F64.isNaN s.gScale = false)
    (hf : 1122 ≤ fuel) :
    ∃ s1 s2 s3 s4 s5 : State,
      render fuel s = some s1 ∧ render fuel s1 = some s2 ∧ render fuel s2 = some s3 ∧
      render fuel s3 = some s4 ∧ render fuel s4 = some s5 ∧
      dirty s = true ∧ dirty s1 = true ∧ dirty s2 = true ∧ dirty s3 = true ∧ dirty s4 = true ∧
      s1.gResolution = 8 ∧ s2.gResolution = 4 ∧ s3.gResolution = 2 ∧ s4.gResolution = 1 ∧
      s5.gResolution = 0 ∧ s5.presented = s.presented + 5 ∧
      dirty s5 = false ∧ render fuel s5 = some s5 := by
  obtain ⟨s1, s2, s3, s4, s5, h1, h2, h3, h4, h5, d0, d1, d2, d3, d4, r1, r2, r3, r4, r5, a5, l5,
    p5⟩ := five_renders fuel s hres hf
  have hd : dirty s5 = false := by
    unfold dirty
    rw [l5, a5, ne_self_of_not_nan _ hnan, r5]
    rfl
  exact ⟨s1, s2, s3, s4, s5, h1, h2, h3, h4, h5, d0, d1, d2, d3, d4, r1, r2, r3, r4, r5, p5, hd,
    render_clean fuel s5 hd⟩

/-- Outside the reachable states the scale matters: from the state with
`gResolution = 16` and `gScale` a NaN (a value `gScale` never takes, see
`scale_nonneg_reachable`), five calls of `render` reach `gResolution = 0`, but
the condition of `render` still holds, and the sixth call starts a pass with
block size 0, which does not return. -/
theorem refinement_nan_scale_stays_dirty :
    nanScaleState.gResolution = INITIAL_RESOLUTION ∧
      ∃ s5 : State, renderTimes 1122 5 nanScaleState = some s5 ∧ s5.gResolution = 0 ∧
        dirty s5 = true ∧ ∀ fuel : Nat, render fuel s5 = none := by
  refine ⟨rfl, ?_⟩
  obtain ⟨s1, s2, s3, s4, s5, h1, h2, h3, h4, h5, -, -, -, -, -, -, -, -, -, r5, a5, l5, -⟩ :=
    five_renders 1122 nanScaleState (by decide) (by decide)
  have hd : dirty s5 = true := by
    unfold dirty
    rw [l5, a5]
    rfl
  refine ⟨s5, ?_, r5, hd, ?_⟩
  · rw [renderTimes_succ 1122 4 _ _ h1, renderTimes_succ 1122 3 _ _ h2,
      renderTimes_succ 1122 2 _ _ h3, renderTimes_succ 1122 1 _ _ h4,
      renderTimes_succ 1122 0 _ _ h5]
    rfl
  · intro fuel
    rw [render_dirty fuel s5 hd, r5, mandelbrot3_zero]
    rfl

/-- C7. `render` runs a pass (calls `mandelbrot3` and presents a frame) exactly
when `gLastScale != gScale || gResolution != 0`. When the condition is false,
`render` returns the state unchanged (pixels, viewport, `gResolution`,
`gLastScale`). When it is true, the result is that of `mandelbrot3` at
`gResolution`, and on return the viewport is unchanged, `gLastScale` is
`gScale`, `gResolution` is shifted right by one and one more frame was
presented; for `gResolution` in {1,2,4,8,16} the call does return. -/
theorem render_effect (s : State) (fuel : Nat) :
    (dirty s = false → render fuel s = some s) ∧
    (dirty s = true → render fuel s
      = Option.map (fun s1 => afterPass s1 s1.pixels) (mandelbrot3 fuel s.gResolution s)) ∧
    (∀ s1 : State, render fuel s = some s1 →
      s1.gScale = s.gScale ∧ s1.gOffsetX = s.gOffsetX ∧ s1.gOffsetY = s.gOffsetY ∧
      (dirty s = true → s1.gLastScale = s.gScale ∧
        s1.gResolution = s.gResolution >>> (1 : Nat) ∧ s1.presented = s.presented + 1)) ∧
    (dirty s = true →
      (s.gResolution = 1 ∨ s.gResolution = 2 ∨ s.gResolution = 4 ∨ s.gResolution = 8 ∨
        s.gResolution = 16) → 1122 ≤ fuel → ∃ s1 : State, render fuel s = some s1) := by
  refine ⟨render_clean fuel s, render_dirty fuel s, ?_, ?_⟩
  · intro s1 h
    cases hd : dirty s with
    | false =>
      rw [render_clean fuel s hd] at h
      cases h
      simp
    | true =>
      rw [render_dirty fuel s hd] at h
      cases hm : mandelbrot3 fuel s.gResolution s with
      | none => rw [hm] at h; simp at h
      | some s2 =>
        rw [hm] at h
        obtain ⟨p, hp⟩ := mandelbrot3_frame _ _ _ _ hm
        subst hp
        simp only [Option.map_some', Option.some.injEq] at h
        subst h
        exact ⟨rfl, rfl, rfl, fun _ => ⟨rfl, rfl, rfl⟩⟩
  · intro hd hR hf
    exact ⟨_, render_pass fuel s hd hR hf⟩

/-- C8. Known points: the escape-time loop run with `(x0, y0) = (0, 0)` returns
exactly 256, and run with `(x0, y0) = (2, 2)` it returns a count of at most 1. -/
theorem known_points :
    escapeTime (ofInt 0) (ofInt 0) = 256 ∧ escapeTime (ofInt 2) (ofInt 2) ≤ 1 := by
  refine ⟨escapeLoop_origin 256 0 (by decide) (by decide), ?_⟩
  rw [escapeTime_two_two]

/-! ### Claims: colour, events, centre of the view -/

/-- C10 (amended). For every iteration count `i` in `[0, 256]` the packed colour
written is `i << 8`. For `i ≤ 255` it lies in the green channel: bits 8..15
equal `i` and the alpha, red and blue bytes are zero. For `i = 256` the green
byte is 0 and the red byte is 1 (alpha and blue are zero). -/
theorem color_green_channel (i : Int) (h0 : 0 ≤ i) (h1 : i ≤ 256) :
    (colorOf i : Int) = i <<< (8 : Int) ∧ alphaByte (colorOf i) = 0 ∧ blueByte (colorOf i) = 0 ∧
      (i ≤ 255 → (greenByte (colorOf i) : Int) = i ∧ redByte (colorOf i) = 0) ∧
      (i = 256 → greenByte (colorOf i) = 0 ∧ redByte (colorOf i) = 1) := by
  have hc := colorOf_eq i h0 h1
  have hs : i <<< (8 : Int) = i * 256 := by
    have h := Int.shiftLeft_eq_mul_pow i 8
    simp only [Nat.cast_ofNat] at h
    rw [h]
    norm_num
  unfold greenByte alphaByte redByte blueByte
  refine ⟨by rw [hc, hs], ?_, ?_, ?_, ?_⟩
  · omega
  · omega
  · intro h
    constructor <;> omega
  · intro h
    constructor <;> omega

theorem color_green_channel_witness :
    (0 : Int) ≤ 255 ∧ (255 : Int) ≤ 256 ∧
    (colorOf 255 : Int) = 255 <<< (8 : Int) ∧ alphaByte (colorOf 255) = 0 ∧
      blueByte (colorOf 255) = 0 ∧
      ((255 : Int) ≤ 255 → (greenByte (colorOf 255) : Int) = 255 ∧ redByte (colorOf 255) = 0) ∧
      ((255 : Int) = 256 → greenByte (colorOf 255) = 0 ∧ redByte (colorOf 255) = 1) :=
  ⟨by decide, by decide, color_green_channel 255 (by decide) (by decide)⟩

/-- C10 (as stated, refuted at `i = 256`). The count 256 is the one the loop
returns for the origin; its packed colour `256 << 8` is `0x10000`: the green
byte is 0, not the count, and the red byte is 1, not 0. -/
theorem color_at_cap_leaves_green :
    escapeTime (ofInt 0) (ofInt 0) = 256 ∧ colorOf 256 = 0x10000 ∧
      greenByte (colorOf 256) = 0 ∧ redByte (colorOf 256) = 1 := by
  refine ⟨escapeLoop_origin 256 0 (by decide) (by decide), ?_, ?_, ?_⟩ <;> decide

/-- C5. For every prior state and pointer position `(px, py)`, a release of the
left button sets `gOffsetX = scaleX(px)` and `gOffsetY = scaleY(py)` as computed
in the prior state, multiplies `gScale` by `0.5` and sets `gResolution` to
`INITIAL_RESOLUTION`; a release of the right button does the same with `1.5`.
From scale 2 and offset (0, 0), a left release at (320, 240) leaves the offset
(0, 0) and gives scale 1 and resolution 16. -/
theorem release_zoom (s : State) (px py : Int) :
    ((event s { type := SDL_MOUSEBUTTONUP, x := px, y := py, button := SDL_BUTTON_LEFT }).gOffsetX
        = scaleX s px ∧
      (event s { type := SDL_MOUSEBUTTONUP, x := px, y := py, button := SDL_BUTTON_LEFT }).gOffsetY
        = scaleY s py ∧
      (event s { type := SDL_MOUSEBUTTONUP, x := px, y := py, button := SDL_BUTTON_LEFT }).gScale
        = F64.mul s.gScale c0_5 ∧
      (event s { type := SDL_MOUSEBUTTONUP, x := px, y := py, button := SDL_BUTTON_LEFT }).gResolution
        = INITIAL_RESOLUTION) ∧
    ((event s { type := SDL_MOUSEBUTTONUP, x := px, y := py, button := SDL_BUTTON_RIGHT }).gOffsetX
        = scaleX s px ∧
      (event s { type := SDL_MOUSEBUTTONUP, x := px, y := py, button := SDL_BUTTON_RIGHT }).gOffsetY
        = scaleY s py ∧
      (event s { type := SDL_MOUSEBUTTONUP, x := px, y := py, button := SDL_BUTTON_RIGHT }).gScale
        = F64.mul s.gScale c1_5 ∧
      (event s { type := SDL_MOUSEBUTTONUP, x := px, y := py, button := SDL_BUTTON_RIGHT }).gResolution
        = INITIAL_RESOLUTION) ∧
    ((event (setView s (ofInt 2) (ofInt 0) (ofInt 0))
        { type := SDL_MOUSEBUTTONUP, x := 320, y := 240, button := SDL_BUTTON_LEFT }).gOffsetX
        = ofInt 0 ∧
      (event (setView s (ofInt 2) (ofInt 0) (ofInt 0))
        { type := SDL_MOUSEBUTTONUP, x := 320, y := 240, button := SDL_BUTTON_LEFT }).gOffsetY
        = ofInt 0 ∧
      (event (setView s (ofInt 2) (ofInt 0) (ofInt 0))
        { type := SDL_MOUSEBUTTONUP, x := 320, y := 240, button := SDL_BUTTON_LEFT }).gScale
        = ofInt 1 ∧
      (event (setView s (ofInt 2) (ofInt 0) (ofInt 0))
        { type := SDL_MOUSEBUTTONUP, x := 320, y := 240, button := SDL_BUTTON_LEFT }).gResolution
        = 16) := by
  refine ⟨⟨rfl, rfl, rfl, rfl⟩, ⟨rfl, rfl, rfl, rfl⟩, ?_, ?_, ?_, ?_⟩
  · show F64.add (F64.mul (F64.sub (F64.div (ofInt 320) (ofInt SCREEN_WIDTH)) c0_5) (ofInt 2))
      (ofInt 0) = ofInt 0
    decide
  · show F64.add (F64.mul (F64.neg (F64.sub
      (F64.mul (F64.div (ofInt 240) (ofInt SCREEN_HEIGHT)) SCREEN_RATIO)
      (F64.div SCREEN_RATIO (ofInt 2)))) (ofInt 2)) (ofInt 0) = ofInt 0
    decide
  · show F64.mul (ofInt 2) c0_5 = ofInt 1
    decide
  · show INITIAL_RESOLUTION = 16
    decide

/-- C4 (the code at the failing input). In the fully refined start-up view, a
release of the middle button at pixel (0, 0) moves `gOffsetX` from 0 to -1, so
the viewport changes, but `gResolution` stays 0 instead of
`INITIAL_RESOLUTION = 16`, and the condition of `render` stays false: no pass
is started for the new viewport. -/
theorem middle_release_moves_without_reset :
    (event refinedState
        { type := SDL_MOUSEBUTTONUP, x := 0, y := 0, button := SDL_BUTTON_MIDDLE }).gOffsetX
        = fin true (2 ^ 52) (-52) ∧
      F64.ne (event refinedState
        { type := SDL_MOUSEBUTTONUP, x := 0, y := 0, button := SDL_BUTTON_MIDDLE }).gOffsetX
        refinedState.gOffsetX = true ∧
      (event refinedState
        { type := SDL_MOUSEBUTTONUP, x := 0, y := 0, button := SDL_BUTTON_MIDDLE }).gResolution
        = 0 ∧
      INITIAL_RESOLUTION = 16 ∧
      dirty (event refinedState
        { type := SDL_MOUSEBUTTONUP, x := 0, y := 0, button := SDL_BUTTON_MIDDLE }) = false := by
  decide

theorem scaleX_centre (s : State) (hs : isFinite s.gScale = true) (hd : IsDouble s.gOffsetX)
    (hn : isNaN s.gOffsetX = false) : F64.eq (scaleX s 320) s.gOffsetX = true := by
  have hc : F64.sub (F64.div (ofInt 320) (ofInt SCREEN_WIDTH)) c0_5 = fin false 0 (-1074) := by
    decide
  unfold scaleX
  rw [hc]
  obtain ⟨t, ht⟩ := mul_zero_left false (-1074) s.gScale hs
  rw [ht]
  exact add_zero_left_eq t _ hd hn

theorem scaleY_centre (s : State) (hs : isFinite s.gScale = true) (hd : IsDouble s.gOffsetY)
    (hn : isNaN s.gOffsetY = false) : F64.eq (scaleY s 240) s.gOffsetY = true := by
  have hc : F64.neg (F64.sub (F64.mul (F64.div (ofInt 240) (ofInt SCREEN_HEIGHT)) SCREEN_RATIO)
      (F64.div SCREEN_RATIO (ofInt 2))) = fin true 0 (-1074) := by
    decide
  unfold scaleY
  rw [hc]
  obtain ⟨t, ht⟩ := mul_zero_left true (-1074) s.gScale hs
  rw [ht]
  exact add_zero_left_eq t _ hd hn

/-- C6 (amended). For every viewport whose `gScale` is finite and whose offsets
are doubles other than NaN, the surface centre maps to the viewport centre:
`scaleX(SCREEN_WIDTH / 2) == gOffsetX` and `scaleY(SCREEN_HEIGHT / 2) == gOffsetY`
(comparison of doubles, so that `0 == -0`). -/
theorem centre_maps_to_offset (s : State) (hs : isFinite s.gScale = true)
    (hdx : IsDouble s.gOffsetX) (hnx : isNaN s.gOffsetX = false)
    (hdy : IsDouble s.gOffsetY) (hny : isNaN s.gOffsetY = false) :
    F64.eq (scaleX s (SCREEN_WIDTH / 2)) s.gOffsetX = true ∧
      F64.eq (scaleY s (SCREEN_HEIGHT / 2)) s.gOffsetY = true :=
  ⟨scaleX_centre s hs hdx hnx, scaleY_centre s hs hdy hny⟩

theorem centre_maps_to_offset_witness :
    isFinite initState.gScale = true ∧
    IsDouble initState.gOffsetX ∧ isNaN initState.gOffsetX = false ∧
    IsDouble initState.gOffsetY ∧ isNaN initState.gOffsetY = false ∧
    F64.eq (scaleX initState (SCREEN_WIDTH / 2)) initState.gOffsetX = true ∧
      F64.eq (scaleY initState (SCREEN_HEIGHT / 2)) initState.gOffsetY = true :=
  ⟨by decide, by decide, by decide, by decide, by decide,
    centre_maps_to_offset initState (by decide) (by decide) (by decide) (by decide) (by decide)⟩

theorem timesC_add (c : F64) (a b : Nat) : ∀ x : F64,
    timesC c (a + b) x = timesC c b (timesC c a x) := by
  induction a with
  | zero => intro x; simp [timesC]
  | succ a ih =>
    intro x
    rw [show a + 1 + b = (a + b) + 1 by omega]
    simp only [timesC]
    exact ih _

/-- The scale after 1748 executions of `gScale *= 1.5` from 2: the largest
finite value of the sequence (the next product overflows). -/
theorem timesC_zoom_out_1748 :
    timesC c1_5 1748 (ofInt 2) = fin false 6433170107397309 971 := by
  have h1 : timesC c1_5 250 (ofInt 2) = fin false 5321023433104096 95 := by decide!
  have h2 : timesC c1_5 250 (fin false 5321023433104096 95) = fin false 6286813375587322 241 := by
    decide!
  have h3 : timesC c1_5 250 (fin false 6286813375587322 241) = fin false 7427898583112748 387 := by
    decide!
  have h4 : timesC c1_5 250 (fin false 7427898583112748 387) = fin false 8776095943177890 533 := by
    decide!
  have h5 : timesC c1_5 250 (fin false 8776095943177890 533) = fin false 5184498626500314 680 := by
    decide!
  have h6 : timesC c1_5 250 (fin false 5184498626500314 680) = fin false 6125508695943124 826 := by
    decide!
  have h7 : timesC c1_5 248 (fin false 6125508695943124 826) = fin false 6433170107397309 971 := by
    decide!
  rw [show 1748 = 250 + (250 + (250 + (250 + (250 + (250 + 248))))) by rfl,
    timesC_add, h1, timesC_add, h2, timesC_add, h3, timesC_add, h4, timesC_add, h5, timesC_add,
    h6, h7]

theorem isFinite_of_mul_c1_5 (x : F64) (h : isFinite (F64.mul x c1_5) = true) :
    isFinite x = true := by
  cases x with
  | nan => simp [F64.mul, isFinite] at h
  | inf s => simp [F64.mul, c1_5, isFinite] at h
  | fin s m e => rfl

theorem isFinite_of_timesC (n : Nat) : ∀ x : F64, isFinite (timesC c1_5 n x) = true →
    isFinite x = true := by
  induction n with
  | zero => intro x h; exact h
  | succ n ih =>
    intro x h
    exact isFinite_of_mul_c1_5 x (ih _ h)

theorem centre_of_zero_offset (s : State) (hs : isFinite s.gScale = true)
    (hx : s.gOffsetX = ofInt 0) (hy : s.gOffsetY = ofInt 0) :
    scaleX s 320 = ofInt 0 ∧ scaleY s 240 = ofInt 0 := by
  have hcx : F64.sub (F64.div (ofInt 320) (ofInt SCREEN_WIDTH)) c0_5 = fin false 0 (-1074) := by
    decide
  have hcy : F64.neg (F64.sub (F64.mul (F64.div (ofInt 240) (ofInt SCREEN_HEIGHT)) SCREEN_RATIO)
      (F64.div SCREEN_RATIO (ofInt 2))) = fin true 0 (-1074) := by
    decide
  have h0 : ofInt 0 = fin false 0 (-1074) := by decide
  have hadd : ∀ t : Bool, F64.add (fin t 0 (-1074)) (fin false 0 (-1074)) = fin false 0 (-1074) := by
    intro t
    cases t <;> decide
  obtain ⟨t, ht⟩ := mul_zero_left false (-1074) s.gScale hs
  obtain ⟨u, hu⟩ := mul_zero_left true (-1074) s.gScale hs
  unfold scaleX scaleY
  rw [hcx, hcy, ht, hu, hx, hy, h0, hadd, hadd]
  exact ⟨rfl, rfl⟩

theorem zoomOutCentre_view (n : Nat) : ∀ s : State, s.gOffsetX = ofInt 0 → s.gOffsetY = ofInt 0 →
    (n = 0 ∨ isFinite (timesC c1_5 (n - 1) s.gScale) = true) →
    (zoomOutCentre n s).gScale = timesC c1_5 n s.gScale ∧
      (zoomOutCentre n s).gOffsetX = ofInt 0 ∧ (zoomOutCentre n s).gOffsetY = ofInt 0 := by
  induction n with
  | zero => intro s hx hy _; exact ⟨rfl, hx, hy⟩
  | succ n ih =>
    intro s hx hy hfin
    have hf : isFinite (timesC c1_5 n s.gScale) = true := by
      rcases hfin with h | h
      · omega
      · simpa using h
    have hs : isFinite s.gScale = true := isFinite_of_timesC n _ hf
    obtain ⟨cx, cy⟩ := centre_of_zero_offset s hs hx hy
    have hnext : n = 0 ∨ isFinite (timesC c1_5 (n - 1) (F64.mul s.gScale c1_5)) = true := by
      cases n with
      | zero => exact Or.inl rfl
      | succ k => exact Or.inr hf
    exact ih (event s { type := SDL_MOUSEBUTTONUP, x := 320, y := 240, button := SDL_BUTTON_RIGHT })
      cx cy hnext

theorem zoomOutCentre_1749 :
    (zoomOutCentre 1749 initState).gScale = F64.inf false ∧
      (zoomOutCentre 1749 initState).gOffsetX = ofInt 0 ∧
      (zoomOutCentre 1749 initState).gOffsetY = ofInt 0 := by
  have hfin : (1749 = 0) ∨ isFinite (timesC c1_5 (1749 - 1) initState.gScale) = true := by
    right
    show isFinite (timesC c1_5 1748 (ofInt 2)) = true
    rw [timesC_zoom_out_1748]
    rfl
  obtain ⟨h1, h2, h3⟩ := zoomOutCentre_view 1749 initState rfl rfl hfin
  refine ⟨?_, h2, h3⟩
  rw [h1]
  show timesC c1_5 (1748 + 1) (ofInt 2) = F64.inf false
  rw [timesC_add, timesC_zoom_out_1748]
  decide

/-- C6 (as stated, refuted at `gScale = +inf`, offset (0, 0)). The centre maps
to NaN, the product `0 * inf`, which compares unequal to the offset. This
viewport is the one reached from the start-up state by 1749 releases of the
right button at the surface centre, where `gScale` overflows. -/
theorem centre_of_infinite_scale_is_nan :
    scaleX infScaleState (SCREEN_WIDTH / 2) = F64.nan ∧
      F64.eq (scaleX infScaleState (SCREEN_WIDTH / 2)) infScaleState.gOffsetX = false ∧
      scaleY infScaleState (SCREEN_HEIGHT / 2) = F64.nan ∧
      F64.eq (scaleY infScaleState (SCREEN_HEIGHT / 2)) infScaleState.gOffsetY = false ∧
      (zoomOutCentre 1749 initState).gScale = infScaleState.gScale ∧
      (zoomOutCentre 1749 initState).gOffsetX = infScaleState.gOffsetX ∧
      (zoomOutCentre 1749 initState).gOffsetY = infScaleState.gOffsetY := by
  refine ⟨by decide, by decide, by decide, by decide, ?_⟩
  exact zoomOutCentre_1749

end Mandel

namespace Mandel

open F64

/-! ### Reachable states -/

theorem run_invariant (P : State → Prop) (hev : ∀ s e, P s → P (event s e))
    (hr : ∀ s fuel s1, P s → render fuel s = some s1 → P s1) (steps : List Step) :
    ∀ s s1 : State, P s → run steps s = some s1 → P s1 := by
  induction steps with
  | nil =>
    intro s s1 hP h
    simp only [run, Option.some.injEq] at h
    exact h ▸ hP
  | cons a rest ih =>
    intro s s1 hP h
    cases a with
    | input e =>
      simp only [run, step] at h
      exact ih _ _ (hev s e hP) h
    | tick fuel =>
      simp only [run, step] at h
      cases hren : render fuel s with
      | none => rw [hren] at h; simp at h
      | some s2 =>
        rw [hren] at h
        exact ih _ _ (hr s fuel s2 hP hren) h

theorem event_resolution (s : State) (e : SDL_Event) :
    (event s e).gResolution = s.gResolution ∨ (event s e).gResolution = INITIAL_RESOLUTION := by
  unfold event
  split_ifs <;> simp

theorem event_scale (s : State) (e : SDL_Event) :
    ((event s e).gScale = s.gScale ∧ (event s e).gLastScale = s.gLastScale ∧
        (event s e).gResolution = s.gResolution) ∨
      (((event s e).gScale = F64.mul s.gScale c0_5 ∨ (event s e).gScale = F64.mul s.gScale c1_5) ∧
        (event s e).gResolution = INITIAL_RESOLUTION) := by
  unfold event
  split_ifs <;> simp

theorem render_fields (fuel : Nat) (s s1 : State) (h : render fuel s = some s1) :
    (dirty s = false ∧ s1 = s) ∨
      (dirty s = true ∧ s.gResolution ≠ 0 ∧ s1.gResolution = s.gResolution >>> (1 : Nat) ∧
        s1.gScale = s.gScale ∧ s1.gLastScale = s.gScale ∧ s1.gOffsetX = s.gOffsetX ∧
        s1.gOffsetY = s.gOffsetY ∧ s1.presented = s.presented + 1) := by
  cases hd : dirty s with
  | false =>
    rw [render_clean fuel s hd] at h
    exact Or.inl ⟨rfl, (Option.some.inj h).symm⟩
  | true =>
    right
    rw [render_dirty fuel s hd] at h
    have hne : s.gResolution ≠ 0 := by
      intro h0
      rw [h0, mandelbrot3_zero] at h
      simp at h
    cases hm : mandelbrot3 fuel s.gResolution s with
    | none => rw [hm] at h; simp at h
    | some s2 =>
      rw [hm] at h
      obtain ⟨p, hp⟩ := mandelbrot3_frame _ _ _ _ hm
      subst hp
      simp only [Option.map_some', Option.some.injEq] at h
      subst h
      exact ⟨rfl, hne, rfl, rfl, rfl, rfl, rfl, rfl⟩

theorem shift_of_resolution (r : Int)
    (h : r = 0 ∨ r = 1 ∨ r = 2 ∨ r = 4 ∨ r = 8 ∨ r = 16) :
    (r >>> (1 : Nat) = 0 ∨ r >>> (1 : Nat) = 1 ∨ r >>> (1 : Nat) = 2 ∨ r >>> (1 : Nat) = 4 ∨
      r >>> (1 : Nat) = 8 ∨ r >>> (1 : Nat) = 16) ∧ r >>> (1 : Nat) ≤ r := by
  rcases h with rfl | rfl | rfl | rfl | rfl | rfl <;> decide

theorem resolution_reachable (steps : List Step) (s : State)
    (h : run steps initState = some s) :
    s.gResolution = 0 ∨ s.gResolution = 1 ∨ s.gResolution = 2 ∨ s.gResolution = 4 ∨
      s.gResolution = 8 ∨ s.gResolution = 16 := by
  refine run_invariant (fun s => s.gResolution = 0 ∨ s.gResolution = 1 ∨ s.gResolution = 2 ∨
    s.gResolution = 4 ∨ s.gResolution = 8 ∨ s.gResolution = 16) ?_ ?_ steps initState s ?_ h
  · intro s e hP
    rcases event_resolution s e with h1 | h1
    · simp only [h1]; exact hP
    · simp only [h1]; decide
  · intro s fuel s1 hP hren
    rcases render_fields fuel s s1 hren with ⟨-, h1⟩ | ⟨-, -, h1, -⟩
    · subst h1; exact hP
    · simp only [h1]
      exact (shift_of_resolution _ hP).1
  · decide

/-- C11. In every state reachable from the initial state by events and calls
of `render`, `gResolution` is one of 0, 1, 2, 4, 8, 16; a call of `render` that
returns leaves `gResolution` unchanged or shifted right by one, never larger;
`event` leaves it unchanged or resets it to `INITIAL_RESOLUTION`. -/
theorem resolution_invariant (steps : List Step) (s : State)
    (h : run steps initState = some s) :
    (s.gResolution = 0 ∨ s.gResolution = 1 ∨ s.gResolution = 2 ∨ s.gResolution = 4 ∨
      s.gResolution = 8 ∨ s.gResolution = 16) ∧
    (∀ (fuel : Nat) (s1 : State), render fuel s = some s1 →
      s1.gResolution ≤ s.gResolution ∧
      (s1.gResolution = s.gResolution ∨ s1.gResolution = s.gResolution >>> (1 : Nat))) ∧
    (∀ e : SDL_Event, (event s e).gResolution = s.gResolution ∨
      (event s e).gResolution = INITIAL_RESOLUTION) := by
  have hres := resolution_reachable steps s h
  refine ⟨hres, ?_, event_resolution s⟩
  intro fuel s1 hren
  rcases render_fields fuel s s1 hren with ⟨-, h1⟩ | ⟨-, -, h1, -⟩
  · subst h1; exact ⟨le_refl _, Or.inl rfl⟩
  · rw [h1]
    exact ⟨(shift_of_resolution _ hres).2, Or.inr rfl⟩

theorem resolution_invariant_witness :
    run [Step.input leftAtCentre] initState = some (event initState leftAtCentre) ∧
    ((event initState leftAtCentre).gResolution = 0 ∨
      (event initState leftAtCentre).gResolution = 1 ∨
      (event initState leftAtCentre).gResolution = 2 ∨
      (event initState leftAtCentre).gResolution = 4 ∨
      (event initState leftAtCentre).gResolution = 8 ∨
      (event initState leftAtCentre).gResolution = 16) ∧
    (∀ (fuel : Nat) (s1 : State), render fuel (event initState leftAtCentre) = some s1 →
      s1.gResolution ≤ (event initState leftAtCentre).gResolution ∧
      (s1.gResolution = (event initState leftAtCentre).gResolution ∨
        s1.gResolution = (event initState leftAtCentre).gResolution >>> (1 : Nat))) ∧
    (∀ e : SDL_Event,
      (event (event initState leftAtCentre) e).gResolution
        = (event initState leftAtCentre).gResolution ∨
      (event (event initState leftAtCentre) e).gResolution = INITIAL_RESOLUTION) :=
  ⟨rfl, resolution_invariant [Step.input leftAtCentre] (event initState leftAtCentre) rfl⟩

end Mandel

namespace F64

theorem round_not_nan (s : Bool) (m : Nat) (e : Int) : isNaN (round s m e) = false := by
  unfold round
  simp only
  split_ifs <;> rfl

theorem round_sign (s : Bool) (m : Nat) (e : Int) :
    round s m e = inf s ∨ ∃ m1 e1, round s m e = fin s m1 e1 := by
  unfold round
  simp only
  split_ifs
  all_goals first
    | exact Or.inl rfl
    | exact Or.inr ⟨_, _, rfl⟩

theorem mul_c0_5_not_nan (a : F64) (h : isNaN a = false) : isNaN (F64.mul a c0_5) = false := by
  cases a with
  | nan => simp [isNaN] at h
  | inf s => simp [F64.mul, c0_5, isNaN]
  | fin s m e => exact round_not_nan _ _ _

theorem mul_c1_5_not_nan (a : F64) (h : isNaN a = false) : isNaN (F64.mul a c1_5) = false := by
  cases a with
  | nan => simp [isNaN] at h
  | inf s => simp [F64.mul, c1_5, isNaN]
  | fin s m e => exact round_not_nan _ _ _

theorem zero_le_fin_false (m : Nat) (e : Int) : F64.le (ofInt 0) (fin false m e) = true := by
  have h0 : ofInt 0 = fin false 0 (-1074) := by decide
  rw [h0]
  simp only [F64.le, scaled_zero, decide_eq_true_eq]
  unfold scaled
  simp only [Bool.false_eq_true, if_false]
  exact Int.ofNat_nonneg _

theorem zero_le_fin_zero (s : Bool) (e : Int) : F64.le (ofInt 0) (fin s 0 e) = true := by
  have h0 : ofInt 0 = fin false 0 (-1074) := by decide
  rw [h0]
  simp [F64.le, scaled_zero]

theorem zero_le_cases (a : F64) (h : F64.le (ofInt 0) a = true) :
    a = inf false ∨ (∃ m e, a = fin false m e) ∨ ∃ e, a = fin true 0 e := by
  have h0 : ofInt 0 = fin false 0 (-1074) := by decide
  rw [h0] at h
  cases a with
  | nan => simp [F64.le] at h
  | inf s =>
    cases s
    · exact Or.inl rfl
    · simp [F64.le] at h
  | fin s m e =>
    cases s
    · exact Or.inr (Or.inl ⟨m, e, rfl⟩)
    · right; right
      simp only [F64.le, scaled_zero, decide_eq_true_eq] at h
      unfold scaled at h
      simp only [if_true] at h
      have hm : m * 2 ^ (e - min (-1074) e).toNat = 0 := by omega
      have hp : 0 < 2 ^ (e - min (-1074) e).toNat := Nat.two_pow_pos _
      have : m = 0 := by
        rcases Nat.mul_eq_zero.mp hm with h1 | h1
        · exact h1
        · omega
      subst this
      exact ⟨e, rfl⟩

theorem zero_le_mul_pos (a : F64) (n : Nat) (f : Int) (hn : n ≠ 0)
    (h : F64.le (ofInt 0) a = true) : F64.le (ofInt 0) (F64.mul a (fin false n f)) = true := by
  rcases zero_le_cases a h with rfl | ⟨m, e, rfl⟩ | ⟨e, rfl⟩
  · simp only [F64.mul, if_neg hn]
    rfl
  · simp only [F64.mul, Bool.xor_false]
    rcases round_sign false (m * n) (e + f) with h1 | ⟨m1, e1, h1⟩
    · rw [h1]; rfl
    · rw [h1]; exact zero_le_fin_false _ _
  · simp only [F64.mul, Bool.xor_false, Nat.zero_mul]
    have : round true 0 (e + f) = fin true 0 (-1074) := by simp [round]
    rw [this]
    exact zero_le_fin_zero _ _

theorem not_nan_of_zero_le (a : F64) (h : F64.le (ofInt 0) a = true) : isNaN a = false := by
  rcases zero_le_cases a h with rfl | ⟨m, e, rfl⟩ | ⟨e, rfl⟩ <;> rfl

end F64

namespace Mandel

open F64

theorem scale_nonneg_reachable (steps : List Step) (s : State)
    (h : run steps initState = some s) : F64.le (ofInt 0) s.gScale = true := by
  refine run_invariant (fun s => F64.le (ofInt 0) s.gScale = true) ?_ ?_ steps initState s ?_ h
  · intro s e hP
    rcases event_scale s e with ⟨h1, -, -⟩ | ⟨h1 | h1, -⟩
    · simp only [h1]; exact hP
    · simp only [h1]; exact zero_le_mul_pos _ _ _ (by decide) hP
    · simp only [h1]; exact zero_le_mul_pos _ _ _ (by decide) hP
  · intro s fuel s1 hP hren
    rcases render_fields fuel s s1 hren with ⟨-, h1⟩ | ⟨-, -, -, h1, -⟩
    · subst h1; exact hP
    · simp only [h1]; exact hP
  · decide

/-- In every reachable state with `gResolution = 0` the scale last rendered is
the current scale. -/
theorem refined_means_rendered (steps : List Step) (s : State)
    (h : run steps initState = some s) :
    s.gResolution = 0 → s.gLastScale = s.gScale := by
  refine run_invariant (fun s => s.gResolution = 0 → s.gLastScale = s.gScale) ?_ ?_ steps
    initState s ?_ h
  · intro s e hP
    rcases event_scale s e with ⟨h1, h2, h3⟩ | ⟨-, h3⟩
    · simp only [h1, h2, h3]; exact hP
    · simp only [h3]
      intro h0
      exact absurd h0 (by decide)
  · intro s fuel s1 hP hren
    rcases render_fields fuel s s1 hren with ⟨-, h1⟩ | ⟨-, -, -, h1, h2, -⟩
    · subst h1; exact hP
    · intro _
      rw [h1, h2]
  · intro h0
    exact absurd h0 (by decide)

/-- C20. In every state reachable from the initial state by events and calls of
`render`, `gResolution = 0` implies `gLastScale = gScale` (the same double, and
`!=` is false); so whenever the condition of `render` holds, the block size
handed to `mandelbrot3` is one of 1, 2, 4, 8, 16 and the call returns, and it
is never 0, for which `mandelbrot3` does not return. -/
theorem pass_never_started_with_zero (steps : List Step) (s : State)
    (h : run steps initState = some s) :
    (s.gResolution = 0 → s.gLastScale = s.gScale ∧ F64.ne s.gLastScale s.gScale = false) ∧
    (dirty s = true →
      s.gResolution = 1 ∨ s.gResolution = 2 ∨ s.gResolution = 4 ∨ s.gResolution = 8 ∨
        s.gResolution = 16) ∧
    (dirty s = true → ∀ fuel : Nat, 1122 ≤ fuel → ∃ s1 : State, render fuel s = some s1) ∧
    ∀ (t : State) (fuel : Nat), mandelbrot3 fuel 0 t = none := by
  have hres := resolution_reachable steps s h
  have hinv := refined_means_rendered steps s h
  have hnn := not_nan_of_zero_le _ (scale_nonneg_reachable steps s h)
  have hclean : s.gResolution = 0 → F64.ne s.gLastScale s.gScale = false := by
    intro h0
    rw [hinv h0]
    exact ne_self_of_not_nan _ hnn
  have hpos : dirty s = true →
      s.gResolution = 1 ∨ s.gResolution = 2 ∨ s.gResolution = 4 ∨ s.gResolution = 8 ∨
        s.gResolution = 16 := by
    intro hd
    rcases hres with h0 | h1
    · exfalso
      have hc := hclean h0
      unfold dirty at hd
      rw [hc, h0] at hd
      simp at hd
    · exact h1
  refine ⟨fun h0 => ⟨hinv h0, hclean h0⟩, hpos, ?_, mandelbrot3_zero⟩
  intro hd fuel hf
  exact ⟨_, render_pass fuel s hd (hpos hd) hf⟩

theorem pass_never_started_with_zero_witness :
    run [Step.input leftAtCentre] initState = some (event initState leftAtCentre) ∧
    ((event initState leftAtCentre).gResolution = 0 →
      (event initState leftAtCentre).gLastScale = (event initState leftAtCentre).gScale ∧
      F64.ne (event initState leftAtCentre).gLastScale (event initState leftAtCentre).gScale
        = false) ∧
    (dirty (event initState leftAtCentre) = true →
      (event initState leftAtCentre).gResolution = 1 ∨
      (event initState leftAtCentre).gResolution = 2 ∨
      (event initState leftAtCentre).gResolution = 4 ∨
      (event initState leftAtCentre).gResolution = 8 ∨
      (event initState leftAtCentre).gResolution = 16) ∧
    (dirty (event initState leftAtCentre) = true → ∀ fuel : Nat, 1122 ≤ fuel →
      ∃ s1 : State, render fuel (event initState leftAtCentre) = some s1) ∧
    ∀ (t : State) (fuel : Nat), mandelbrot3 fuel 0 t = none :=
  ⟨rfl, pass_never_started_with_zero [Step.input leftAtCentre] (event initState leftAtCentre) rfl⟩

/-- C12 (amended). In every state reachable from the initial state by events
and calls of `render`, `gScale >= 0` and `gScale` is not a NaN. -/
theorem scale_never_negative (steps : List Step) (s : State)
    (h : run steps initState = some s) :
    F64.le (ofInt 0) s.gScale = true ∧ isNaN s.gScale = false :=
  ⟨scale_nonneg_reachable steps s h, not_nan_of_zero_le _ (scale_nonneg_reachable steps s h)⟩

theorem scale_never_negative_witness :
    run [Step.input leftAtCentre] initState = some (event initState leftAtCentre) ∧
    F64.le (ofInt 0) (event initState leftAtCentre).gScale = true ∧
    isNaN (event initState leftAtCentre).gScale = false :=
  ⟨rfl, scale_never_negative [Step.input leftAtCentre] (event initState leftAtCentre) rfl⟩

theorem run_replicate_input (e : SDL_Event) (n : Nat) : ∀ s : State,
    run (List.replicate n (Step.input e)) s = some (repeatEvent e n s) := by
  induction n with
  | zero => intro s; rfl
  | succ n ih =>
    intro s
    simp only [List.replicate, run, step, repeatEvent]
    exact ih _

theorem repeatEvent_left_scale (x y : Int) (n : Nat) : ∀ s : State,
    (repeatEvent { type := SDL_MOUSEBUTTONUP, x := x, y := y, button := SDL_BUTTON_LEFT } n s).gScale
      = timesC c0_5 n s.gScale := by
  induction n with
  | zero => intro s; rfl
  | succ n ih =>
    intro s
    simp only [repeatEvent, timesC]
    rw [ih]
    rfl

/-- The scale after 1075 executions of `gScale *= 0.5` from 2: the smallest
positive double. -/
theorem timesC_zoom_in_1075 : timesC c0_5 1075 (ofInt 2) = fin false 1 (-1074) := by
  have h1 : timesC c0_5 250 (ofInt 2) = fin false 4503599627370496 (-301) := by decide!
  have h2 : timesC c0_5 250 (fin false 4503599627370496 (-301))
      = fin false 4503599627370496 (-551) := by decide!
  have h3 : timesC c0_5 250 (fin false 4503599627370496 (-551))
      = fin false 4503599627370496 (-801) := by decide!
  have h4 : timesC c0_5 250 (fin false 4503599627370496 (-801))
      = fin false 4503599627370496 (-1051) := by decide!
  have h5 : timesC c0_5 75 (fin false 4503599627370496 (-1051)) = fin false 1 (-1074) := by
    decide!
  rw [show 1075 = 250 + (250 + (250 + (250 + 75))) by rfl,
    timesC_add, h1, timesC_add, h2, timesC_add, h3, timesC_add, h4, h5]

/-- C12 (as stated, refuted). After 1076 releases of the left button (here at
the surface centre) from the initial state, `gScale` has underflowed to `+0`:
`gScale > 0` is false. -/
theorem scale_underflows_to_zero :
    run (List.replicate 1076 (Step.input leftAtCentre)) initState
        = some (repeatEvent leftAtCentre 1076 initState) ∧
      (repeatEvent leftAtCentre 1076 initState).gScale = fin false 0 (-1074) ∧
      F64.lt (ofInt 0) (repeatEvent leftAtCentre 1076 initState).gScale = false ∧
      F64.eq (repeatEvent leftAtCentre 1076 initState).gScale (ofInt 0) = true := by
  have hs : (repeatEvent leftAtCentre 1076 initState).gScale = fin false 0 (-1074) := by
    unfold leftAtCentre
    rw [repeatEvent_left_scale]
    show timesC c0_5 (1075 + 1) (ofInt 2) = fin false 0 (-1074)
    rw [timesC_add, timesC_zoom_in_1075]
    decide
  refine ⟨run_replicate_input _ _ _, hs, ?_, ?_⟩
  · rw [hs]; decide
  · rw [hs]; decide

end Mandel

namespace F64

/-! ### Comparison and NaN -/

theorem lt_of_not_le (a b : F64) (h : F64.le a b = false) (ha : isNaN a = false)
    (hb : isNaN b = false) : F64.lt b a = true := by
  cases a with
  | nan => simp [isNaN] at ha
  | inf s =>
    cases b with
    | nan => simp [isNaN] at hb
    | inf t => cases s <;> cases t <;> simp_all [F64.le, F64.lt]
    | fin t n f => cases s <;> simp_all [F64.le, F64.lt]
  | fin s m e =>
    cases b with
    | nan => simp [isNaN] at hb
    | inf t => cases t <;> simp_all [F64.le, F64.lt]
    | fin t n f =>
      simp only [F64.le, decide_eq_false_iff_not, not_le] at h
      simp only [F64.lt, decide_eq_true_eq]
      rw [min_comm]
      exact h

theorem add_nan_right (a : F64) : F64.add a nan = nan := by cases a <;> rfl

theorem mul_nan_right (a : F64) : F64.mul a nan = nan := by cases a <;> rfl

end F64

namespace Mandel

open F64

/-! ### Claims: the orbit and the sampled point -/

theorem loopCond_eq (z : Orbit) :
    loopCond z = (F64.le (normSq z) (ofInt 4) && decide (z.iteration ≤ 0xff)) := rfl

theorem orbit_iteration (x0 y0 : F64) (k : Nat) : (orbit x0 y0 k).iteration = k := by
  unfold orbit
  rw [loopBody_iterate_iteration]
  simp

theorem escapeTime_orbit (x0 y0 : F64) :
    ∃ n : Nat, n ≤ 256 ∧ escapeTime x0 y0 = n ∧ loopCond (orbit x0 y0 n) = false ∧
      ∀ k : Nat, k < n → loopCond (orbit x0 y0 k) = true := by
  obtain ⟨n, hn, he, -, hend, hall⟩ := escapeTime_run x0 y0
  exact ⟨n, hn, he, hend, hall⟩

theorem loopCond_true_iff (x0 y0 : F64) (k : Nat) (hk : k < 256) :
    loopCond (orbit x0 y0 k) = F64.le (normSq (orbit x0 y0 k)) (ofInt 4) := by
  rw [loopCond_eq, orbit_iteration]
  have : decide ((k : Int) ≤ 0xff) = true := by
    simp only [decide_eq_true_eq]
    omega
  rw [this, Bool.and_true]

theorem escapeTime_first_failure (x0 y0 : F64) (n : Nat) (hn : n < 256)
    (hfail : F64.le (normSq (orbit x0 y0 n)) (ofInt 4) = false)
    (hbefore : ∀ k : Nat, k < n → F64.le (normSq (orbit x0 y0 k)) (ofInt 4) = true) :
    escapeTime x0 y0 = n := by
  obtain ⟨m, hm, he, hend, hall⟩ := escapeTime_orbit x0 y0
  rw [he]
  have : m = n := by
    rcases Nat.lt_trichotomy m n with h | h | h
    · exfalso
      rw [loopCond_true_iff x0 y0 m (by omega), hbefore m h] at hend
      exact absurd hend (by decide)
    · exact h
    · exfalso
      have := hall n h
      rw [loopCond_true_iff x0 y0 n hn, hfail] at this
      exact absurd this (by decide)
  rw [this]

theorem escapeTime_no_failure (x0 y0 : F64)
    (hall : ∀ k : Nat, k < 256 → F64.le (normSq (orbit x0 y0 k)) (ofInt 4) = true) :
    escapeTime x0 y0 = 256 := by
  obtain ⟨m, hm, he, hend, -⟩ := escapeTime_orbit x0 y0
  rw [he]
  by_cases h : m < 256
  · exfalso
    rw [loopCond_true_iff x0 y0 m h, hall m h] at hend
    exact absurd hend (by decide)
  · have : m = 256 := by omega
    rw [this]
    rfl

/-- C15 (amended). With `z_0 = (0, 0)` and `z_(k+1)` the loop body applied to
`z_k`, the returned count is the least `n < 256` at which the guard
`x_n*x_n + y_n*y_n <= 4` fails, if there is one, and 256 otherwise. The guard
fails when the value is `> 4` and also when it is a NaN; for a value that is not
a NaN, failing is the same as `> 4`. -/
theorem escape_time_is_first_guard_failure (x0 y0 : F64) :
    (∀ n : Nat, n < 256 → F64.le (normSq (orbit x0 y0 n)) (ofInt 4) = false →
      (∀ k : Nat, k < n → F64.le (normSq (orbit x0 y0 k)) (ofInt 4) = true) →
      escapeTime x0 y0 = n) ∧
    ((∀ k : Nat, k < 256 → F64.le (normSq (orbit x0 y0 k)) (ofInt 4) = true) →
      escapeTime x0 y0 = 256) ∧
    (∀ k : Nat, isNaN (normSq (orbit x0 y0 k)) = false →
      (F64.le (normSq (orbit x0 y0 k)) (ofInt 4) = false ↔
        F64.lt (ofInt 4) (normSq (orbit x0 y0 k)) = true)) ∧
    (∀ k : Nat, orbit x0 y0 (k + 1) = loopBody x0 y0 (orbit x0 y0 k)) ∧
    orbit x0 y0 0 = { x := ofInt 0, y := ofInt 0, iteration := 0 } := by
  refine ⟨fun n hn hf hb => escapeTime_first_failure x0 y0 n hn hf hb,
    escapeTime_no_failure x0 y0, ?_, ?_, rfl⟩
  · intro k hk
    constructor
    · intro h
      exact lt_of_not_le _ _ h hk rfl
    · intro h
      cases hv : normSq (orbit x0 y0 k) with
      | nan => rw [hv] at hk; exact absurd hk (by decide)
      | inf s =>
        rw [hv] at h
        have h4 : ofInt 4 = fin false (2 ^ 52) (-50) := by decide
        rw [h4] at h ⊢
        cases s <;> simp_all [F64.lt, F64.le]
      | fin s m e =>
        rw [hv] at h
        have h4 : ofInt 4 = fin false (2 ^ 52) (-50) := by decide
        rw [h4] at h ⊢
        simp only [F64.lt, decide_eq_true_eq] at h
        simp only [F64.le, decide_eq_false_iff_not, not_le]
        rw [min_comm]
        exact h
  · intro k
    unfold orbit
    rw [Function.iterate_succ_apply']

theorem orbit_nan (k : Nat) :
    orbit F64.nan F64.nan (k + 1) = { x := F64.nan, y := F64.nan, iteration := k + 1 } := by
  induction k with
  | zero =>
    unfold orbit
    simp only [Function.iterate_succ, Function.iterate_zero, Function.comp_apply, id_eq, loopBody,
      add_nan_right]
    rfl
  | succ k ih =>
    unfold orbit at ih ⊢
    rw [Function.iterate_succ_apply', ih]
    simp only [loopBody, add_nan_right]
    congr 1

/-- C15 (as stated, refuted at the plane point (NaN, NaN)). No `z_k` has
`x_k^2 + y_k^2 > 4`, so the claim gives 256, but the loop returns 1: the guard
`<= 4` is false on the NaN of `z_1`. -/
theorem escape_time_of_nan_point :
    escapeTime F64.nan F64.nan = 1 ∧
      ∀ k : Nat, k < 256 → F64.lt (ofInt 4) (normSq (orbit F64.nan F64.nan k)) = false := by
  constructor
  · apply escapeTime_first_failure F64.nan F64.nan 1 (by decide)
    · rw [orbit_nan 0]
      rfl
    · intro k hk
      have : k = 0 := by omega
      subst this
      decide
  · intro k _
    cases k with
    | zero => decide
    | succ k =>
      rw [orbit_nan k]
      rfl

/-- C16 (the code at the failing input). For every block size 2, 4, 8, 16 and
every block origin `sx`, the sampled coordinate `sx - offset` is `sx - r/2`,
left of (and above) the block, not in `[sx, sx + r)`. With block size 16 the
pixel (0, 0) of the first block is coloured from the sample at (-8, -8). -/
theorem block_sample_outside_block :
    (∀ sx : Int, sx - sampleOffset 2 = sx - 1 ∧ ¬ (sx ≤ sx - sampleOffset 2)) ∧
    (∀ sx : Int, sx - sampleOffset 4 = sx - 2 ∧ ¬ (sx ≤ sx - sampleOffset 4)) ∧
    (∀ sx : Int, sx - sampleOffset 8 = sx - 4 ∧ ¬ (sx ≤ sx - sampleOffset 8)) ∧
    (∀ sx : Int, sx - sampleOffset 16 = sx - 8 ∧ ¬ (sx ≤ sx - sampleOffset 16)) ∧
    ∃ s1 : State, mandelbrot3 1122 16 initState = some s1 ∧
      s1.pixels 0 = colorOf (escapeTime (scaleX initState (-8)) (scaleY initState (-8))) := by
  have h2 : sampleOffset 2 = 1 := by decide
  have h4 : sampleOffset 4 = 2 := by decide
  have h8 : sampleOffset 8 = 4 := by decide
  have h16 : sampleOffset 16 = 8 := by decide
  refine ⟨?_, ?_, ?_, ?_, ?_⟩
  · intro sx; rw [h2]; omega
  · intro sx; rw [h4]; omega
  · intro sx; rw [h8]; omega
  · intro sx; rw [h16]; omega
  · refine ⟨_, mandelbrot3_spec 16 (by decide) 1122 (by decide) initState, ?_⟩
    rw [setPixels_pixels]
    have := paint_surface initState.pixels (pixelColor initState 16) 0 0 (by decide) (by decide)
      (by decide) (by decide)
    simp only [Int.zero_mul, Int.add_zero, Int.toNat_zero] at this
    rw [this]
    rfl

/-! ### Claims: the plain render and the writes of a pass -/

theorem mandelbrotY_spec (sx : Int) (h1 : 0 ≤ sx) (h2 : sx < 640) (n : Nat) :
    ∀ (sy : Int) (s : State), (480 - sy).toNat = n → 0 ≤ sy →
      mandelbrotY sx sy s = some (setPixels s
        (paint s.pixels (fun x y => blockColor s 0 x y) sx (sx + 1) sy 480)) := by
  induction n with
  | zero =>
    intro sy s hn hsy
    rw [mandelbrotY, if_neg (by simp only [SCREEN_HEIGHT]; omega),
      paint_empty _ _ _ _ _ _ (by omega), setPixels_self]
  | succ n ih =>
    intro sy s hn hsy
    rw [mandelbrotY, if_pos (by simp only [SCREEN_HEIGHT]; omega)]
    simp only [SCREEN_WIDTH]
    rw [store_some s _ _ (by omega) (by omega)]
    simp only
    rw [ih (sy + 1) _ (by omega) (by omega), setPixels_setPixels, setPixels_pixels]
    simp only [blockColor_setPixels]
    congr 2
    funext i
    simp only [paint, Function.update_apply, blockColor]
    split_ifs <;> first | rfl | omega | (congr 3 <;> omega)

theorem mandelbrotX_spec (n : Nat) :
    ∀ (sx : Int) (s : State), (640 - sx).toNat = n → 0 ≤ sx →
      mandelbrotX sx s = some (setPixels s
        (paint s.pixels (fun x y => blockColor s 0 x y) sx 640 0 480)) := by
  induction n with
  | zero =>
    intro sx s hn hsx
    rw [mandelbrotX, if_neg (by simp only [SCREEN_WIDTH]; omega),
      paint_empty _ _ _ _ _ _ (by omega), setPixels_self]
  | succ n ih =>
    intro sx s hn hsx
    rw [mandelbrotX, if_pos (by simp only [SCREEN_WIDTH]; omega),
      mandelbrotY_spec sx hsx (by omega) _ 0 s rfl (by omega)]
    simp only
    rw [ih (sx + 1) _ (by omega) (by omega), setPixels_setPixels, setPixels_pixels]
    simp only [blockColor_setPixels]
    congr 2
    funext i
    simp only [paint]
    split_ifs <;> first | rfl | omega

theorem pixelColor_one (s : State) :
    pixelColor s 1 = fun x y => blockColor s 0 x y := by
  funext x y
  unfold pixelColor
  have h0 : sampleOffset 1 = 0 := by decide
  rw [h0, Int.emod_one, Int.emod_one, Int.sub_zero, Int.sub_zero]

/-- Closed form of the buffer after `mandelbrot()`. -/
theorem mandelbrot_spec (s : State) :
    mandelbrot s = some (setPixels s (paint s.pixels (pixelColor s 1) 0 640 0 480)) := by
  unfold mandelbrot
  rw [mandelbrotX_spec 640 0 s rfl (by decide), pixelColor_one]

/-- C19. For every viewport and every initial pixel buffer, `mandelbrot3(1)` and
`mandelbrot()` both return and leave the same state, hence identical pixel
buffers. -/
theorem finest_pass_is_plain_render (s : State) (fuel : Nat) (hf : 1122 ≤ fuel) :
    mandelbrot3 fuel 1 s = mandelbrot s ∧
      ∃ s1 : State, mandelbrot s = some s1 ∧ mandelbrot3 fuel 1 s = some s1 := by
  have h3 := mandelbrot3_spec 1 (by decide) fuel hf s
  have h1 := mandelbrot_spec s
  exact ⟨by rw [h3, h1], _, h1, h3⟩

theorem finest_pass_is_plain_render_witness :
    1122 ≤ 1122 ∧ mandelbrot3 1122 1 initState = mandelbrot initState ∧
      ∃ s1 : State, mandelbrot initState = some s1 ∧ mandelbrot3 1122 1 initState = some s1 :=
  ⟨by decide, finest_pass_is_plain_render initState 1122 (by decide)⟩

/-! ### The log is that of `mandelbrot3` -/

theorem storeLog_fst (x y idx iter : Int) (st : State × List Write) :
    (storeLog x y idx iter st).map Prod.fst = store st.1 idx iter := by
  unfold storeLog
  cases store st.1 idx iter <;> rfl

theorem fillRyLog_fst (R sx sy iter rx : Int) (n : Nat) :
    ∀ (ry : Int) (st : State × List Write), (R - ry).toNat = n →
      (fillRyLog R sx sy iter rx ry st).map Prod.fst = fillRy R sx sy iter rx ry st.1 := by
  induction n with
  | zero =>
    intro ry st hn
    rw [fillRyLog, fillRy, if_neg (by omega), if_neg (by omega)]
    rfl
  | succ n ih =>
    intro ry st hn
    rw [fillRyLog, fillRy, if_pos (by omega), if_pos (by omega)]
    have h := storeLog_fst (sx + rx) (sy + ry) ((sy + ry) * SCREEN_WIDTH + sx + rx) iter st
    cases hl : storeLog (sx + rx) (sy + ry) ((sy + ry) * SCREEN_WIDTH + sx + rx) iter st with
    | none =>
      rw [hl] at h
      rw [← h]
      rfl
    | some st1 =>
      rw [hl] at h
      rw [← h]
      exact ih (ry + 1) st1 (by omega)

theorem fillRxLog_fst (R sx sy iter : Int) (n : Nat) :
    ∀ (rx : Int) (st : State × List Write), (R - rx).toNat = n →
      (fillRxLog R sx sy iter rx st).map Prod.fst = fillRx R sx sy iter rx st.1 := by
  induction n with
  | zero =>
    intro rx st hn
    rw [fillRxLog, fillRx, if_neg (by omega), if_neg (by omega)]
    rfl
  | succ n ih =>
    intro rx st hn
    rw [fillRxLog, fillRx, if_pos (by omega), if_pos (by omega)]
    have h := fillRyLog_fst R sx sy iter rx _ 0 st rfl
    cases hl : fillRyLog R sx sy iter rx 0 st with
    | none =>
      rw [hl] at h
      rw [← h]
      rfl
    | some st1 =>
      rw [hl] at h
      rw [← h]
      exact ih (rx + 1) st1 (by omega)

theorem blockBodyLog_fst (R off sx sy : Int) (st : State × List Write) :
    (blockBodyLog R off sx sy st).map Prod.fst = blockBody R off sx sy st.1 := by
  unfold blockBodyLog blockBody
  simp only
  by_cases hR : R = 1
  · rw [if_pos hR, if_pos hR]
    have h := storeLog_fst sx sy (sy * SCREEN_WIDTH + sx)
      (escapeTime (scaleX st.1 (sx - off)) (scaleY st.1 (sy - off))) st
    cases hl : storeLog sx sy (sy * SCREEN_WIDTH + sx)
        (escapeTime (scaleX st.1 (sx - off)) (scaleY st.1 (sy - off))) st with
    | none =>
      rw [hl] at h
      rw [← h]
      rfl
    | some st1 =>
      rw [hl] at h
      rw [← h]
      exact fillRxLog_fst R sx sy _ _ 0 st1 rfl
  · rw [if_neg hR, if_neg hR]
    exact fillRxLog_fst R sx sy _ _ 0 st rfl

theorem loopYLog_fst (R off sx : Int) (fuel : Nat) :
    ∀ (sy : Int) (st : State × List Write),
      (loopYLog R off sx fuel sy st).map Prod.fst = loopY R off sx fuel sy st.1 := by
  induction fuel with
  | zero => intro sy st; rfl
  | succ fuel ih =>
    intro sy st
    rw [loopYLog, loopY]
    by_cases hlt : sy < SCREEN_HEIGHT
    · rw [if_pos hlt, if_pos hlt]
      have h := blockBodyLog_fst R off sx sy st
      cases hl : blockBodyLog R off sx sy st with
      | none =>
        rw [hl] at h
        rw [← h]
        rfl
      | some st1 =>
        rw [hl] at h
        rw [← h]
        exact ih _ st1
    · rw [if_neg hlt, if_neg hlt]
      rfl

theorem loopXLog_fst (R off : Int) (fuel : Nat) :
    ∀ (sx : Int) (st : State × List Write),
      (loopXLog R off fuel sx st).map Prod.fst = loopX R off fuel sx st.1 := by
  induction fuel with
  | zero => intro sx st; rfl
  | succ fuel ih =>
    intro sx st
    rw [loopXLog, loopX]
    by_cases hlt : sx < SCREEN_WIDTH
    · rw [if_pos hlt, if_pos hlt]
      have h := loopYLog_fst R off sx fuel 0 st
      cases hl : loopYLog R off sx fuel 0 st with
      | none =>
        rw [hl] at h
        rw [← h]
        rfl
      | some st1 =>
        rw [hl] at h
        rw [← h]
        exact ih _ st1
    · rw [if_neg hlt, if_neg hlt]
      rfl

/-- Forgetting the log gives `mandelbrot3`. -/
theorem mandelbrot3Log_fst (fuel : Nat) (R : Int) (s : State) :
    (mandelbrot3Log fuel R s).map Prod.fst = mandelbrot3 fuel R s :=
  loopXLog_fst R _ fuel 0 (s, [])

/-! ### Every recorded write is on the surface -/

theorem storeLog_writes (x y idx iter : Int) (st st1 : State × List Write)
    (h : storeLog x y idx iter st = some st1) (hw : Write.onSurface { x := x, y := y, idx := idx })
    (hall : ∀ w ∈ st.2, Write.onSurface w) : ∀ w ∈ st1.2, Write.onSurface w := by
  unfold storeLog at h
  cases hs : store st.1 idx iter with
  | none => rw [hs] at h; simp at h
  | some s1 =>
    rw [hs] at h
    simp only [Option.some.injEq] at h
    subst h
    intro w hmem
    simp only [List.mem_cons] at hmem
    rcases hmem with rfl | hmem
    · exact hw
    · exact hall w hmem

theorem fillRyLog_writes (R sx sy iter rx : Int) (h1 : 0 ≤ sx + rx) (h2 : sx + rx < 640)
    (h3 : 0 ≤ sy) (h4 : sy + R ≤ 480) (n : Nat) :
    ∀ (ry : Int) (st st1 : State × List Write), (R - ry).toNat = n → 0 ≤ ry →
      fillRyLog R sx sy iter rx ry st = some st1 → (∀ w ∈ st.2, Write.onSurface w) →
      ∀ w ∈ st1.2, Write.onSurface w := by
  induction n with
  | zero =>
    intro ry st st1 hn hry h hall
    rw [fillRyLog, if_neg (by omega)] at h
    simp only [Option.some.injEq] at h
    subst h
    exact hall
  | succ n ih =>
    intro ry st st1 hn hry h hall
    rw [fillRyLog, if_pos (by omega)] at h
    cases hl : storeLog (sx + rx) (sy + ry) ((sy + ry) * SCREEN_WIDTH + sx + rx) iter st with
    | none => rw [hl] at h; simp at h
    | some st2 =>
      rw [hl] at h
      refine ih (ry + 1) st2 st1 (by omega) (by omega) h ?_
      refine storeLog_writes _ _ _ _ _ _ hl ?_ hall
      simp only [Write.onSurface, SCREEN_WIDTH]
      omega

theorem fillRxLog_writes (R sx sy iter : Int) (h1 : 0 ≤ sx) (h2 : sx + R ≤ 640)
    (h3 : 0 ≤ sy) (h4 : sy + R ≤ 480) (n : Nat) :
    ∀ (rx : Int) (st st1 : State × List Write), (R - rx).toNat = n → 0 ≤ rx →
      fillRxLog R sx sy iter rx st = some st1 → (∀ w ∈ st.2, Write.onSurface w) →
      ∀ w ∈ st1.2, Write.onSurface w := by
  induction n with
  | zero =>
    intro rx st st1 hn hrx h hall
    rw [fillRxLog, if_neg (by omega)] at h
    simp only [Option.some.injEq] at h
    subst h
    exact hall
  | succ n ih =>
    intro rx st st1 hn hrx h hall
    rw [fillRxLog, if_pos (by omega)] at h
    cases hl : fillRyLog R sx sy iter rx 0 st with
    | none => rw [hl] at h; simp at h
    | some st2 =>
      rw [hl] at h
      refine ih (rx + 1) st2 st1 (by omega) (by omega) h ?_
      exact fillRyLog_writes R sx sy iter rx (by omega) (by omega) h3 h4 _ 0 st st2 rfl
        (by omega) hl hall

theorem blockBodyLog_writes (R off sx sy : Int) (st st1 : State × List Write) (h1 : 0 ≤ sx)
    (h2 : sx + R ≤ 640) (h3 : 0 ≤ sy) (h4 : sy + R ≤ 480)
    (h : blockBodyLog R off sx sy st = some st1) (hall : ∀ w ∈ st.2, Write.onSurface w) :
    ∀ w ∈ st1.2, Write.onSurface w := by
  unfold blockBodyLog at h
  simp only at h
  by_cases hR : R = 1
  · rw [if_pos hR] at h
    cases hl : storeLog sx sy (sy * SCREEN_WIDTH + sx)
        (escapeTime (scaleX st.1 (sx - off)) (scaleY st.1 (sy - off))) st with
    | none => rw [hl] at h; simp at h
    | some st2 =>
      rw [hl] at h
      refine fillRxLog_writes R sx sy _ h1 h2 h3 h4 _ 0 st2 st1 rfl (by omega) h ?_
      refine storeLog_writes _ _ _ _ _ _ hl ?_ hall
      show sy * SCREEN_WIDTH + sx = sy * 640 + sx ∧ 0 ≤ sx ∧ sx < 640 ∧ 0 ≤ sy ∧ sy < 480
      exact ⟨rfl, by omega, by omega, by omega, by omega⟩
  · rw [if_neg hR] at h
    exact fillRxLog_writes R sx sy _ h1 h2 h3 h4 _ 0 st st1 rfl (by omega) h hall

theorem loopYLog_writes (R off sx : Int) (hR : R = 1 ∨ R = 2 ∨ R = 4 ∨ R = 8 ∨ R = 16)
    (h1 : 0 ≤ sx) (h2 : sx + R ≤ 640) (fuel : Nat) :
    ∀ (sy : Int) (st st1 : State × List Write), 0 ≤ sy → sy % R = 0 →
      loopYLog R off sx fuel sy st = some st1 → (∀ w ∈ st.2, Write.onSurface w) →
      ∀ w ∈ st1.2, Write.onSurface w := by
  induction fuel with
  | zero => intro sy st st1 _ _ h; simp [loopYLog] at h
  | succ fuel ih =>
    intro sy st st1 h0 hm h hall
    rw [loopYLog] at h
    simp only [SCREEN_HEIGHT] at h
    by_cases hlt : sy < 480
    · rw [if_pos hlt] at h
      cases hl : blockBodyLog R off sx sy st with
      | none => rw [hl] at h; simp at h
      | some st2 =>
        rw [hl] at h
        have hle : sy + R ≤ 480 := by
          rcases hR with rfl | rfl | rfl | rfl | rfl <;> omega
        have hm2 : (sy + R) % R = 0 := by
          rcases hR with rfl | rfl | rfl | rfl | rfl <;> omega
        have hpos : 0 ≤ sy + R := by
          rcases hR with rfl | rfl | rfl | rfl | rfl <;> omega
        exact ih (sy + R) st2 st1 hpos hm2 h
          (blockBodyLog_writes R off sx sy st st2 h1 h2 h0 hle hl hall)
    · rw [if_neg hlt] at h
      simp only [Option.some.injEq] at h
      subst h
      exact hall

theorem loopXLog_writes (R off : Int) (hR : R = 1 ∨ R = 2 ∨ R = 4 ∨ R = 8 ∨ R = 16)
    (fuel : Nat) :
    ∀ (sx : Int) (st st1 : State × List Write), 0 ≤ sx → sx % R = 0 →
      loopXLog R off fuel sx st = some st1 → (∀ w ∈ st.2, Write.onSurface w) →
      ∀ w ∈ st1.2, Write.onSurface w := by
  induction fuel with
  | zero => intro sx st st1 _ _ h; simp [loopXLog] at h
  | succ fuel ih =>
    intro sx st st1 h0 hm h hall
    rw [loopXLog] at h
    simp only [SCREEN_WIDTH] at h
    by_cases hlt : sx < 640
    · rw [if_pos hlt] at h
      cases hl : loopYLog R off sx fuel 0 st with
      | none => rw [hl] at h; simp at h
      | some st2 =>
        rw [hl] at h
        have hle : sx + R ≤ 640 := by
          rcases hR with rfl | rfl | rfl | rfl | rfl <;> omega
        have hm2 : (sx + R) % R = 0 := by
          rcases hR with rfl | rfl | rfl | rfl | rfl <;> omega
        have hpos : 0 ≤ sx + R := by
          rcases hR with rfl | rfl | rfl | rfl | rfl <;> omega
        exact ih (sx + R) st2 st1 hpos hm2 h
          (loopYLog_writes R off sx hR h0 hle fuel 0 st st2 (by omega) (by simp) hl hall)
    · rw [if_neg hlt] at h
      simp only [Option.some.injEq] at h
      subst h
      exact hall

theorem paint_outside (p : Nat → Nat) (g : Int → Int → Nat) (i : Nat) (h : 640 * 480 ≤ i) :
    paint p g 0 640 0 480 i = p i := by
  unfold paint
  rw [if_neg]
  omega

/-- C18. For every block size `r` in {1,2,4,8,16}, `mandelbrot3 r` returns and
every write it makes addresses a cell `(x, y)` with `0 ≤ x < 640`,
`0 ≤ y < 480` at the index `y*640 + x`, which lies in `[0, 640*480)`; every
buffer entry at an index `≥ 640*480` is left unchanged. -/
theorem block_writes_in_bounds (s : State) (r : Int) (fuel : Nat)
    (hr : r = 1 ∨ r = 2 ∨ r = 4 ∨ r = 8 ∨ r = 16) (hf : 1122 ≤ fuel) :
    ∃ (s1 : State) (log : List Write),
      mandelbrot3Log fuel r s = some (s1, log) ∧ mandelbrot3 fuel r s = some s1 ∧
      (∀ w ∈ log, (w.idx = w.y * 640 + w.x ∧ 0 ≤ w.x ∧ w.x < 640 ∧ 0 ≤ w.y ∧ w.y < 480) ∧
        0 ≤ w.idx ∧ w.idx < 640 * 480) ∧
      ∀ i : Nat, 640 * 480 ≤ i → s1.pixels i = s.pixels i := by
  have hspec := mandelbrot3_spec r hr fuel hf s
  have hfst := mandelbrot3Log_fst fuel r s
  rw [hspec] at hfst
  cases hl : mandelbrot3Log fuel r s with
  | none => rw [hl] at hfst; simp at hfst
  | some st1 =>
    rw [hl] at hfst
    simp only [Option.map_some', Option.some.injEq] at hfst
    obtain ⟨s1, log⟩ := st1
    simp only at hfst
    subst hfst
    refine ⟨_, log, rfl, hspec, ?_, ?_⟩
    · intro w hw
      have hon : Write.onSurface w := by
        unfold mandelbrot3Log at hl
        exact loopXLog_writes r _ hr fuel 0 (s, []) _ (by omega) (by simp) hl
          (by intro w hw; simp at hw) w hw
      have hon2 := hon
      unfold Write.onSurface at hon2
      exact ⟨hon2, by omega, by omega⟩
    · intro i hi
      rw [setPixels_pixels, paint_outside _ _ i hi]

theorem block_writes_in_bounds_witness :
    ((16 : Int) = 1 ∨ (16 : Int) = 2 ∨ (16 : Int) = 4 ∨ (16 : Int) = 8 ∨ (16 : Int) = 16) ∧
    1122 ≤ 1122 ∧
    ∃ (s1 : State) (log : List Write),
      mandelbrot3Log 1122 16 initState = some (s1, log) ∧
      mandelbrot3 1122 16 initState = some s1 ∧
      (∀ w ∈ log, (w.idx = w.y * 640 + w.x ∧ 0 ≤ w.x ∧ w.x < 640 ∧ 0 ≤ w.y ∧ w.y < 480) ∧
        0 ≤ w.idx ∧ w.idx < 640 * 480) ∧
      ∀ i : Nat, 640 * 480 ≤ i → s1.pixels i = initState.pixels i :=
  ⟨by decide, by decide, block_writes_in_bounds initState 16 1122 (by decide) (by decide)⟩

end Mandel

namespace F64

/-! ## IEEE 754 binary64: rounding is monotone and depends on the value only -/

theorem bits_zero : bits 0 = 0 := by
  unfold bits
  rfl

theorem bits_bounds (n : Nat) (hn : n ≠ 0) :
    1 ≤ bits n ∧ 2 ^ (bits n - 1) ≤ n ∧ n < 2 ^ bits n := by
  obtain ⟨a, b⟩ := bitsAux_bounds n n (le_refl n)
  have b := b hn
  unfold bits
  refine ⟨?_, b, a⟩
  by_contra hc
  have h0 : bitsAux n n = 0 := by omega
  rw [h0] at a
  simp at a
  exact hn a

theorem bits_mono (m n : Nat) (h : m ≤ n) : bits m ≤ bits n := by
  by_cases hm : m = 0
  · subst hm
    rw [bits_zero]
    exact Nat.zero_le _
  · have hn : n ≠ 0 := by omega
    obtain ⟨h1, h2, -⟩ := bits_bounds m hm
    obtain ⟨-, -, h3⟩ := bits_bounds n hn
    by_contra hc
    have : 2 ^ bits n ≤ 2 ^ (bits m - 1) := Nat.pow_le_pow_right (by decide) (by omega)
    omega

theorem bits_mul_pow (n j : Nat) (hn : n ≠ 0) : bits (n * 2 ^ j) = bits n + j := by
  obtain ⟨h1, h2, h3⟩ := bits_bounds n hn
  have hpos : 0 < 2 ^ j := Nat.two_pow_pos j
  have e : bits n + j = (bits n - 1 + j) + 1 := by omega
  rw [e]
  apply bits_eq
  · rw [pow_add]
    exact Nat.mul_le_mul_right _ h2
  · rw [← e, pow_add]
    exact Nat.mul_lt_mul_of_pos_right h3 hpos

theorem lt_two_pow_bits (n : Nat) : n < 2 ^ bits n := by
  by_cases hn : n = 0
  · subst hn
    rw [bits_zero]
    decide
  · exact (bits_bounds n hn).2.2

/-- In the exact branch the significand stays below `2^53`. -/
theorem exact_lt (m : Nat) (e : Int) (h : expOf m e ≤ e) :
    m * 2 ^ (e - expOf m e).toNat < 2 ^ 53 := by
  have hb := lt_two_pow_bits m
  have hk : bits m + (e - expOf m e).toNat ≤ 53 := by
    unfold expOf at h ⊢
    omega
  calc m * 2 ^ (e - expOf m e).toNat
      < 2 ^ bits m * 2 ^ (e - expOf m e).toNat :=
        Nat.mul_lt_mul_of_pos_right hb (Nat.two_pow_pos _)
    _ = 2 ^ (bits m + (e - expOf m e).toNat) := by rw [pow_add]
    _ ≤ 2 ^ 53 := Nat.pow_le_pow_right (by decide) hk

/-- The function `round` in terms of `expOf`, `mantOf` and `pack`. -/
theorem round_eq (s : Bool) (m : Nat) (e : Int) (hm : m ≠ 0) :
    round s m e = pack s (mantOf m e) (expOf m e) := by
  unfold round pack mantOf rne
  rw [if_neg hm]
  simp only
  have hE : max (e + ((bits m : Nat) : Int) - 53) (-1074) = expOf m e := rfl
  rw [hE]
  by_cases h1 : 971 < expOf m e
  · rw [if_pos h1, if_pos h1]
  · rw [if_neg h1, if_neg h1]
    by_cases h2 : expOf m e ≤ e
    · rw [if_pos h2, if_pos h2]
      have := exact_lt m e h2
      rw [if_neg (by omega)]
    · rw [if_neg h2, if_neg h2]
      split_ifs <;> rfl

theorem round_zero (s : Bool) (e : Int) : round s 0 e = fin s 0 (-1074) := by
  simp [round]

theorem rne_ge (m sh : Nat) : m / 2 ^ sh ≤ rne m sh := by
  unfold rne
  split_ifs <;> omega

theorem rne_le_succ (m sh : Nat) : rne m sh ≤ m / 2 ^ sh + 1 := by
  unfold rne
  split_ifs <;> omega

theorem rne_le (m sh k : Nat) (h : m < 2 ^ (sh + k)) : rne m sh ≤ 2 ^ k := by
  have hq : m / 2 ^ sh < 2 ^ k := by
    rw [Nat.div_lt_iff_lt_mul (Nat.two_pow_pos sh), ← pow_add, Nat.add_comm]
    exact h
  have := rne_le_succ m sh
  omega

theorem rne_mono (m n sh : Nat) (h : m ≤ n) : rne m sh ≤ rne n sh := by
  have hq : m / 2 ^ sh ≤ n / 2 ^ sh := Nat.div_le_div_right h
  rcases Nat.lt_or_ge (m / 2 ^ sh) (n / 2 ^ sh) with hlt | hge
  · have := rne_le_succ m sh
    have := rne_ge n sh
    omega
  · have hqe : m / 2 ^ sh = n / 2 ^ sh := by omega
    have hm := Nat.div_add_mod m (2 ^ sh)
    have hn := Nat.div_add_mod n (2 ^ sh)
    have hr : m % 2 ^ sh ≤ n % 2 ^ sh := by
      rw [hqe] at hm
      omega
    unfold rne
    rw [hqe]
    split_ifs <;> omega

theorem rne_mul_pow (m sh j : Nat) (hsh : 1 ≤ sh) :
    rne (m * 2 ^ j) (sh + j) = rne m sh := by
  have hq : m * 2 ^ j / 2 ^ (sh + j) = m / 2 ^ sh := by
    rw [pow_add]
    exact Nat.mul_div_mul_right _ _ (Nat.two_pow_pos j)
  have hr : m * 2 ^ j % 2 ^ (sh + j) = m % 2 ^ sh * 2 ^ j := by
    rw [pow_add]
    exact Nat.mul_mod_mul_right _ _ _
  have hh : 2 ^ (sh + j - 1) = 2 ^ (sh - 1) * 2 ^ j := by
    rw [← pow_add]
    congr 1
    omega
  have hpos : 0 < 2 ^ j := Nat.two_pow_pos j
  unfold rne
  rw [hq, hr, hh]
  have c1 : 2 ^ (sh - 1) * 2 ^ j < m % 2 ^ sh * 2 ^ j ↔ 2 ^ (sh - 1) < m % 2 ^ sh :=
    Nat.mul_lt_mul_right hpos
  have c2 : m % 2 ^ sh * 2 ^ j = 2 ^ (sh - 1) * 2 ^ j ↔ m % 2 ^ sh = 2 ^ (sh - 1) :=
    Nat.mul_left_inj (by omega)
  simp only [c1, c2]

theorem rne_exact (m sh : Nat) : rne (m * 2 ^ sh) sh = m := by
  have hq : m * 2 ^ sh / 2 ^ sh = m := Nat.mul_div_cancel _ (Nat.two_pow_pos sh)
  have hr : m * 2 ^ sh % 2 ^ sh = 0 := Nat.mul_mod_left _ _
  have hh : 0 < 2 ^ (sh - 1) := Nat.two_pow_pos _
  unfold rne
  rw [hq, hr]
  rw [if_neg]
  omega

theorem mantOf_le (m : Nat) (e : Int) : mantOf m e ≤ 2 ^ 53 := by
  unfold mantOf
  split_ifs with h
  · exact le_of_lt (exact_lt m e h)
  · apply rne_le
    have hb := lt_two_pow_bits m
    have hk : bits m ≤ (expOf m e - e).toNat + 53 := by
      unfold expOf at h ⊢
      omega
    exact lt_of_lt_of_le hb (Nat.pow_le_pow_right (by decide) hk)

theorem mantOf_ge (m : Nat) (e : Int) (hm : m ≠ 0) (h : -1074 < expOf m e) :
    2 ^ 52 ≤ mantOf m e := by
  obtain ⟨h1, h2, h3⟩ := bits_bounds m hm
  have hE : expOf m e = e + (bits m : Nat) - 53 := by
    unfold expOf at h ⊢
    omega
  unfold mantOf
  split_ifs with hc
  · have hk : (e - expOf m e).toNat + (bits m - 1) = 52 := by omega
    calc 2 ^ 52 = 2 ^ (bits m - 1) * 2 ^ (e - expOf m e).toNat := by
          rw [← pow_add, Nat.add_comm, hk]
      _ ≤ m * 2 ^ (e - expOf m e).toNat := Nat.mul_le_mul_right _ h2
  · refine le_trans ?_ (rne_ge _ _)
    rw [Nat.le_div_iff_mul_le (Nat.two_pow_pos _), ← pow_add]
    have hk : 52 + (expOf m e - e).toNat = bits m - 1 := by omega
    rw [hk]
    exact h2

theorem expOf_mul_pow (m j : Nat) (e : Int) (hm : m ≠ 0) :
    expOf (m * 2 ^ j) (e - j) = expOf m e := by
  unfold expOf
  rw [bits_mul_pow m j hm]
  push_cast
  congr 1
  omega

theorem mantOf_mul_pow (m j : Nat) (e : Int) (hm : m ≠ 0) :
    mantOf (m * 2 ^ j) (e - j) = mantOf m e := by
  unfold mantOf
  rw [expOf_mul_pow m j e hm]
  by_cases h1 : expOf m e ≤ e - j
  · have h2 : expOf m e ≤ e := by omega
    rw [if_pos h1, if_pos h2]
    have hk : (e - expOf m e).toNat = j + (e - j - expOf m e).toNat := by omega
    rw [hk, pow_add, Nat.mul_assoc]
  · rw [if_neg h1]
    by_cases h2 : expOf m e ≤ e
    · rw [if_pos h2]
      have hk : j = (e - expOf m e).toNat + (expOf m e - (e - j)).toNat := by omega
      have hm2 : m * 2 ^ j
          = m * 2 ^ (e - expOf m e).toNat * 2 ^ (expOf m e - (e - j)).toNat := by
        rw [Nat.mul_assoc, ← pow_add, ← hk]
      rw [hm2, rne_exact]
    · rw [if_neg h2]
      have hk : (expOf m e - (e - j)).toNat = (expOf m e - e).toNat + j := by omega
      rw [hk]
      exact rne_mul_pow _ _ _ (by omega)

/-- Rounding depends on the value only: a significand scaled by `2^j` at an
exponent lowered by `j` rounds to the same double. -/
theorem round_mul_pow (s : Bool) (m j : Nat) (e : Int) :
    round s (m * 2 ^ j) (e - j) = round s m e := by
  by_cases hm : m = 0
  · subst hm
    rw [Nat.zero_mul, round_zero, round_zero]
  · have hm2 : m * 2 ^ j ≠ 0 := Nat.mul_ne_zero hm (by positivity)
    rw [round_eq s _ _ hm2, round_eq s _ _ hm, expOf_mul_pow m j e hm,
      mantOf_mul_pow m j e hm]

/-- A canonical double is a fixed point of `round`. -/
theorem round_double (t : Bool) (n : Nat) (f : Int) (h : IsDouble (fin t n f)) :
    round t n f = fin t n f := by
  by_cases hn : n = 0
  · subst hn
    rw [round_zero]
    obtain ⟨-, -, -, h4⟩ := h
    rcases h4 with h4 | h4
    · exact absurd h4 (by decide)
    · rw [h4]
  · obtain ⟨h1, h2, h3, h4⟩ := h
    have hE : expOf n f = f := by
      unfold expOf
      rcases h4 with h4 | h4
      · have : bits n = 53 := bits_eq n 52 h4 h1
        omega
      · have : bits n ≤ 53 := bits_le n 53 h1
        omega
    have hM : mantOf n f = n := by
      unfold mantOf
      rw [hE, if_pos (le_refl f)]
      simp
    rw [round_eq t n f hn, hE, hM]
    unfold pack
    rw [if_neg (by omega), if_neg (by omega)]

theorem neg_round (s : Bool) (m : Nat) (e : Int) : neg (round s m e) = round (!s) m e := by
  unfold round
  simp only
  split_ifs <;> rfl

theorem mul_neg_left (a b : F64) : mul (neg a) b = neg (mul a b) := by
  cases a with
  | nan => cases b <;> rfl
  | inf s =>
    cases b with
    | nan => rfl
    | inf t => cases s <;> cases t <;> rfl
    | fin t n f =>
      simp only [neg, mul]
      split_ifs
      · rfl
      · cases s <;> cases t <;> rfl
  | fin s m e =>
    cases b with
    | nan => rfl
    | inf t =>
      simp only [neg, mul]
      split_ifs
      · rfl
      · cases s <;> cases t <;> rfl
    | fin t n f =>
      show round (xor (!s) t) (m * n) (e + f) = neg (round (xor s t) (m * n) (e + f))
      rw [neg_round]
      cases s <;> cases t <;> rfl

theorem add_symm (a b : F64) : add a b = add b a := by
  cases a with
  | nan => cases b <;> rfl
  | inf s =>
    cases b with
    | nan => rfl
    | inf t => cases s <;> cases t <;> rfl
    | fin t n f => rfl
  | fin s m e =>
    cases b with
    | nan => rfl
    | inf t => rfl
    | fin t n f =>
      simp only [add]
      rw [min_comm f e, Int.add_comm (scaled t n f (min e f)), Bool.and_comm t s]

/-- Halving a positive normal double above the smallest binade is exact. -/
theorem mul_c0_5_exact (s : Bool) (m : Nat) (e : Int) (h : IsDouble (fin s m e))
    (hm : 2 ^ 52 ≤ m) (he : -1073 ≤ e) :
    mul c0_5 (fin s m e) = fin s m (e - 1) := by
  obtain ⟨h1, h2, h3, h4⟩ := h
  have hd : IsDouble (fin s m (e - 1)) := ⟨h1, by omega, by omega, Or.inl hm⟩
  have e1 : mul c0_5 (fin s m e) = round s (m * 2 ^ 52) (e - 1 - (52 : Nat)) := by
    unfold c0_5
    simp only [mul]
    rw [Nat.mul_comm]
    congr 1
    · cases s <;> rfl
    · push_cast
      omega
  rw [e1, round_mul_pow, round_double _ _ _ hd]

theorem add_zero_right_double (s : Bool) (m : Nat) (e : Int) (h : IsDouble (fin s m e))
    (hm : m ≠ 0) : add (fin s m e) (ofInt 0) = fin s m e := by
  obtain ⟨h1, h2, h3, h4⟩ := h
  have h0 : ofInt 0 = fin false 0 (-1074) := by decide
  rw [h0]
  simp only [add]
  have hmin : min e (-1074) = -1074 := by omega
  rw [hmin]
  have hk : scaled s m e (-1074) + scaled false 0 (-1074) (-1074)
      = scaled s m e (-1074) := by
    simp [scaled]
  rw [hk]
  have hpos : 0 < m * 2 ^ (e - -1074).toNat := Nat.mul_pos (by omega) (Nat.two_pow_pos _)
  cases s with
  | false =>
    have hs : scaled false m e (-1074) = ((m * 2 ^ (e - -1074).toNat : Nat) : Int) := by
      simp [scaled]
    rw [hs, if_neg (by omega)]
    have e1 : decide (((m * 2 ^ (e - -1074).toNat : Nat) : Int) < 0) = false := by
      rw [decide_eq_false_iff_not]
      omega
    rw [e1, Int.natAbs_ofNat]
    exact round_of_double false m e ⟨h1, h2, h3, h4⟩ hm
  | true =>
    have hs : scaled true m e (-1074) = -((m * 2 ^ (e - -1074).toNat : Nat) : Int) := by
      simp [scaled]
    rw [hs, if_neg (by omega)]
    have e1 : decide (-((m * 2 ^ (e - -1074).toNat : Nat) : Int) < 0) = true := by
      rw [decide_eq_true_iff]
      omega
    rw [e1, Int.natAbs_neg, Int.natAbs_ofNat]
    exact round_of_double true m e ⟨h1, h2, h3, h4⟩ hm

/-- The difference `x - (-x)` of a double in the lower half of its binade
range is the double with the next exponent. -/
theorem sub_neg_self (m : Nat) (e : Int) (h : IsDouble (fin false m e)) (hm : m ≠ 0) :
    sub (fin false m (e - 1)) (fin true m (e - 1)) = fin false m e := by
  unfold sub
  simp only [neg, add, Bool.not_true]
  rw [min_self]
  have hs : scaled false m (e - 1) (e - 1) = (m : Int) := by
    simp [scaled]
  rw [hs]
  rw [if_neg (by omega)]
  have e1 : decide ((m : Int) + (m : Int) < 0) = false := by
    rw [decide_eq_false_iff_not]
    omega
  have e2 : ((m : Int) + (m : Int)).natAbs = m * 2 ^ 1 := by omega
  rw [e1, e2]
  have e3 : (e - 1 : Int) = e - (1 : Nat) := by norm_num
  rw [e3, round_mul_pow, round_double _ _ _ h]

end F64

namespace Mandel

open F64

/-! ### Claims: the visible region -/

theorem coefficient_left : F64.sub (F64.div (ofInt 0) (ofInt SCREEN_WIDTH)) c0_5 = F64.neg c0_5 := by
  decide

theorem coefficient_right :
    F64.sub (F64.div (ofInt SCREEN_WIDTH) (ofInt SCREEN_WIDTH)) c0_5 = c0_5 := by
  decide

theorem scaleX_left (s : State) :
    scaleX s 0 = F64.sub s.gOffsetX (F64.mul c0_5 s.gScale) := by
  unfold scaleX
  rw [coefficient_left, mul_neg_left, F64.add_symm]
  rfl

theorem scaleX_right (s : State) :
    scaleX s SCREEN_WIDTH = F64.add s.gOffsetX (F64.mul c0_5 s.gScale) := by
  unfold scaleX
  rw [coefficient_right, F64.add_symm]

/-- C13 (as stated, refuted). At the default viewport (`gScale = 2`,
`gOffsetX = 0`) the left edge maps to `scaleX(0) = -1` and the right edge to
`scaleX(SCREEN_WIDTH) = 1`, not to `gOffsetX - gScale = -2` and
`gOffsetX + gScale = 2`; the visible width `scaleX(SCREEN_WIDTH) - scaleX(0)`
is `2 = gScale`, not `2 * gScale = 4`. -/
theorem default_viewport_width :
    initState.gScale = ofInt 2 ∧ initState.gOffsetX = ofInt 0 ∧
    scaleX initState 0 = ofInt (-1) ∧
    scaleX initState SCREEN_WIDTH = ofInt 1 ∧
    F64.sub initState.gOffsetX initState.gScale = ofInt (-2) ∧
    F64.add initState.gOffsetX initState.gScale = ofInt 2 ∧
    F64.eq (scaleX initState 0) (F64.sub initState.gOffsetX initState.gScale) = false ∧
    F64.eq (scaleX initState SCREEN_WIDTH) (F64.add initState.gOffsetX initState.gScale) = false ∧
    F64.sub (scaleX initState SCREEN_WIDTH) (scaleX initState 0) = ofInt 2 ∧
    F64.mul (ofInt 2) initState.gScale = ofInt 4 ∧
    F64.eq (F64.sub (scaleX initState SCREEN_WIDTH) (scaleX initState 0))
      (F64.mul (ofInt 2) initState.gScale) = false := by
  decide

/-- C13 (amended). `gScale` is the full width of the visible region along the
horizontal axis, with `gOffsetX` its centre: for every viewport the left edge
maps to `scaleX(0) = gOffsetX - 0.5 * gScale` and the right edge to
`scaleX(SCREEN_WIDTH) = gOffsetX + 0.5 * gScale`, as double operations; and
when `gOffsetX` is 0 and `gScale` is a positive normal double above the
smallest binade, `scaleX(SCREEN_WIDTH) - scaleX(0) = gScale` exactly. -/
theorem scale_is_full_width (s : State) :
    scaleX s 0 = F64.sub s.gOffsetX (F64.mul c0_5 s.gScale) ∧
    scaleX s SCREEN_WIDTH = F64.add s.gOffsetX (F64.mul c0_5 s.gScale) ∧
    (∀ (m : Nat) (e : Int), s.gOffsetX = ofInt 0 → s.gScale = fin false m e →
      IsDouble (fin false m e) → 2 ^ 52 ≤ m → -1073 ≤ e →
      F64.sub (scaleX s SCREEN_WIDTH) (scaleX s 0) = s.gScale) := by
  refine ⟨scaleX_left s, scaleX_right s, ?_⟩
  intro m e ho hg hd hm he
  have hd1 : IsDouble (fin false m (e - 1)) := by
    obtain ⟨h1, h2, h3, h4⟩ := hd
    exact ⟨h1, by omega, by omega, Or.inl hm⟩
  have hd2 : IsDouble (fin true m (e - 1)) := hd1
  have hm0 : m ≠ 0 := by
    have : 0 < 2 ^ 52 := Nat.two_pow_pos 52
    omega
  have hr : scaleX s SCREEN_WIDTH = fin false m (e - 1) := by
    unfold scaleX
    rw [coefficient_right, hg, ho, mul_c0_5_exact false m e hd hm he,
      add_zero_right_double false m (e - 1) hd1 hm0]
  have hl : scaleX s 0 = fin true m (e - 1) := by
    unfold scaleX
    rw [coefficient_left, mul_neg_left, hg, ho, mul_c0_5_exact false m e hd hm he]
    exact add_zero_right_double true m (e - 1) hd2 hm0
  rw [hr, hl, hg]
  exact sub_neg_self m e hd hm0

theorem scale_is_full_width_witness :
    initState.gOffsetX = ofInt 0 ∧ initState.gScale = fin false (2 ^ 52) (-51) ∧
    IsDouble (fin false (2 ^ 52) (-51)) ∧
    F64.sub (scaleX initState SCREEN_WIDTH) (scaleX initState 0) = initState.gScale :=
  ⟨rfl, by decide, by decide,
    (scale_is_full_width initState).2.2 (2 ^ 52) (-51) rfl (by decide) (by decide)
      (le_refl _) (by decide)⟩

end Mandel

namespace F64

theorem scaled_shift (s : Bool) (m : Nat) (e c c0 : Int) (h1 : c ≤ c0) (h2 : c0 ≤ e) :
    scaled s m e c = scaled s m e c0 * ((2 ^ (c0 - c).toNat : Nat) : Int) := by
  have hk : (e - c).toNat = (e - c0).toNat + (c0 - c).toNat := by omega
  unfold scaled
  simp only
  rw [hk, pow_add]
  cases s
  · simp only [Bool.false_eq_true, if_false]
    push_cast
    ring
  · simp only [if_true]
    push_cast
    ring

theorem scaled_false (m : Nat) (e c : Int) :
    scaled false m e c = ((m * 2 ^ (e - c).toNat : Nat) : Int) := by
  simp [scaled]

theorem scaled_true (m : Nat) (e c : Int) :
    scaled true m e c = -((m * 2 ^ (e - c).toNat : Nat) : Int) := by
  simp [scaled]

/-- The comparison of two finite doubles at any common exponent below both. -/
theorem le_fin_iff (s t : Bool) (m n : Nat) (e f c : Int) (h1 : c ≤ e) (h2 : c ≤ f) :
    le (fin s m e) (fin t n f) = true ↔ scaled s m e c ≤ scaled t n f c := by
  have hp : (0 : Int) < ((2 ^ (min e f - c).toNat : Nat) : Int) := by
    exact_mod_cast Nat.two_pow_pos _
  rw [scaled_shift s m e c (min e f) (by omega) (by omega),
    scaled_shift t n f c (min e f) (by omega) (by omega)]
  simp only [le, decide_eq_true_eq]
  exact (mul_le_mul_right hp).symm

theorem le_neg_neg (a b : F64) (h : le a b = true) : le (neg b) (neg a) = true := by
  cases a with
  | nan => simp [le] at h
  | inf s =>
    cases b with
    | nan => simp [le] at h
    | inf t => cases s <;> cases t <;> simp_all [le, neg]
    | fin t n f => cases s <;> simp_all [le, neg]
  | fin s m e =>
    cases b with
    | nan => simp [le] at h
    | inf t => cases t <;> simp_all [le, neg]
    | fin t n f =>
      rw [le_fin_iff s t m n e f (min e f) (min_le_left _ _) (min_le_right _ _)] at h
      simp only [neg]
      rw [le_fin_iff (!t) (!s) n m f e (min e f) (min_le_right _ _) (min_le_left _ _)]
      cases s <;> cases t <;>
        simp only [scaled_false, scaled_true, Bool.not_true, Bool.not_false] at h ⊢ <;> omega

theorem le_fin_of_lt_exp (a b : Nat) (ea eb : Int) (ha : a ≤ 2 ^ 53) (hb : 2 ^ 52 ≤ b)
    (h : ea < eb) : le (fin false a ea) (fin false b eb) = true := by
  rw [le_fin_iff false false a b ea eb ea (le_refl _) (le_of_lt h), scaled_false, scaled_false]
  have hk : 2 ^ 1 ≤ 2 ^ (eb - ea).toNat := Nat.pow_le_pow_right (by decide) (by omega)
  have h2 : 2 ^ 52 * 2 ^ 1 ≤ b * 2 ^ (eb - ea).toNat := Nat.mul_le_mul hb hk
  have h3 : (ea - ea).toNat = 0 := by omega
  rw [h3, pow_zero, Nat.mul_one]
  have h4 : (2 : Nat) ^ 52 * 2 ^ 1 = 2 ^ 53 := by decide
  exact_mod_cast le_trans ha (h4 ▸ h2)

theorem le_fin_same_exp (a b : Nat) (e : Int) (h : a ≤ b) :
    le (fin false a e) (fin false b e) = true := by
  rw [le_fin_iff false false a b e e e (le_refl _) (le_refl _), scaled_false, scaled_false]
  exact_mod_cast Nat.mul_le_mul_right _ h

theorem pack_cases (s : Bool) (q : Nat) (e : Int) :
    pack s q e = inf s ∨ (q ≠ 2 ^ 53 ∧ pack s q e = fin s q e) ∨
      (q = 2 ^ 53 ∧ e + 1 ≤ 971 ∧ pack s q e = fin s (2 ^ 52) (e + 1)) := by
  unfold pack
  split_ifs with h1 h2 h3
  · exact Or.inl rfl
  · exact Or.inl rfl
  · exact Or.inr (Or.inr ⟨h2, by omega, rfl⟩)
  · exact Or.inr (Or.inl ⟨h2, rfl⟩)

theorem pack_inf (s : Bool) (q : Nat) (e : Int) (h : pack s q e = inf s) :
    971 < e ∨ (q = 2 ^ 53 ∧ 971 < e + 1) := by
  unfold pack at h
  split_ifs at h with h1 h2 h3
  · exact Or.inl h1
  · exact Or.inr ⟨h2, h3⟩

/-- The packing of a significand and exponent is monotone: at one exponent in
the significand, and a normal significand at a larger exponent is above every
significand at a smaller one. -/
theorem pack_le (q q1 : Nat) (e e1 : Int) (hq : q ≤ 2 ^ 53) (hq1 : q1 ≤ 2 ^ 53)
    (h : (e = e1 ∧ q ≤ q1) ∨ (e < e1 ∧ 2 ^ 52 ≤ q1)) :
    le (pack false q e) (pack false q1 e1) = true := by
  have h52 : (2 : Nat) ^ 52 ≤ 2 ^ 53 := by decide
  rcases pack_cases false q1 e1 with hb | ⟨hb1, hb⟩ | ⟨hb1, hb2, hb⟩
  · rw [hb]
    rcases pack_cases false q e with ha | ⟨-, ha⟩ | ⟨-, -, ha⟩ <;> rw [ha] <;> rfl
  · have hne : 971 < e1 → False := by
      intro hc
      unfold pack at hb
      rw [if_pos hc] at hb
      exact absurd hb (by simp)
    rcases pack_cases false q e with ha | ⟨ha1, ha⟩ | ⟨ha1, ha2, ha⟩
    · exfalso
      rcases pack_inf false q e ha with hc | ⟨hc1, hc2⟩
      · rcases h with ⟨h1, -⟩ | ⟨h1, -⟩ <;> apply hne <;> omega
      · rcases h with ⟨h1, h2⟩ | ⟨h1, -⟩
        · omega
        · apply hne
          by_contra hcc
          have : e1 = 971 := by omega
          omega
    · rw [ha, hb]
      rcases h with ⟨h1, h2⟩ | ⟨h1, h2⟩
      · rw [h1]
        exact le_fin_same_exp _ _ _ h2
      · exact le_fin_of_lt_exp _ _ _ _ hq h2 h1
    · rw [ha, hb]
      rcases h with ⟨h1, h2⟩ | ⟨h1, h2⟩
      · omega
      · rcases lt_or_eq_of_le (show e + 1 ≤ e1 by omega) with h3 | h3
        · exact le_fin_of_lt_exp _ _ _ _ h52 h2 h3
        · rw [h3]
          exact le_fin_same_exp _ _ _ h2
  · rw [hb]
    rcases pack_cases false q e with ha | ⟨ha1, ha⟩ | ⟨ha1, ha2, ha⟩
    · exfalso
      rcases pack_inf false q e ha with hc | ⟨hc1, hc2⟩
      · rcases h with ⟨h1, -⟩ | ⟨h1, -⟩ <;> omega
      · rcases h with ⟨h1, -⟩ | ⟨h1, -⟩ <;> omega
    · rw [ha]
      rcases h with ⟨h1, h2⟩ | ⟨h1, h2⟩
      · exact le_fin_of_lt_exp _ _ _ _ hq (le_refl _) (by omega)
      · exact le_fin_of_lt_exp _ _ _ _ hq (le_refl _) (by omega)
    · rw [ha]
      rcases h with ⟨h1, h2⟩ | ⟨h1, h2⟩
      · rw [h1]
        exact le_fin_same_exp _ _ _ (le_refl _)
      · exact le_fin_of_lt_exp _ _ _ _ h52 (le_refl _) (by omega)

theorem zero_le_pack (z : Bool) (q : Nat) (e : Int) :
    le (fin z 0 (-1074)) (pack false q e) = true := by
  rcases pack_cases false q e with ha | ⟨-, ha⟩ | ⟨-, -, ha⟩ <;> rw [ha]
  · rfl
  · rw [le_fin_iff z false 0 q (-1074) e (min (-1074) e) (min_le_left _ _) (min_le_right _ _),
      scaled_zero, scaled_false]
    exact Int.ofNat_nonneg _
  · rw [le_fin_iff z false 0 (2 ^ 52) (-1074) (e + 1) (min (-1074) (e + 1)) (min_le_left _ _)
      (min_le_right _ _), scaled_zero, scaled_false]
    exact Int.ofNat_nonneg _

theorem expOf_ge (m : Nat) (e : Int) : -1074 ≤ expOf m e := by
  unfold expOf
  omega

theorem expOf_mono (m n : Nat) (e : Int) (h : m ≤ n) : expOf m e ≤ expOf n e := by
  have := bits_mono m n h
  unfold expOf
  omega

/-- Rounding is monotone on non-negative values given at one exponent. -/
theorem round_mono_same (m n : Nat) (e : Int) (h : m ≤ n) :
    le (round false m e) (round false n e) = true := by
  by_cases hn : n = 0
  · have hm : m = 0 := by omega
    subst hn
    subst hm
    rw [round_zero]
    exact le_fin_same_exp _ _ _ (le_refl _)
  · rw [round_eq false n e hn]
    by_cases hm : m = 0
    · subst hm
      rw [round_zero]
      exact zero_le_pack _ _ _
    · rw [round_eq false m e hm]
      apply pack_le _ _ _ _ (mantOf_le m e) (mantOf_le n e)
      rcases lt_or_eq_of_le (expOf_mono m n e h) with h1 | h1
      · right
        exact ⟨h1, mantOf_ge n e hn (lt_of_le_of_lt (expOf_ge m e) h1)⟩
      · left
        refine ⟨h1, ?_⟩
        unfold mantOf
        rw [h1]
        split_ifs
        · exact Nat.mul_le_mul_right _ h
        · exact rne_mono _ _ _ h

theorem round_mono_same_neg (m n : Nat) (e : Int) (h : m ≤ n) :
    le (round true n e) (round true m e) = true := by
  have := le_neg_neg _ _ (round_mono_same m n e h)
  rw [neg_round, neg_round] at this
  exact this

theorem round_neg_le_pos (m n : Nat) (e f : Int) :
    le (round true m e) (round false n f) = true := by
  rcases round_sign true m e with h1 | ⟨m1, e1, h1⟩ <;>
    rcases round_sign false n f with h2 | ⟨n1, f1, h2⟩ <;> rw [h1, h2]
  · rfl
  · rfl
  · rfl
  · rw [le_fin_iff true false m1 n1 e1 f1 (min e1 f1) (min_le_left _ _) (min_le_right _ _),
      scaled_true, scaled_false]
    omega

theorem round_at (s : Bool) (m : Nat) (e c : Int) (h : c ≤ e) :
    round s m e = round s (m * 2 ^ (e - c).toNat) c := by
  have := round_mul_pow s m (e - c).toNat e
  have hc : e - ((e - c).toNat : Int) = c := by omega
  rw [hc] at this
  exact this.symm

/-- Rounding is monotone: if the exact value of the first argument is at most
that of the second, the rounded doubles compare the same way. -/
theorem round_mono (s t : Bool) (m n : Nat) (e f c : Int) (h1 : c ≤ e) (h2 : c ≤ f)
    (h : scaled s m e c ≤ scaled t n f c) : le (round s m e) (round t n f) = true := by
  rw [round_at s m e c h1, round_at t n f c h2]
  cases s <;> cases t <;> simp only [scaled_false, scaled_true] at h
  · exact round_mono_same _ _ _ (by exact_mod_cast h)
  · have h0 : m * 2 ^ (e - c).toNat = 0 := by omega
    have h3 : n * 2 ^ (f - c).toNat = 0 := by omega
    rw [h0, h3, round_zero, round_zero]
    rw [le_fin_iff false true 0 0 (-1074) (-1074) (-1074) (le_refl _) (le_refl _),
      scaled_zero, scaled_zero]
  · exact round_neg_le_pos _ _ _ _
  · exact round_mono_same_neg _ _ _ (by omega)

theorem cmp_lt (G h a r : Nat) (hr : r < G) : h * G < a * G + r ↔ h < a ∨ (h = a ∧ 0 < r) := by
  constructor
  · intro hlt
    rcases Nat.lt_trichotomy h a with h1 | h1 | h1
    · exact Or.inl h1
    · subst h1
      exact Or.inr ⟨rfl, by omega⟩
    · exfalso
      have : (a + 1) * G ≤ h * G := Nat.mul_le_mul_right _ h1
      rw [Nat.add_mul] at this
      omega
  · rintro (h1 | ⟨h1, h2⟩)
    · have : (h + 1) * G ≤ a * G := Nat.mul_le_mul_right _ h1
      rw [Nat.add_mul] at this
      omega
    · subst h1
      omega

theorem cmp_eq (G h a r : Nat) (hr : r < G) : a * G + r = h * G ↔ a = h ∧ r = 0 := by
  constructor
  · intro heq
    rcases Nat.lt_trichotomy h a with h1 | h1 | h1
    · exfalso
      have : (h + 1) * G ≤ a * G := Nat.mul_le_mul_right _ h1
      rw [Nat.add_mul] at this
      omega
    · subst h1
      exact ⟨rfl, by omega⟩
    · exfalso
      have : (a + 1) * G ≤ h * G := Nat.mul_le_mul_right _ h1
      rw [Nat.add_mul] at this
      omega
  · rintro ⟨h1, h2⟩
    subst h1
    omega

/-- Rounding sees the bits below the half only through their disjunction:
replacing the low `j + 1` bits of `X` by one sticky bit leaves the rounded
quotient unchanged when at least two bits are dropped after them. -/
theorem rne_sticky (X j u : Nat) (hu : 1 ≤ u) :
    rne (2 * (X / 2 ^ (j + 1)) + (if X % 2 ^ (j + 1) = 0 then 0 else 1)) (u + 1)
      = rne X (u + j + 1) := by
  have hG : 0 < 2 ^ (j + 1) := Nat.two_pow_pos _
  have hU : 0 < 2 ^ u := Nat.two_pow_pos _
  have hr : X % 2 ^ (j + 1) < 2 ^ (j + 1) := Nat.mod_lt _ hG
  have hX := Nat.div_add_mod X (2 ^ (j + 1))
  generalize hA : X / 2 ^ (j + 1) = A at hX ⊢
  generalize hR : X % 2 ^ (j + 1) = r at hX hr ⊢
  have hAq := Nat.div_add_mod A (2 ^ u)
  have ha : A % 2 ^ u < 2 ^ u := Nat.mod_lt _ hU
  generalize hQ : A / 2 ^ u = Q at hAq
  generalize hal : A % 2 ^ u = a at hAq ha
  generalize hb : (if r = 0 then 0 else 1 : Nat) = b
  have hb1 : b ≤ 1 := by
    rw [← hb]
    split_ifs <;> omega
  have hb0 : b = 0 ↔ r = 0 := by
    rw [← hb]
    split_ifs with h <;> simp [h]
  have hp1 : 2 ^ (u + 1) = 2 * 2 ^ u := by rw [pow_succ, Nat.mul_comm]
  have hp2 : 2 ^ (u + j + 1) = 2 ^ u * 2 ^ (j + 1) := by
    rw [Nat.add_assoc, pow_add]
  have hp3 : 2 ^ u = 2 * 2 ^ (u - 1) := by
    have : u = (u - 1) + 1 := by omega
    rw [this, pow_succ, Nat.mul_comm]
    simp
  -- the quotients agree
  have qY : (2 * A + b) / 2 ^ (u + 1) = Q := by
    apply Nat.div_eq_of_lt_le
    · rw [hp1]
      have : Q * (2 * 2 ^ u) = 2 * (2 ^ u * Q) := by ring
      omega
    · rw [hp1]
      have : (Q + 1) * (2 * 2 ^ u) = 2 * (2 ^ u * Q) + 2 * 2 ^ u := by ring
      omega
  have hXa : X = Q * 2 ^ (u + j + 1) + (a * 2 ^ (j + 1) + r) := by
    rw [hp2, ← hX, ← hAq]
    ring
  have hbound : a * 2 ^ (j + 1) + r < 2 ^ (u + j + 1) := by
    rw [hp2]
    have : (a + 1) * 2 ^ (j + 1) ≤ 2 ^ u * 2 ^ (j + 1) := Nat.mul_le_mul_right _ ha
    rw [Nat.add_mul] at this
    omega
  have qX : X / 2 ^ (u + j + 1) = Q := by
    apply Nat.div_eq_of_lt_le
    · omega
    · rw [Nat.add_mul]
      omega
  have rY : (2 * A + b) % 2 ^ (u + 1) = 2 * a + b := by
    have := Nat.div_add_mod (2 * A + b) (2 ^ (u + 1))
    rw [qY, hp1] at this
    have h2 : 2 * 2 ^ u * Q = 2 * (2 ^ u * Q) := by ring
    rw [hp1]
    omega
  have rX : X % 2 ^ (u + j + 1) = a * 2 ^ (j + 1) + r := by
    have := Nat.div_add_mod X (2 ^ (u + j + 1))
    rw [qX] at this
    have h2 : 2 ^ (u + j + 1) * Q = Q * 2 ^ (u + j + 1) := Nat.mul_comm _ _
    omega
  have hY : 2 ^ (u + 1 - 1) = 2 * 2 ^ (u - 1) := by
    rw [Nat.add_sub_cancel]
    exact hp3
  have hXh : 2 ^ (u + j + 1 - 1) = 2 ^ (u - 1) * 2 ^ (j + 1) := by
    rw [← pow_add]
    congr 1
    omega
  unfold rne
  rw [qY, qX, rY, rX, hY, hXh]
  have c1 := cmp_lt (2 ^ (j + 1)) (2 ^ (u - 1)) a r hr
  have c2 := cmp_eq (2 ^ (j + 1)) (2 ^ (u - 1)) a r hr
  have d1 : 2 * 2 ^ (u - 1) < 2 * a + b ↔ 2 ^ (u - 1) < a ∨ (2 ^ (u - 1) = a ∧ 0 < r) := by
    constructor
    · intro h
      by_cases hc : 2 ^ (u - 1) < a
      · exact Or.inl hc
      · right
        have h3 : b = 1 := by omega
        have h4 : r ≠ 0 := fun h0 => by
          have := hb0.mpr h0
          omega
        exact ⟨by omega, by omega⟩
    · rintro (h | ⟨h1, h2⟩)
      · omega
      · have : b ≠ 0 := fun h0 => by
          have := hb0.mp h0
          omega
        omega
  have d2 : 2 * a + b = 2 * 2 ^ (u - 1) ↔ a = 2 ^ (u - 1) ∧ r = 0 := by
    constructor
    · intro h
      have h3 : b = 0 := by omega
      exact ⟨by omega, hb0.mp h3⟩
    · rintro ⟨h1, h2⟩
      have := hb0.mpr h2
      omega
  simp only [c1, c2, d1, d2]

theorem bits_two_pow (k : Nat) : bits (2 ^ k) = k + 1 :=
  bits_eq (2 ^ k) k (le_refl _) (Nat.pow_lt_pow_right (by decide) (Nat.lt_succ_self k))

theorem bits_sticky (X j : Nat) (hX : 2 ^ (j + 1) ≤ X) :
    bits (2 * (X / 2 ^ (j + 1)) + (if X % 2 ^ (j + 1) = 0 then 0 else 1)) + j = bits X := by
  have hX0 : X ≠ 0 := by
    have := Nat.two_pow_pos (j + 1)
    omega
  obtain ⟨h1, h2, h3⟩ := bits_bounds X hX0
  have hB : j + 2 ≤ bits X := by
    have := bits_mono _ _ hX
    rw [bits_two_pow] at this
    exact this
  generalize hb : (if X % 2 ^ (j + 1) = 0 then 0 else 1 : Nat) = b
  have hb1 : b ≤ 1 := by
    rw [← hb]
    split_ifs <;> omega
  have hG : 0 < 2 ^ (j + 1) := Nat.two_pow_pos _
  have lo : 2 ^ (bits X - 2 - j) ≤ X / 2 ^ (j + 1) := by
    rw [Nat.le_div_iff_mul_le hG, ← pow_add]
    have : bits X - 2 - j + (j + 1) = bits X - 1 := by omega
    rw [this]
    exact h2
  have hi : X / 2 ^ (j + 1) < 2 ^ (bits X - 1 - j) := by
    rw [Nat.div_lt_iff_lt_mul hG, ← pow_add]
    have : bits X - 1 - j + (j + 1) = bits X := by omega
    rw [this]
    exact h3
  have hp : 2 ^ (bits X - 1 - j) = 2 * 2 ^ (bits X - 2 - j) := by
    have : bits X - 1 - j = (bits X - 2 - j) + 1 := by omega
    rw [this, pow_succ, Nat.mul_comm]
  have hp2 : 2 ^ (bits X - 1 - j + 1) = 2 * 2 ^ (bits X - 1 - j) := by
    rw [pow_succ, Nat.mul_comm]
  have := bits_eq (2 * (X / 2 ^ (j + 1)) + b) (bits X - 1 - j) (by omega) (by omega)
  omega

/-- A value whose low `j + 1` bits are replaced by one sticky bit rounds to
the same double, when rounding drops at least two more bits. -/
theorem round_sticky (s : Bool) (X j : Nat) (E : Int) (hX : 2 ^ (j + 1) ≤ X)
    (hsh : E + j + 2 ≤ expOf X E) :
    round s (2 * (X / 2 ^ (j + 1)) + (if X % 2 ^ (j + 1) = 0 then 0 else 1)) (E + j)
      = round s X E := by
  have hX0 : X ≠ 0 := by
    have := Nat.two_pow_pos (j + 1)
    omega
  have hb := bits_sticky X j hX
  have hA : 1 ≤ X / 2 ^ (j + 1) := by
    rw [Nat.le_div_iff_mul_le (Nat.two_pow_pos _)]
    omega
  generalize hY : 2 * (X / 2 ^ (j + 1)) + (if X % 2 ^ (j + 1) = 0 then 0 else 1 : Nat) = Y
    at hb
  have hY0 : Y ≠ 0 := by
    rw [← hY]
    omega
  have hE : expOf Y (E + j) = expOf X E := by
    unfold expOf
    rw [← hb]
    push_cast
    congr 1
    omega
  rw [round_eq s Y _ hY0, round_eq s X E hX0, hE]
  congr 1
  unfold mantOf
  rw [hE, if_neg (by omega), if_neg (by omega)]
  have h1 : (expOf X E - (E + j)).toNat = ((expOf X E - E).toNat - j - 2 + 1) + 1 := by omega
  have h2 : (expOf X E - E).toNat = ((expOf X E - E).toNat - j - 2 + 1) + j + 1 := by omega
  rw [h1]
  conv_rhs => rw [h2]
  rw [← hY]
  exact rne_sticky X j _ (by omega)

/-- Division depends on the value of the dividend only. -/
theorem div_mul_pow (s t : Bool) (m n j : Nat) (e f : Int) :
    div (fin s (m * 2 ^ j) (e - j)) (fin t n f) = div (fin s m e) (fin t n f) := by
  simp only [div]
  have hJ : 0 < 2 ^ j := Nat.two_pow_pos j
  by_cases hn : n = 0
  · rw [if_pos hn, if_pos hn]
    by_cases hm : m = 0
    · rw [if_pos hm, if_pos (by rw [hm, Nat.zero_mul])]
    · rw [if_neg hm, if_neg (Nat.mul_ne_zero hm (by omega))]
  · rw [if_neg hn, if_neg hn]
    by_cases hm : m = 0
    · subst hm
      simp [round_zero]
    · have hnpos : 0 < n := Nat.pos_of_ne_zero hn
      generalize hk : bits n + 64 = k
      have h1 := Nat.div_add_mod (m * 2 ^ j * 2 ^ k) n
      have h2 := Nat.div_add_mod (m * 2 ^ k) n
      have hrj : m * 2 ^ j * 2 ^ k % n < n := Nat.mod_lt _ hnpos
      have hr : m * 2 ^ k % n < n := Nat.mod_lt _ hnpos
      have hq : m * 2 ^ j * 2 ^ k / n / 2 ^ j = m * 2 ^ k / n := by
        rw [Nat.div_div_eq_div_mul]
        have : m * 2 ^ j * 2 ^ k = m * 2 ^ k * 2 ^ j := by ring
        rw [this]
        exact Nat.mul_div_mul_right _ _ hJ
      have h3 := Nat.div_add_mod (m * 2 ^ j * 2 ^ k / n) (2 ^ j)
      rw [hq] at h3
      have hv : m * 2 ^ j * 2 ^ k / n % 2 ^ j < 2 ^ j := Nat.mod_lt _ hJ
      generalize hqj : m * 2 ^ j * 2 ^ k / n = qj at h1 h3 hv ⊢
      generalize hrjj : m * 2 ^ j * 2 ^ k % n = rj at h1 hrj ⊢
      generalize hqq : m * 2 ^ k / n = q at h2 h3 ⊢
      generalize hrr : m * 2 ^ k % n = r at h2 hr ⊢
      generalize hvv : qj % 2 ^ j = v at h3 hv
      -- the remainders are related by `r * 2^j = n * v + rj`
      have key : r * 2 ^ j = n * v + rj := by
        have a1 : n * (2 ^ j * q + v) + rj = (n * q + r) * 2 ^ j := by
          rw [h3, h2, h1]
          ring
        have a2 : n * (2 ^ j * q + v) + rj = n * q * 2 ^ j + (n * v + rj) := by ring
        have a3 : (n * q + r) * 2 ^ j = n * q * 2 ^ j + r * 2 ^ j := by ring
        omega
      have hst : (r = 0) ↔ (v = 0 ∧ rj = 0) := by
        constructor
        · intro h0
          rw [h0, Nat.zero_mul] at key
          have hnv : n * v = 0 := by omega
          rcases Nat.mul_eq_zero.mp hnv with h | h
          · omega
          · exact ⟨h, by omega⟩
        · rintro ⟨hv0, hr0⟩
          rw [hv0, hr0, Nat.mul_zero] at key
          rcases Nat.mul_eq_zero.mp key with h | h
          · exact h
          · omega
      generalize hbj : (if rj = 0 then 0 else 1 : Nat) = bj
      have hbj1 : bj ≤ 1 := by
        rw [← hbj]
        split_ifs <;> omega
      have hbj0 : bj = 0 ↔ rj = 0 := by
        rw [← hbj]
        split_ifs with h <;> simp [h]
      have hp1 : 2 ^ (j + 1) = 2 * 2 ^ j := by rw [pow_succ, Nat.mul_comm]
      -- the dividend's quotient, low bits replaced by a sticky bit, is the other quotient
      have hXq : (2 * qj + bj) / 2 ^ (j + 1) = q := by
        apply Nat.div_eq_of_lt_le
        · rw [hp1]
          have : q * (2 * 2 ^ j) = 2 * (2 ^ j * q) := by ring
          omega
        · rw [hp1]
          have : (q + 1) * (2 * 2 ^ j) = 2 * (2 ^ j * q) + 2 * 2 ^ j := by ring
          omega
      have hXr : (2 * qj + bj) % 2 ^ (j + 1) = 2 * v + bj := by
        have := Nat.div_add_mod (2 * qj + bj) (2 ^ (j + 1))
        rw [hXq, hp1] at this
        have h5 : 2 * 2 ^ j * q = 2 * (2 ^ j * q) := by ring
        rw [hp1]
        omega
      have hsticky : (if (2 * qj + bj) % 2 ^ (j + 1) = 0 then 0 else 1 : Nat)
          = if r = 0 then 0 else 1 := by
        rw [hXr]
        by_cases h0 : r = 0
        · obtain ⟨hv0, hr0⟩ := hst.mp h0
          have := hbj0.mpr hr0
          rw [if_pos h0, if_pos (by omega)]
        · rw [if_neg h0, if_neg]
          intro hc
          apply h0
          apply hst.mpr
          exact ⟨by omega, hbj0.mp (by omega)⟩
      -- size of the quotient
      have hqj64 : 2 ^ (j + 64) ≤ qj := by
        rw [← hqj, Nat.le_div_iff_mul_le hnpos]
        have hb := lt_two_pow_bits n
        have hm1 : 1 ≤ m := Nat.pos_of_ne_zero hm
        calc 2 ^ (j + 64) * n ≤ 2 ^ (j + 64) * 2 ^ bits n :=
              Nat.mul_le_mul_left _ (le_of_lt hb)
          _ = 1 * 2 ^ j * 2 ^ k := by
              rw [← hk, Nat.one_mul, ← pow_add, ← pow_add]
              congr 1
              omega
          _ ≤ m * 2 ^ j * 2 ^ k :=
              Nat.mul_le_mul_right _ (Nat.mul_le_mul_right _ hm1)
      have hX65 : 2 ^ (j + 65) ≤ 2 * qj + bj := by
        have : 2 ^ (j + 65) = 2 * 2 ^ (j + 64) := by rw [pow_succ, Nat.mul_comm]
        omega
      have hXj1 : 2 ^ (j + 1) ≤ 2 * qj + bj :=
        le_trans (Nat.pow_le_pow_right (by decide) (by omega)) hX65
      have hbits : j + 66 ≤ bits (2 * qj + bj) := by
        have := bits_mono _ _ hX65
        rw [bits_two_pow] at this
        exact this
      have hsh : (e - j - f - k - 1 : Int) + j + 2 ≤ expOf (2 * qj + bj) (e - j - f - k - 1) := by
        unfold expOf
        omega
      have := round_sticky (xor s t) (2 * qj + bj) j (e - j - f - k - 1) hXj1 hsh
      rw [hXq, hsticky] at this
      rw [← this]
      congr 1
      omega

theorem le_inf_true (b : F64) (h : isNaN b = false) : le (inf true) b = true := by
  cases b with
  | nan => simp [isNaN] at h
  | inf t => rfl
  | fin t n f => rfl

theorem le_inf_false (a : F64) (h : isNaN a = false) : le a (inf false) = true := by
  cases a with
  | nan => simp [isNaN] at h
  | inf s => cases s <;> rfl
  | fin s m e => rfl

/-- A function of doubles that fixes both infinities and maps finite values
to non-NaN values monotonically is monotone for `<=`. -/
theorem mono_of (g : F64 → F64) (h1 : g (inf true) = inf true) (h2 : g (inf false) = inf false)
    (h3 : ∀ s m e, isNaN (g (fin s m e)) = false)
    (h4 : ∀ s m e t n f, scaled s m e (min e f) ≤ scaled t n f (min e f) →
      le (g (fin s m e)) (g (fin t n f)) = true)
    (a b : F64) (h : le a b = true) : le (g a) (g b) = true := by
  cases a with
  | nan => simp [le] at h
  | inf s =>
    cases b with
    | nan => simp [le] at h
    | inf t =>
      cases s <;> cases t
      · rw [h2]; rfl
      · simp [le] at h
      · rw [h1, h2]; rfl
      · rw [h1]; rfl
    | fin t n f =>
      cases s
      · simp [le] at h
      · rw [h1]
        exact le_inf_true _ (h3 t n f)
  | fin s m e =>
    cases b with
    | nan => simp [le] at h
    | inf t =>
      cases t
      · rw [h2]
        exact le_inf_false _ (h3 s m e)
      · simp [le] at h
    | fin t n f =>
      apply h4
      simpa [le] using h

theorem scaled_int (K : Int) (z : Bool) (c c0 : Int) :
    scaled (if K = 0 then z else decide (K < 0)) K.natAbs c c0
      = K * ((2 ^ (c - c0).toNat : Nat) : Int) := by
  by_cases h0 : K = 0
  · subst h0
    simp [scaled_zero]
  · rw [if_neg h0]
    by_cases hneg : K < 0
    · have : decide (K < 0) = true := decide_eq_true hneg
      rw [this, scaled_true]
      push_cast
      rw [abs_of_neg hneg]
      ring
    · have : decide (K < 0) = false := decide_eq_false hneg
      rw [this, scaled_false]
      push_cast
      rw [abs_of_nonneg (by omega)]

theorem ofInt_mono (i j : Int) (h : i ≤ j) : le (ofInt i) (ofInt j) = true := by
  unfold ofInt
  apply round_mono _ _ _ _ 0 0 0 (le_refl _) (le_refl _)
  have e1 := scaled_int i false 0 0
  have e2 := scaled_int j false 0 0
  have f1 : (if i = 0 then false else decide (i < 0)) = decide (i < 0) := by
    split_ifs with h0
    · subst h0; rfl
    · rfl
  have f2 : (if j = 0 then false else decide (j < 0)) = decide (j < 0) := by
    split_ifs with h0
    · subst h0; rfl
    · rfl
  rw [f1] at e1
  rw [f2] at e2
  rw [e1, e2]
  simpa using h

theorem scaled_mul (s : Bool) (m n : Nat) (e f c : Int) :
    scaled s (m * n) (e + f) (c + f) = scaled s m e c * (n : Int) := by
  have hk : (e + f - (c + f)).toNat = (e - c).toNat := by
    congr 1
    omega
  cases s
  · rw [scaled_false, scaled_false, hk]
    push_cast
    ring
  · rw [scaled_true, scaled_true, hk]
    push_cast
    ring

/-- Multiplication by a positive finite double is monotone. -/
theorem mul_mono (n : Nat) (f : Int) (hn : n ≠ 0) (a b : F64) (h : le a b = true) :
    le (mul a (fin false n f)) (mul b (fin false n f)) = true := by
  apply mono_of (fun x => mul x (fin false n f)) _ _ _ _ a b h
  · simp [mul, hn]
  · simp [mul, hn]
  · intro s m e
    simp only [mul]
    exact round_not_nan _ _ _
  · intro s m e t m1 e1 hle
    simp only [mul, Bool.xor_false]
    apply round_mono s t _ _ _ _ (min e e1 + f) (by omega) (by omega)
    rw [scaled_mul, scaled_mul]
    exact mul_le_mul_of_nonneg_right hle (Int.ofNat_nonneg n)

theorem add_fin (s t : Bool) (m n : Nat) (e f : Int) :
    add (fin s m e) (fin t n f)
      = round (if scaled s m e (min e f) + scaled t n f (min e f) = 0 then (s && t)
          else decide (scaled s m e (min e f) + scaled t n f (min e f) < 0))
        (scaled s m e (min e f) + scaled t n f (min e f)).natAbs (min e f) := by
  simp only [add]
  split_ifs with h0
  · rw [h0]
    simp [round_zero]
  · rfl

/-- Adding a finite double is monotone. -/
theorem add_mono (t : Bool) (n : Nat) (f : Int) (a b : F64) (h : le a b = true) :
    le (add a (fin t n f)) (add b (fin t n f)) = true := by
  apply mono_of (fun x => add x (fin t n f)) _ _ _ _ a b h
  · rfl
  · rfl
  · intro s m e
    show isNaN (add (fin s m e) (fin t n f)) = false
    rw [add_fin]
    exact round_not_nan _ _ _
  · intro s m e s1 m1 e1 hle
    show le (add (fin s m e) (fin t n f)) (add (fin s1 m1 e1) (fin t n f)) = true
    rw [add_fin, add_fin]
    apply round_mono _ _ _ _ _ _ (min (min e e1) f) (by omega) (by omega)
    rw [scaled_int, scaled_int, Int.add_mul, Int.add_mul,
      ← scaled_shift s m e _ _ (by omega) (min_le_left _ _),
      ← scaled_shift t n f _ (min e f) (by omega) (min_le_right _ _),
      ← scaled_shift s1 m1 e1 _ _ (by omega) (min_le_left _ _),
      ← scaled_shift t n f _ (min e1 f) (by omega) (min_le_right _ _)]
    have hp : (0 : Int) ≤ ((2 ^ (min e e1 - min (min e e1) f).toNat : Nat) : Int) :=
      Int.ofNat_nonneg _
    have := mul_le_mul_of_nonneg_right hle hp
    rw [← scaled_shift s m e _ _ (by omega) (min_le_left _ _),
      ← scaled_shift s1 m1 e1 _ _ (by omega) (min_le_right _ _)] at this
    omega

/-- Subtracting a finite double is monotone. -/
theorem sub_mono (t : Bool) (n : Nat) (f : Int) (a b : F64) (h : le a b = true) :
    le (sub a (fin t n f)) (sub b (fin t n f)) = true :=
  add_mono (!t) n f a b h

theorem sticky_mono (T T1 n : Nat) (h : T ≤ T1) :
    2 * (T / n) + (if T % n = 0 then 0 else 1)
      ≤ 2 * (T1 / n) + (if T1 % n = 0 then 0 else 1) := by
  have hq : T / n ≤ T1 / n := Nat.div_le_div_right h
  have h1 := Nat.div_add_mod T n
  have h2 := Nat.div_add_mod T1 n
  rcases Nat.lt_or_ge (T / n) (T1 / n) with hlt | hge
  · split_ifs <;> omega
  · have hqe : T / n = T1 / n := by omega
    rw [hqe] at h1 ⊢
    split_ifs <;> omega

theorem scaled_at (s : Bool) (m : Nat) (e c : Int) :
    scaled s m e c = scaled s (m * 2 ^ (e - c).toNat) c c := by
  cases s <;> simp [scaled]

theorem div_at (s t : Bool) (m n : Nat) (e f c : Int) (h : c ≤ e) :
    div (fin s m e) (fin t n f) = div (fin s (m * 2 ^ (e - c).toNat) c) (fin t n f) := by
  have := div_mul_pow s t m n (e - c).toNat e f
  have hc : e - ((e - c).toNat : Int) = c := by omega
  rw [hc] at this
  exact this.symm

/-- Division by a positive finite double is monotone. -/
theorem div_mono (n : Nat) (f : Int) (hn : n ≠ 0) (a b : F64) (h : le a b = true) :
    le (div a (fin false n f)) (div b (fin false n f)) = true := by
  apply mono_of (fun x => div x (fin false n f)) _ _ _ _ a b h
  · rfl
  · rfl
  · intro s m e
    simp only [div, if_neg hn]
    exact round_not_nan _ _ _
  · intro s m e t m1 e1 hle
    show le (div (fin s m e) (fin false n f)) (div (fin t m1 e1) (fin false n f)) = true
    rw [div_at s false m n e f (min e e1) (min_le_left _ _),
      div_at t false m1 n e1 f (min e e1) (min_le_right _ _)]
    simp only [div, if_neg hn, Bool.xor_false]
    apply round_mono s t _ _ _ _ _ (le_refl _) (le_refl _)
    rw [scaled_at s m, scaled_at t m1] at hle
    generalize m * 2 ^ (e - min e e1).toNat = M at hle ⊢
    generalize m1 * 2 ^ (e1 - min e e1).toNat = M1 at hle ⊢
    generalize 2 ^ (bits n + 64) = P
    cases s <;> cases t <;>
      simp only [scaled_false, scaled_true, sub_self, Int.toNat_zero, pow_zero, Nat.mul_one]
        at hle ⊢
    · have h5 : M ≤ M1 := by omega
      have := sticky_mono _ _ n (Nat.mul_le_mul_right P h5)
      omega
    · have h5 : M = 0 := by omega
      have h6 : M1 = 0 := by omega
      subst h5
      subst h6
      simp
    · omega
    · have h5 : M1 ≤ M := by omega
      have := sticky_mono _ _ n (Nat.mul_le_mul_right P h5)
      omega

end F64

namespace Mandel

open F64

theorem zoomedAtCorner_scale : zoomedAtCorner.gScale = fin false 4503599627370496 (-96) := by
  decide

theorem zoomedAtCorner_offsetX : zoomedAtCorner.gOffsetX = fin true 4503599627370496 (-52) := by
  decide

end Mandel

namespace F64

theorem pos_finite (g : F64) (hf : isFinite g = true) (hp : lt (ofInt 0) g = true) :
    ∃ n f, g = fin false n f ∧ n ≠ 0 := by
  have h0 : ofInt 0 = fin false 0 (-1074) := by decide
  rw [h0] at hp
  cases g with
  | nan => simp [isFinite] at hf
  | inf s => simp [isFinite] at hf
  | fin s n f =>
    simp only [lt, scaled_zero, decide_eq_true_eq] at hp
    cases s
    · refine ⟨n, f, rfl, ?_⟩
      intro hn
      rw [hn, scaled_zero] at hp
      exact lt_irrefl _ hp
    · rw [scaled_true] at hp
      omega

theorem finite_cases (a : F64) (h : isFinite a = true) : ∃ s m e, a = fin s m e := by
  cases a with
  | nan => simp [isFinite] at h
  | inf s => simp [isFinite] at h
  | fin s m e => exact ⟨s, m, e, rfl⟩

end F64

namespace Mandel

open F64

/-! ### Claims: the step per pixel -/

theorem width_double : ofInt SCREEN_WIDTH = fin false 5629499534213120 (-43) := by decide

theorem height_double : ofInt SCREEN_HEIGHT = fin false 8444249301319680 (-44) := by decide

theorem ratio_double : SCREEN_RATIO = fin false 6755399441055744 (-53) := by decide

theorem half_ratio_double :
    F64.div SCREEN_RATIO (ofInt 2) = fin false 6755399441055744 (-54) := by decide

/-- In binary64 `scaleX` is non-decreasing in the pixel coordinate for a
finite positive scale and a finite offset. -/
theorem scaleX_mono (s : State) (hs : isFinite s.gScale = true)
    (hp : F64.lt (ofInt 0) s.gScale = true) (hx : isFinite s.gOffsetX = true)
    (sx sx1 : Int) (h : sx ≤ sx1) : F64.le (scaleX s sx) (scaleX s sx1) = true := by
  obtain ⟨n, f, hg, hn⟩ := pos_finite _ hs hp
  obtain ⟨t, m, e, ho⟩ := finite_cases _ hx
  unfold scaleX
  rw [hg, ho, width_double]
  unfold c0_5
  apply add_mono
  apply mul_mono _ _ hn
  apply sub_mono
  apply div_mono _ _ (by decide)
  exact ofInt_mono _ _ h

/-- In binary64 `scaleY` is non-increasing in the pixel coordinate for a
finite positive scale and a finite offset. -/
theorem scaleY_anti (s : State) (hs : isFinite s.gScale = true)
    (hp : F64.lt (ofInt 0) s.gScale = true) (hy : isFinite s.gOffsetY = true)
    (sy sy1 : Int) (h : sy ≤ sy1) : F64.le (scaleY s sy1) (scaleY s sy) = true := by
  obtain ⟨n, f, hg, hn⟩ := pos_finite _ hs hp
  obtain ⟨t, m, e, ho⟩ := finite_cases _ hy
  unfold scaleY
  rw [hg, ho, height_double, half_ratio_double, ratio_double]
  apply add_mono
  apply mul_mono _ _ hn
  apply le_neg_neg
  apply sub_mono
  apply mul_mono _ _ (by decide)
  apply div_mono _ _ (by decide)
  exact ofInt_mono _ _ h

/-- C17 (as stated, refuted). At the default viewport the horizontal step
`scaleX(1) - scaleX(0)` is not the double `gScale / SCREEN_WIDTH`, and the
horizontal step at pixel 61 is not the negated vertical step at pixel 61: each
`scaleX`, `scaleY` is rounded. After a left release at the top left pixel and
44 left releases at the centre, `gScale = 2^-44 > 0` and
`scaleX(1) = scaleX(0)`: the step is absorbed by the offset `-1` and `scaleX`
is not strictly increasing. -/
theorem pixel_step_rounds_and_absorbs :
    F64.sub (scaleX initState 1) (scaleX initState 0) = fin false 7205759403792896 (-61) ∧
    F64.div initState.gScale (ofInt SCREEN_WIDTH) = fin false 7205759403792794 (-61) ∧
    F64.eq (F64.sub (scaleX initState 1) (scaleX initState 0))
      (F64.div initState.gScale (ofInt SCREEN_WIDTH)) = false ∧
    F64.eq (F64.sub (scaleX initState 62) (scaleX initState 61))
      (F64.neg (F64.sub (scaleY initState 62) (scaleY initState 61))) = false ∧
    run (Step.input leftAtOrigin :: List.replicate 44 (Step.input leftAtCentre)) initState
      = some zoomedAtCorner ∧
    F64.lt (ofInt 0) zoomedAtCorner.gScale = true ∧
    scaleX zoomedAtCorner 1 = scaleX zoomedAtCorner 0 ∧
    F64.lt (scaleX zoomedAtCorner 0) (scaleX zoomedAtCorner 1) = false := by
  have e1 : scaleX zoomedAtCorner 0 = fin true 4503599627370624 (-52) := by
    unfold scaleX
    rw [zoomedAtCorner_scale, zoomedAtCorner_offsetX]
    decide
  have e2 : scaleX zoomedAtCorner 1 = fin true 4503599627370624 (-52) := by
    unfold scaleX
    rw [zoomedAtCorner_scale, zoomedAtCorner_offsetX]
    decide
  refine ⟨by decide, by decide, by decide, by decide, ?_, ?_, ?_, ?_⟩
  · show run (List.replicate 44 (Step.input leftAtCentre)) (event initState leftAtOrigin) = _
    exact run_replicate_input _ _ _
  · rw [zoomedAtCorner_scale]
    decide
  · rw [e1, e2]
  · rw [e1, e2]
    decide

end Mandel

namespace Mandel

open F64

/-! ### Claims: refinement from a reachable state -/

/-- C3. From any state reachable from the initial state that has
`gResolution = INITIAL_RESOLUTION = 16`, with no event in between, five calls
of `render` run the passes at 16, 8, 4, 2, 1 and reach `gResolution = 0`: the
condition of `render` holds before each of the five calls and is false after
the fifth, so a sixth call runs no pass and changes nothing. -/
theorem refinement_five_passes (steps : List Step) (s : State) (fuel : Nat)
    (hreach : run steps initState = some s) (hres : s.gResolution = INITIAL_RESOLUTION)
    (hf : 1122 ≤ fuel) :
    ∃ s1 s2 s3 s4 s5 : State,
      render fuel s = some s1 ∧ render fuel s1 = some s2 ∧ render fuel s2 = some s3 ∧
      render fuel s3 = some s4 ∧ render fuel s4 = some s5 ∧
      dirty s = true ∧ dirty s1 = true ∧ dirty s2 = true ∧ dirty s3 = true ∧ dirty s4 = true ∧
      s1.gResolution = 8 ∧ s2.gResolution = 4 ∧ s3.gResolution = 2 ∧ s4.gResolution = 1 ∧
      s5.gResolution = 0 ∧ s5.presented = s.presented + 5 ∧
      dirty s5 = false ∧ render fuel s5 = some s5 :=
  five_passes_of_not_nan s fuel hres
    (not_nan_of_zero_le _ (scale_nonneg_reachable steps s hreach)) hf

theorem refinement_five_passes_witness :
    run [Step.input leftAtCentre] initState = some (event initState leftAtCentre) ∧
    (event initState leftAtCentre).gResolution = INITIAL_RESOLUTION ∧ 1122 ≤ 1122 ∧
    ∃ s1 s2 s3 s4 s5 : State,
      render 1122 (event initState leftAtCentre) = some s1 ∧ render 1122 s1 = some s2 ∧
      render 1122 s2 = some s3 ∧ render 1122 s3 = some s4 ∧ render 1122 s4 = some s5 ∧
      dirty (event initState leftAtCentre) = true ∧ dirty s1 = true ∧ dirty s2 = true ∧
      dirty s3 = true ∧ dirty s4 = true ∧
      s1.gResolution = 8 ∧ s2.gResolution = 4 ∧ s3.gResolution = 2 ∧ s4.gResolution = 1 ∧
      s5.gResolution = 0 ∧ s5.presented = (event initState leftAtCentre).presented + 5 ∧
      dirty s5 = false ∧ render 1122 s5 = some s5 :=
  ⟨rfl, rfl, le_refl _,
    refinement_five_passes [Step.input leftAtCentre] (event initState leftAtCentre) 1122 rfl rfl
      (le_refl _)⟩

/-! ### Claims: the title buffer of the motion branch -/

/-- Where the call is defined, `event` on `SDL_MOUSEMOTION` leaves `gScale`,
`gOffsetX`, `gOffsetY`, `gResolution`, `gLastScale`, the pixel buffer and the
frame counter unchanged; on `SDL_MOUSEBUTTONDOWN` it leaves the whole state
unchanged; neither changes the condition of `render`. -/
theorem motion_and_down_keep_engine (s : State) (px py : Int) (b : Nat)
    (_hd : eventDefined s { type := SDL_MOUSEMOTION, x := px, y := py, button := b } = true) :
    ((event s { type := SDL_MOUSEMOTION, x := px, y := py, button := b }).gScale = s.gScale ∧
      (event s { type := SDL_MOUSEMOTION, x := px, y := py, button := b }).gOffsetX = s.gOffsetX ∧
      (event s { type := SDL_MOUSEMOTION, x := px, y := py, button := b }).gOffsetY = s.gOffsetY ∧
      (event s { type := SDL_MOUSEMOTION, x := px, y := py, button := b }).gResolution
        = s.gResolution ∧
      (event s { type := SDL_MOUSEMOTION, x := px, y := py, button := b }).gLastScale
        = s.gLastScale ∧
      (event s { type := SDL_MOUSEMOTION, x := px, y := py, button := b }).pixels = s.pixels ∧
      (event s { type := SDL_MOUSEMOTION, x := px, y := py, button := b }).presented
        = s.presented ∧
      dirty (event s { type := SDL_MOUSEMOTION, x := px, y := py, button := b }) = dirty s) ∧
    (event s { type := SDL_MOUSEBUTTONDOWN, x := px, y := py, button := b } = s ∧
      dirty (event s { type := SDL_MOUSEBUTTONDOWN, x := px, y := py, button := b }) = dirty s) :=
  ⟨⟨rfl, rfl, rfl, rfl, rfl, rfl, rfl, rfl⟩, rfl, rfl⟩

/-- Releases of a button, and presses, are always defined. -/
theorem eventDefined_button (s : State) (e : SDL_Event)
    (h : e.type = SDL_MOUSEBUTTONUP ∨ e.type = SDL_MOUSEBUTTONDOWN) :
    eventDefined s e = true := by
  unfold eventDefined
  rcases h with h | h
  · rw [if_pos h]
  · split_ifs <;> rfl

theorem zoomOutCentre_eq (n : Nat) : ∀ s : State,
    zoomOutCentre n s = repeatEvent rightAtCentre n s := by
  induction n with
  | zero => intro s; rfl
  | succ n ih =>
    intro s
    simp only [zoomOutCentre, repeatEvent]
    exact ih _

theorem zoomOutCentre_120 :
    (zoomOutCentre 120 initState).gScale = fin false 5157166640426950 19 ∧
      (zoomOutCentre 120 initState).gOffsetX = ofInt 0 ∧
      (zoomOutCentre 120 initState).gOffsetY = ofInt 0 := by
  have h119 : timesC c1_5 119 (ofInt 2) = fin false 6876222187235934 18 := by decide!
  have hfin : (120 = 0) ∨ isFinite (timesC c1_5 (120 - 1) initState.gScale) = true := by
    right
    show isFinite (timesC c1_5 119 (ofInt 2)) = true
    rw [h119]
    rfl
  obtain ⟨h1, h2, h3⟩ := zoomOutCentre_view 120 initState rfl rfl hfin
  refine ⟨?_, h2, h3⟩
  rw [h1]
  show timesC c1_5 (119 + 1) (ofInt 2) = _
  rw [timesC_add, h119]
  decide

/-- C14 (code bug). After 120 releases of the right button at the surface
centre (a reachable state: `gScale = 2 * 1.5^120`, both offsets 0), a pointer
motion to pixel `(0, 0)` makes `event` format the plane coordinates
`-1351920291788082380800.000000` (30 characters) and
`1013940218841061785600.000000` (29 characters): `sprintf` writes 82 bytes
into `char title[80]`. The call overflows the buffer, so its effect on the
globals is not defined, while the claim has it leave them unchanged for every
prior state. -/
theorem motion_title_overflows :
    run (List.replicate 120 (Step.input rightAtCentre)) initState
        = some (zoomOutCentre 120 initState) ∧
      scaleX (zoomOutCentre 120 initState) 0 = fin true 5157166640426950 18 ∧
      scaleY (zoomOutCentre 120 initState) 0 = fin false 7735749960640425 17 ∧
      millionths 5157166640426950 18 / 10 ^ 6 = 1351920291788082380800 ∧
      millionths 7735749960640425 17 / 10 ^ 6 = 1013940218841061785600 ∧
      fmtLen (scaleX (zoomOutCentre 120 initState) 0) = 30 ∧
      fmtLen (scaleY (zoomOutCentre 120 initState) 0) = 29 ∧
      titleBytes (scaleX (zoomOutCentre 120 initState) motionAtOrigin.x)
        (scaleY (zoomOutCentre 120 initState) motionAtOrigin.y) = 82 ∧
      TITLE_SIZE = 80 ∧
      eventDefined (zoomOutCentre 120 initState) motionAtOrigin = false := by
  obtain ⟨hg, hx, hy⟩ := zoomOutCentre_120
  have ex : scaleX (zoomOutCentre 120 initState) 0 = fin true 5157166640426950 18 := by
    unfold scaleX
    rw [hg, hx]
    decide
  have ey : scaleY (zoomOutCentre 120 initState) 0 = fin false 7735749960640425 17 := by
    unfold scaleY
    rw [hg, hy]
    decide
  have hb : titleBytes (scaleX (zoomOutCentre 120 initState) motionAtOrigin.x)
      (scaleY (zoomOutCentre 120 initState) motionAtOrigin.y) = 82 := by
    show titleBytes (scaleX (zoomOutCentre 120 initState) 0)
      (scaleY (zoomOutCentre 120 initState) 0) = 82
    rw [ex, ey]
    decide
  refine ⟨?_, ex, ey, by decide, by decide, ?_, ?_, hb, rfl, ?_⟩
  · rw [zoomOutCentre_eq]
    exact run_replicate_input _ _ _
  · rw [ex]
    decide
  · rw [ey]
    decide
  · unfold eventDefined
    rw [if_neg (by decide), if_neg (by decide), if_pos (by decide), hb]
    decide

end Mandel

namespace F64

/-! ## IEEE 754 binary64: the error of one rounding -/

theorem two_zpow_pos (e : Int) : (0 : ℚ) < (2 : ℚ) ^ e := by positivity

theorem two_zpow_add (a b : Int) : (2 : ℚ) ^ (a + b) = (2 : ℚ) ^ a * (2 : ℚ) ^ b :=
  zpow_add₀ (by norm_num) a b

theorem two_zpow_toNat (k : Int) (h : 0 ≤ k) : ((2 ^ k.toNat : Nat) : ℚ) = (2 : ℚ) ^ k := by
  push_cast
  rw [← zpow_natCast]
  congr 1
  omega

theorem abs_sign_mul (s : Bool) (x : ℚ) : |(if s then (-1 : ℚ) else 1) * x| = |x| := by
  cases s <;> simp

theorem toRat_fin (s : Bool) (m : Nat) (e : Int) :
    toRat (fin s m e) = (if s then -1 else 1) * ((m : ℚ) * (2 : ℚ) ^ e) := rfl

theorem abs_toRat_fin (s : Bool) (m : Nat) (e : Int) :
    |toRat (fin s m e)| = (m : ℚ) * (2 : ℚ) ^ e := by
  rw [toRat_fin, abs_sign_mul, abs_of_nonneg]
  positivity

theorem toRat_neg (a : F64) : toRat (neg a) = -toRat a := by
  cases a with
  | nan => simp [neg, toRat]
  | inf s => simp [neg, toRat]
  | fin s m e => cases s <;> simp [neg, toRat]

theorem isFinite_neg (a : F64) : isFinite (neg a) = isFinite a := by
  cases a <;> rfl

/-- The rounded quotient is within half a unit of the exact one. -/
theorem rne_err (m sh : Nat) :
    2 * (rne m sh * 2 ^ sh) ≤ 2 * m + 2 ^ sh ∧ 2 * m ≤ 2 * (rne m sh * 2 ^ sh) + 2 ^ sh := by
  have hm := Nat.div_add_mod m (2 ^ sh)
  have hr := Nat.mod_lt m (Nat.two_pow_pos sh)
  unfold rne
  generalize m / 2 ^ sh = q at hm ⊢
  generalize m % 2 ^ sh = r at hm hr ⊢
  by_cases h0 : sh = 0
  · subst h0
    simp only [pow_zero] at hm hr ⊢
    have : r = 0 := by omega
    subst this
    simp
    omega
  · have hh : 2 ^ sh = 2 * 2 ^ (sh - 1) := by
      have : sh = (sh - 1) + 1 := by omega
      rw [this, pow_succ, Nat.mul_comm]
      simp
    have e1 : (q + 1) * 2 ^ sh = 2 ^ sh * q + 2 ^ sh := by ring
    have e2 : q * 2 ^ sh = 2 ^ sh * q := Nat.mul_comm _ _
    split_ifs with hc
    · rw [e1]
      omega
    · rw [e2]
      omega

theorem mantOf_exact_val (m : Nat) (e : Int) (h : expOf m e ≤ e) :
    (mantOf m e : ℚ) * (2 : ℚ) ^ expOf m e = (m : ℚ) * (2 : ℚ) ^ e := by
  unfold mantOf
  rw [if_pos h]
  rw [Nat.cast_mul, two_zpow_toNat _ (by omega), mul_assoc, ← two_zpow_add]
  congr 2
  omega

/-- The significand chosen by `round` is within half a unit in the last place
of the exact value. -/
theorem mantOf_err (m : Nat) (e : Int) :
    |(mantOf m e : ℚ) * (2 : ℚ) ^ expOf m e - (m : ℚ) * (2 : ℚ) ^ e|
      ≤ (2 : ℚ) ^ expOf m e / 2 := by
  by_cases h : expOf m e ≤ e
  · rw [mantOf_exact_val m e h, sub_self, abs_zero]
    positivity
  · unfold mantOf
    rw [if_neg h]
    obtain ⟨h1, h2⟩ := rne_err m (expOf m e - e).toNat
    have hP : (0 : ℚ) < (2 : ℚ) ^ e := two_zpow_pos e
    have hS : ((2 ^ (expOf m e - e).toNat : Nat) : ℚ) = (2 : ℚ) ^ (expOf m e - e) :=
      two_zpow_toNat _ (by omega)
    have hE : (2 : ℚ) ^ expOf m e = (2 : ℚ) ^ (expOf m e - e) * (2 : ℚ) ^ e := by
      rw [← two_zpow_add]
      congr 1
      omega
    have q1 : (2 : ℚ) * ((rne m (expOf m e - e).toNat : ℚ) * (2 : ℚ) ^ (expOf m e - e))
        ≤ 2 * (m : ℚ) + (2 : ℚ) ^ (expOf m e - e) := by
      rw [← hS]
      exact_mod_cast h1
    have q2 : (2 : ℚ) * (m : ℚ)
        ≤ 2 * ((rne m (expOf m e - e).toNat : ℚ) * (2 : ℚ) ^ (expOf m e - e))
          + (2 : ℚ) ^ (expOf m e - e) := by
      rw [← hS]
      exact_mod_cast h2
    rw [hE]
    generalize (rne m (expOf m e - e).toNat : ℚ) = R at q1 q2 ⊢
    generalize (2 : ℚ) ^ (expOf m e - e) = S at q1 q2 ⊢
    generalize (2 : ℚ) ^ e = P at hP ⊢
    rw [abs_le]
    constructor
    · nlinarith [mul_le_mul_of_nonneg_right q2 (le_of_lt hP)]
    · nlinarith [mul_le_mul_of_nonneg_right q1 (le_of_lt hP)]

/-- Half a unit in the last place is at most `2^-53` of the value, or
`2^-1075` in the subnormal range. -/
theorem half_ulp_le (m : Nat) (e : Int) (hm : m ≠ 0) :
    (2 : ℚ) ^ expOf m e / 2 ≤ (m : ℚ) * (2 : ℚ) ^ e / 2 ^ 53 + 1 / 2 ^ 1075 := by
  obtain ⟨hb1, hb2, -⟩ := bits_bounds m hm
  have hv : (0 : ℚ) ≤ (m : ℚ) * (2 : ℚ) ^ e / 2 ^ 53 := by positivity
  by_cases hE : expOf m e = -1074
  · rw [hE]
    have : (2 : ℚ) ^ (-1074 : Int) / 2 = 1 / 2 ^ 1075 := by
      rw [zpow_neg]
      norm_num
    linarith
  · have hE2 : expOf m e = e + ((bits m - 1 : Nat) : Int) + (-52) := by
      unfold expOf at hE ⊢
      omega
    have hpow : (2 : ℚ) ^ expOf m e = (2 : ℚ) ^ e * ((2 ^ (bits m - 1) : Nat) : ℚ) / 2 ^ 52 := by
      rw [hE2, two_zpow_add, two_zpow_add, zpow_neg]
      push_cast
      rw [← zpow_natCast]
      norm_num
      ring
    have hle : ((2 ^ (bits m - 1) : Nat) : ℚ) ≤ (m : ℚ) := by exact_mod_cast hb2
    have hP : (0 : ℚ) < (2 : ℚ) ^ e := two_zpow_pos e
    rw [hpow]
    have h3 : (2 : ℚ) ^ e * ((2 ^ (bits m - 1) : Nat) : ℚ) ≤ (m : ℚ) * (2 : ℚ) ^ e := by
      rw [mul_comm]
      exact mul_le_mul_of_nonneg_right hle (le_of_lt hP)
    have h4 : (0 : ℚ) < 1 / 2 ^ 1075 := by positivity
    have h5 : (2 : ℚ) ^ e * ((2 ^ (bits m - 1) : Nat) : ℚ) / 2 ^ 52 / 2
        = (2 : ℚ) ^ e * ((2 ^ (bits m - 1) : Nat) : ℚ) / 2 ^ 53 := by
      field_simp
      ring
    rw [h5]
    have h6 := div_le_div_of_nonneg_right h3 (by positivity : (0 : ℚ) ≤ 2 ^ 53)
    linarith

theorem toRat_pack (s : Bool) (q : Nat) (e : Int) (hf : isFinite (pack s q e) = true) :
    toRat (pack s q e) = (if s then -1 else 1) * ((q : ℚ) * (2 : ℚ) ^ e) := by
  rcases pack_cases s q e with h | ⟨-, h⟩ | ⟨hq, -, h⟩
  · rw [h] at hf
    simp [isFinite] at hf
  · rw [h]
    rfl
  · rw [h, toRat_fin, hq, two_zpow_add]
    congr 1
    push_cast
    norm_num
    ring

/-- One rounding: a finite result of `round` differs from the exact value by
at most `2^-53` of it plus `2^-1075`. -/
theorem round_err (s : Bool) (m : Nat) (e : Int) (hf : isFinite (round s m e) = true) :
    |toRat (round s m e) - toRat (fin s m e)| ≤ |toRat (fin s m e)| / 2 ^ 53 + 1 / 2 ^ 1075 := by
  by_cases hm : m = 0
  · subst hm
    rw [round_zero]
    simp [toRat]
  · rw [round_eq s m e hm] at hf ⊢
    rw [toRat_pack s _ _ hf, abs_toRat_fin, toRat_fin, ← mul_sub, abs_sign_mul]
    exact le_trans (mantOf_err m e) (half_ulp_le m e hm)

/-! ## IEEE 754 binary64: the error of each operation -/

theorem sign_xor (s t : Bool) :
    (if xor s t then (-1 : ℚ) else 1) = (if s then -1 else 1) * (if t then -1 else 1) := by
  cases s <;> cases t <;> simp

theorem toRat_mul_fin (s t : Bool) (m n : Nat) (e f : Int) :
    toRat (fin (xor s t) (m * n) (e + f)) = toRat (fin s m e) * toRat (fin t n f) := by
  rw [toRat_fin, toRat_fin, toRat_fin, sign_xor, two_zpow_add]
  push_cast
  ring

/-- A finite product has finite factors and is within one rounding of the
exact product. -/
theorem mul_err (a b : F64) (hf : isFinite (mul a b) = true) :
    isFinite a = true ∧ isFinite b = true ∧
      |toRat (mul a b) - toRat a * toRat b| ≤ |toRat a * toRat b| / 2 ^ 53 + 1 / 2 ^ 1075 := by
  cases a with
  | nan => cases b <;> simp [mul, isFinite] at hf
  | inf s =>
    cases b with
    | nan => simp [mul, isFinite] at hf
    | inf t => simp [mul, isFinite] at hf
    | fin t n f =>
      exfalso
      simp only [mul] at hf
      split_ifs at hf <;> simp [isFinite] at hf
  | fin s m e =>
    cases b with
    | nan => simp [mul, isFinite] at hf
    | inf t =>
      exfalso
      simp only [mul] at hf
      split_ifs at hf <;> simp [isFinite] at hf
    | fin t n f =>
      refine ⟨rfl, rfl, ?_⟩
      have hm : mul (fin s m e) (fin t n f) = round (xor s t) (m * n) (e + f) := rfl
      rw [hm] at hf ⊢
      rw [← toRat_mul_fin]
      exact round_err _ _ _ hf

theorem toRat_scaled (s : Bool) (m : Nat) (e c : Int) (h : c ≤ e) :
    toRat (fin s m e) = (scaled s m e c : ℚ) * (2 : ℚ) ^ c := by
  have hk : (2 : ℚ) ^ e = ((2 ^ (e - c).toNat : Nat) : ℚ) * (2 : ℚ) ^ c := by
    rw [two_zpow_toNat _ (by omega), ← two_zpow_add]
    congr 1
    omega
  rw [toRat_fin, hk]
  cases s
  · rw [scaled_false]
    push_cast
    simp
    ring
  · rw [scaled_true]
    push_cast
    simp
    ring

theorem toRat_signed (K : Int) (z : Bool) (c : Int) :
    toRat (fin (if K = 0 then z else decide (K < 0)) K.natAbs c) = (K : ℚ) * (2 : ℚ) ^ c := by
  have h := toRat_scaled (if K = 0 then z else decide (K < 0)) K.natAbs c c (le_refl _)
  rw [h, scaled_int]
  simp

/-- A finite sum has finite terms and is within one rounding of the exact
sum. -/
theorem add_err (a b : F64) (hf : isFinite (add a b) = true) :
    isFinite a = true ∧ isFinite b = true ∧
      |toRat (add a b) - (toRat a + toRat b)| ≤ |toRat a + toRat b| / 2 ^ 53 + 1 / 2 ^ 1075 := by
  cases a with
  | nan => cases b <;> simp [add, isFinite] at hf
  | inf s =>
    cases b with
    | nan => simp [add, isFinite] at hf
    | inf t =>
      exfalso
      simp only [add] at hf
      split_ifs at hf <;> simp [isFinite] at hf
    | fin t n f => simp [add, isFinite] at hf
  | fin s m e =>
    cases b with
    | nan => simp [add, isFinite] at hf
    | inf t => simp [add, isFinite] at hf
    | fin t n f =>
      refine ⟨rfl, rfl, ?_⟩
      rw [add_fin] at hf ⊢
      have hsum : toRat (fin s m e) + toRat (fin t n f)
          = toRat (fin (if scaled s m e (min e f) + scaled t n f (min e f) = 0 then (s && t)
              else decide (scaled s m e (min e f) + scaled t n f (min e f) < 0))
            (scaled s m e (min e f) + scaled t n f (min e f)).natAbs (min e f)) := by
        rw [toRat_signed, toRat_scaled s m e (min e f) (min_le_left _ _),
          toRat_scaled t n f (min e f) (min_le_right _ _)]
        push_cast
        ring
      rw [hsum]
      exact round_err _ _ _ hf

/-- A finite difference has finite terms and is within one rounding of the
exact difference. -/
theorem sub_err (a b : F64) (hf : isFinite (sub a b) = true) :
    isFinite a = true ∧ isFinite b = true ∧
      |toRat (sub a b) - (toRat a - toRat b)| ≤ |toRat a - toRat b| / 2 ^ 53 + 1 / 2 ^ 1075 := by
  obtain ⟨h1, h2, h3⟩ := add_err a (neg b) hf
  rw [isFinite_neg] at h2
  rw [toRat_neg] at h3
  exact ⟨h1, h2, by simpa [sub, sub_eq_add_neg] using h3⟩

/-- The conversion of an `int` of less than 54 bits is exact. -/
theorem ofInt_exact (i : Int) (h : i.natAbs < 2 ^ 53) :
    isFinite (ofInt i) = true ∧ toRat (ofInt i) = (i : ℚ) := by
  unfold ofInt
  by_cases h0 : i.natAbs = 0
  · have hi : i = 0 := by omega
    subst hi
    simp [round_zero, isFinite, toRat]
  · have hb : bits i.natAbs ≤ 53 := bits_le _ 53 h
    have hE : expOf i.natAbs 0 ≤ 0 := by
      unfold expOf
      omega
    have hlt := exact_lt i.natAbs 0 hE
    have hM : mantOf i.natAbs 0 = i.natAbs * 2 ^ (0 - expOf i.natAbs 0).toNat := by
      unfold mantOf
      rw [if_pos hE]
    have hp : pack (decide (i < 0)) (mantOf i.natAbs 0) (expOf i.natAbs 0)
        = fin (decide (i < 0)) (mantOf i.natAbs 0) (expOf i.natAbs 0) := by
      unfold pack
      rw [if_neg (by omega), if_neg (by rw [hM]; omega)]
    rw [round_eq _ _ _ h0, hp]
    refine ⟨rfl, ?_⟩
    rw [toRat_fin, mantOf_exact_val _ _ hE]
    by_cases hneg : i < 0
    · rw [decide_eq_true hneg]
      have : ((i.natAbs : Nat) : ℚ) = -(i : ℚ) := by
        rw [Nat.cast_natAbs, abs_of_neg hneg]
        push_cast
        rfl
      rw [this]
      simp
    · rw [decide_eq_false hneg]
      have : ((i.natAbs : Nat) : ℚ) = (i : ℚ) := by
        rw [Nat.cast_natAbs, abs_of_nonneg (by omega)]
      rw [this]
      simp

theorem quot_ge (m n : Nat) (hm : m ≠ 0) (hn : n ≠ 0) :
    2 ^ 64 ≤ m * 2 ^ (bits n + 64) / n := by
  rw [Nat.le_div_iff_mul_le (Nat.pos_of_ne_zero hn)]
  have hb := lt_two_pow_bits n
  have hm1 : 1 ≤ m := Nat.pos_of_ne_zero hm
  calc 2 ^ 64 * n ≤ 2 ^ 64 * 2 ^ bits n := Nat.mul_le_mul_left _ (le_of_lt hb)
    _ = 1 * 2 ^ (bits n + 64) := by rw [Nat.one_mul, ← pow_add, Nat.add_comm]
    _ ≤ m * 2 ^ (bits n + 64) := Nat.mul_le_mul_right _ hm1

/-- The quotient with its sticky bit, `2 * q + st`, is within 1 of twice the
exact quotient `t / n`. -/
theorem sticky_err (t n : Nat) (hn : n ≠ 0) :
    |((2 * (t / n) + (if t % n = 0 then 0 else 1) : Nat) : ℚ) - 2 * ((t : ℚ) / (n : ℚ))| ≤ 1 := by
  have hdm := Nat.div_add_mod t n
  have hr := Nat.mod_lt t (Nat.pos_of_ne_zero hn)
  have hnq : (0 : ℚ) < (n : ℚ) := by exact_mod_cast Nat.pos_of_ne_zero hn
  generalize t / n = q at hdm ⊢
  generalize t % n = r at hdm hr ⊢
  have ht : (t : ℚ) = (n : ℚ) * (q : ℚ) + (r : ℚ) := by exact_mod_cast hdm.symm
  have hq : (t : ℚ) / (n : ℚ) = (q : ℚ) + (r : ℚ) / (n : ℚ) := by
    rw [ht]
    field_simp
    ring
  have hr0 : (0 : ℚ) ≤ (r : ℚ) / (n : ℚ) := by positivity
  have hr1 : (r : ℚ) / (n : ℚ) ≤ 1 := by
    rw [div_le_one hnq]
    exact_mod_cast le_of_lt hr
  rw [hq]
  split_ifs with h0
  · subst h0
    simp
  · push_cast
    rw [abs_le]
    constructor <;> linarith

/-- Rounding a value that is within `P` of the exact one `Q`, where `P` is at
most `2^-64` of `Q`, gives a result within `2^-52` of `Q` plus `2^-1075`. -/
theorem div_combine (R V Q P : ℚ) (hP : 0 < P)
    (hround : |R - V| ≤ |V| / 2 ^ 53 + 1 / 2 ^ 1075) (hD : |V - Q| ≤ P)
    (hbig : P * 2 ^ 64 ≤ |Q|) : |R - Q| ≤ |Q| / 2 ^ 52 + 1 / 2 ^ 1075 := by
  have h1 : |R - Q| ≤ |R - V| + |V - Q| := abs_sub_le _ _ _
  have h2 : |V| ≤ |V - Q| + |Q| := by
    have := abs_add (V - Q) Q
    simpa using this
  have h3 : (0 : ℚ) ≤ |Q| := abs_nonneg _
  have h4 : |V - Q| ≤ |Q| / 2 ^ 64 := by
    rw [le_div_iff₀ (by positivity)]
    linarith
  have h5 : |V| / 2 ^ 53 ≤ (|Q| / 2 ^ 64 + |Q|) / 2 ^ 53 :=
    div_le_div_of_nonneg_right (by linarith) (by positivity)
  have h6 : (|Q| / 2 ^ 64 + |Q|) / 2 ^ 53 + |Q| / 2 ^ 64 ≤ |Q| / 2 ^ 52 := by
    have : (|Q| / 2 ^ 64 + |Q|) / 2 ^ 53 + |Q| / 2 ^ 64
        = |Q| * ((1 / 2 ^ 64 + 1) / 2 ^ 53 + 1 / 2 ^ 64) := by ring
    rw [this, div_eq_mul_one_div |Q| (2 ^ 52)]
    exact mul_le_mul_of_nonneg_left (by norm_num) h3
  linarith

/-- A finite quotient by a finite non-zero double has a finite dividend and is
within `2^-52` of the exact quotient, plus `2^-1075`. -/
theorem div_err (a : F64) (n : Nat) (f : Int) (hn : n ≠ 0)
    (hf : isFinite (div a (fin false n f)) = true) :
    isFinite a = true ∧
      |toRat (div a (fin false n f)) - toRat a / toRat (fin false n f)|
        ≤ |toRat a / toRat (fin false n f)| / 2 ^ 52 + 1 / 2 ^ 1075 := by
  cases a with
  | nan => simp [div, isFinite] at hf
  | inf s => simp [div, isFinite] at hf
  | fin s m e =>
    refine ⟨rfl, ?_⟩
    have hd : div (fin s m e) (fin false n f)
        = round (xor s false) (2 * (m * 2 ^ (bits n + 64) / n)
            + (if m * 2 ^ (bits n + 64) % n = 0 then 0 else 1))
          (e - f - ((bits n + 64 : Nat) : Int) - 1) := by
      simp only [div, if_neg hn]
    rw [hd] at hf ⊢
    have hround := round_err _ _ _ hf
    generalize hX : 2 * (m * 2 ^ (bits n + 64) / n)
      + (if m * 2 ^ (bits n + 64) % n = 0 then 0 else 1) = X at hround ⊢
    generalize hE : e - f - ((bits n + 64 : Nat) : Int) - 1 = E at hround ⊢
    have hnq : (0 : ℚ) < (n : ℚ) := by exact_mod_cast Nat.pos_of_ne_zero hn
    have hPf : (0 : ℚ) < (2 : ℚ) ^ f := two_zpow_pos f
    have hPE : (0 : ℚ) < (2 : ℚ) ^ E := two_zpow_pos E
    -- the exact quotient in units of `2^E`
    have he : (2 : ℚ) ^ e = (2 : ℚ) ^ f * ((2 ^ (bits n + 64) : Nat) : ℚ) * (2 * (2 : ℚ) ^ E) := by
      have : e = f + ((bits n + 64 : Nat) : Int) + (1 + E) := by omega
      rw [this, two_zpow_add, two_zpow_add, two_zpow_add, zpow_one, zpow_natCast]
      push_cast
      ring
    have hQ : toRat (fin s m e) / toRat (fin false n f)
        = (if s then -1 else 1)
          * (2 * (((m * 2 ^ (bits n + 64) : Nat) : ℚ) / (n : ℚ)) * (2 : ℚ) ^ E) := by
      rw [toRat_fin, toRat_fin, he]
      push_cast
      cases s
      · simp only [Bool.false_eq_true, if_false, one_mul]
        field_simp
        ring
      · simp only [if_true, Bool.false_eq_true, if_false, one_mul]
        field_simp
        ring
    have hV : toRat (fin (xor s false) X E) = (if s then -1 else 1) * ((X : ℚ) * (2 : ℚ) ^ E) := by
      rw [toRat_fin]
      simp
    have hst := sticky_err (m * 2 ^ (bits n + 64)) n hn
    rw [hX] at hst
    generalize hQn : ((m * 2 ^ (bits n + 64) : Nat) : ℚ) / (n : ℚ) = Qn at hQ hst
    -- distance of the encoded quotient from the exact one
    have hD : |toRat (fin (xor s false) X E) - toRat (fin s m e) / toRat (fin false n f)|
        ≤ (2 : ℚ) ^ E := by
      rw [hV, hQ, ← mul_sub, abs_sign_mul]
      have : (X : ℚ) * (2 : ℚ) ^ E - 2 * Qn * (2 : ℚ) ^ E = ((X : ℚ) - 2 * Qn) * (2 : ℚ) ^ E := by
        ring
      rw [this, abs_mul, abs_of_pos hPE]
      calc |(X : ℚ) - 2 * Qn| * (2 : ℚ) ^ E ≤ 1 * (2 : ℚ) ^ E :=
            mul_le_mul_of_nonneg_right hst (le_of_lt hPE)
        _ = (2 : ℚ) ^ E := one_mul _
    have hAQ : |toRat (fin s m e) / toRat (fin false n f)| = 2 * |Qn| * (2 : ℚ) ^ E := by
      rw [hQ, abs_sign_mul, abs_mul, abs_mul, abs_of_pos hPE]
      simp
    by_cases hm : m = 0
    · subst hm
      have hX0 : X = 0 := by
        rw [← hX]
        simp
      subst hX0
      rw [round_zero]
      simp [toRat]
    · have hq64 := quot_ge m n hm hn
      have hQn64 : (2 : ℚ) ^ 64 ≤ Qn := by
        rw [← hQn, le_div_iff₀ hnq]
        have h7 := (Nat.le_div_iff_mul_le (Nat.pos_of_ne_zero hn)).mp hq64
        generalize m * 2 ^ (bits n + 64) = T at h7 ⊢
        have h8 : ((2 ^ 64 * n : Nat) : ℚ) ≤ (T : ℚ) := Nat.cast_le.mpr h7
        rw [Nat.cast_mul, Nat.cast_pow] at h8
        exact h8
      have hQn0 : (0 : ℚ) ≤ Qn := le_trans (by positivity) hQn64
      have hbig : (2 : ℚ) ^ E * 2 ^ 64
          ≤ |toRat (fin s m e) / toRat (fin false n f)| := by
        rw [hAQ, abs_of_nonneg hQn0]
        have h9 := mul_le_mul_of_nonneg_right hQn64 (le_of_lt hPE)
        have h10 : (0 : ℚ) ≤ Qn * (2 : ℚ) ^ E := mul_nonneg hQn0 (le_of_lt hPE)
        have h11 : (2 : ℚ) ^ E * 2 ^ 64 = 2 ^ 64 * (2 : ℚ) ^ E := mul_comm _ _
        have h12 : 2 * Qn * (2 : ℚ) ^ E = 2 * (Qn * (2 : ℚ) ^ E) := mul_assoc _ _ _
        rw [h11, h12]
        linarith
      exact div_combine _ _ _ _ hPE hround hD hbig

/-! ## Accumulated rounding error of an affine map -/

/-- The last two operations of `scaleX` and `scaleY`, `b * G + O`: if `b` is
within `6 * 2^-53 * L` of `B`, where `|B| ≤ L`, the rounded product `c` and the
rounded sum `d` leave `d` within `9 * 2^-53 * L * G + 2^-53 * |O| + 3 * 2^-1075`
of `B * G + O`. -/
theorem affine_err (b B c d G O L : ℚ) (hG : 0 ≤ G) (hB : |B| ≤ L)
    (hb : |b - B| ≤ 6 * L / 2 ^ 53)
    (hc : |c - b * G| ≤ |b * G| / 2 ^ 53 + 1 / 2 ^ 1075)
    (hd : |d - (c + O)| ≤ |c + O| / 2 ^ 53 + 1 / 2 ^ 1075) :
    |d - (B * G + O)| ≤ 9 * (L * G) / 2 ^ 53 + |O| / 2 ^ 53 + 3 / 2 ^ 1075 := by
  have hL : 0 ≤ L := le_trans (abs_nonneg B) hB
  have hT : 0 ≤ L * G := mul_nonneg hL hG
  have hb1 : |b| ≤ L + 6 * L / 2 ^ 53 := by
    have := abs_add (b - B) B
    rw [sub_add_cancel] at this
    linarith
  have hbG : |b * G| ≤ L * G + 6 * (L * G) / 2 ^ 53 := by
    rw [abs_mul, abs_of_nonneg hG]
    have := mul_le_mul_of_nonneg_right hb1 hG
    have e1 : (L + 6 * L / 2 ^ 53) * G = L * G + 6 * (L * G) / 2 ^ 53 := by ring
    rw [e1] at this
    exact this
  have hbBG : |b * G - B * G| ≤ 6 * (L * G) / 2 ^ 53 := by
    rw [← sub_mul, abs_mul, abs_of_nonneg hG]
    have := mul_le_mul_of_nonneg_right hb hG
    have e1 : 6 * L / 2 ^ 53 * G = 6 * (L * G) / 2 ^ 53 := by ring
    rw [e1] at this
    exact this
  have hc1 : |c - B * G| ≤ |c - b * G| + |b * G - B * G| := abs_sub_le _ _ _
  have hBG : |B * G| ≤ L * G := by
    rw [abs_mul, abs_of_nonneg hG]
    exact mul_le_mul_of_nonneg_right hB hG
  have hcO : |c + O| ≤ |c - B * G| + |B * G| + |O| := by
    have e1 : c + O = (c - B * G) + B * G + O := by ring
    have h1 := abs_add ((c - B * G) + B * G) O
    have h2 := abs_add (c - B * G) (B * G)
    rw [← e1] at h1
    linarith
  have hd1 : |d - (B * G + O)| ≤ |d - (c + O)| + |c - B * G| := by
    have := abs_sub_le d (c + O) (B * G + O)
    have e1 : c + O - (B * G + O) = c - B * G := by ring
    rw [e1] at this
    exact this
  have hO : 0 ≤ |O| := abs_nonneg O
  generalize |d - (B * G + O)| = y at hd1 ⊢
  generalize |d - (c + O)| = x5 at hd hd1
  generalize |c + O| = x4 at hd hcO
  generalize |c - B * G| = x3 at hc1 hcO hd1
  generalize |c - b * G| = x1 at hc hc1
  generalize |b * G| = x2 at hc hbG
  generalize |b * G - B * G| = x7 at hbBG hc1
  generalize |B * G| = x8 at hBG hcO
  generalize |O| = x6 at hO hcO ⊢
  generalize L * G = T at hT hbG hbBG hBG ⊢
  linarith

/-- The first two operations of `scaleX`, `x / SCREEN_WIDTH - 0.5`. -/
theorem head_x (a1 a2 A L : ℚ) (hL : |A| + 1 / 2 ≤ L)
    (h1 : |a1 - A| ≤ |A| / 2 ^ 52 + 1 / 2 ^ 1075)
    (h2 : |a2 - (a1 - 1 / 2)| ≤ |a1 - 1 / 2| / 2 ^ 53 + 1 / 2 ^ 1075) :
    |A - 1 / 2| ≤ L ∧ |a2 - (A - 1 / 2)| ≤ 6 * L / 2 ^ 53 := by
  have hA : 0 ≤ |A| := abs_nonneg A
  have p1 : |A - 1 / 2| ≤ |A| + 1 / 2 := by
    have := abs_sub A (1 / 2)
    rw [abs_of_pos (by norm_num : (0 : ℚ) < 1 / 2)] at this
    exact this
  have p2 : |a1 - 1 / 2| ≤ |a1 - A| + |A - 1 / 2| := abs_sub_le _ _ _
  have p3 : |a2 - (A - 1 / 2)| ≤ |a2 - (a1 - 1 / 2)| + |a1 - A| := by
    have := abs_sub_le a2 (a1 - 1 / 2) (A - 1 / 2)
    have e1 : a1 - 1 / 2 - (A - 1 / 2) = a1 - A := by ring
    rw [e1] at this
    exact this
  refine ⟨by linarith, ?_⟩
  generalize |a2 - (A - 1 / 2)| = y at p3 ⊢
  generalize |a2 - (a1 - 1 / 2)| = x1 at h2 p3
  generalize |a1 - 1 / 2| = x2 at h2 p2
  generalize |a1 - A| = x3 at h1 p2 p3
  generalize |A - 1 / 2| = x4 at p1 p2
  generalize |A| = x at hA hL h1 p1
  linarith

/-- The first four operations of `scaleY`,
`-(y / SCREEN_HEIGHT * SCREEN_RATIO - SCREEN_RATIO / 2)`, with the exact
constants `3/4` and `3/8`. -/
theorem head_y (a1 a2 a3 A L : ℚ) (hL : |A| * (3 / 4) + 1 / 2 ≤ L)
    (h1 : |a1 - A| ≤ |A| / 2 ^ 52 + 1 / 2 ^ 1075)
    (h2 : |a2 - a1 * (3 / 4)| ≤ |a1 * (3 / 4)| / 2 ^ 53 + 1 / 2 ^ 1075)
    (h3 : |a3 - (a2 - 3 / 8)| ≤ |a2 - 3 / 8| / 2 ^ 53 + 1 / 2 ^ 1075) :
    |-(A * (3 / 4) - 3 / 8)| ≤ L ∧ |-a3 - -(A * (3 / 4) - 3 / 8)| ≤ 6 * L / 2 ^ 53 := by
  have hA : 0 ≤ |A| := abs_nonneg A
  have q0 : |A * (3 / 4)| = |A| * (3 / 4) := by
    rw [abs_mul, abs_of_pos (by norm_num : (0 : ℚ) < 3 / 4)]
  have q1 : |a1 * (3 / 4)| = |a1| * (3 / 4) := by
    rw [abs_mul, abs_of_pos (by norm_num : (0 : ℚ) < 3 / 4)]
  have p0 : |a1| ≤ |a1 - A| + |A| := by
    have := abs_add (a1 - A) A
    rw [sub_add_cancel] at this
    exact this
  have p1 : |A * (3 / 4) - 3 / 8| ≤ |A| * (3 / 4) + 3 / 8 := by
    have := abs_sub (A * (3 / 4)) (3 / 8)
    rw [abs_of_pos (by norm_num : (0 : ℚ) < 3 / 8), q0] at this
    exact this
  have p2 : |a2 - A * (3 / 4)| ≤ |a2 - a1 * (3 / 4)| + |a1 - A| * (3 / 4) := by
    have := abs_sub_le a2 (a1 * (3 / 4)) (A * (3 / 4))
    rw [← sub_mul, abs_mul, abs_of_pos (by norm_num : (0 : ℚ) < 3 / 4)] at this
    exact this
  have p3 : |a2 - 3 / 8| ≤ |a2 - A * (3 / 4)| + |A * (3 / 4) - 3 / 8| := abs_sub_le _ _ _
  have p4 : |a3 - (A * (3 / 4) - 3 / 8)| ≤ |a3 - (a2 - 3 / 8)| + |a2 - A * (3 / 4)| := by
    have := abs_sub_le a3 (a2 - 3 / 8) (A * (3 / 4) - 3 / 8)
    have e1 : a2 - 3 / 8 - (A * (3 / 4) - 3 / 8) = a2 - A * (3 / 4) := by ring
    rw [e1] at this
    exact this
  have e2 : |-a3 - -(A * (3 / 4) - 3 / 8)| = |a3 - (A * (3 / 4) - 3 / 8)| := by
    rw [← abs_neg]
    congr 1
    ring
  rw [q1] at h2
  rw [abs_neg, e2]
  refine ⟨by linarith, ?_⟩
  generalize |a3 - (A * (3 / 4) - 3 / 8)| = y at p4 ⊢
  generalize |a3 - (a2 - 3 / 8)| = x1 at h3 p4
  generalize |a2 - 3 / 8| = x2 at h3 p3
  generalize |a2 - A * (3 / 4)| = x3 at p2 p3 p4
  generalize |a2 - a1 * (3 / 4)| = x4 at h2 p2
  generalize |a1 - A| = x5 at h1 p0 p2
  generalize |a1| = x6 at h2 p0
  generalize |A * (3 / 4) - 3 / 8| = x7 at p1 p3
  generalize |A| = x at hA hL h1 p0 p1
  linarith

end F64

namespace Mandel

open F64

/-! ### Claims: the step per pixel, up to rounding -/

theorem toRat_width : toRat (fin false 5629499534213120 (-43)) = 640 := by
  rw [toRat_fin, zpow_neg]
  norm_num

theorem toRat_height : toRat (fin false 8444249301319680 (-44)) = 480 := by
  rw [toRat_fin, zpow_neg]
  norm_num

theorem toRat_ratio : toRat (fin false 6755399441055744 (-53)) = 3 / 4 := by
  rw [toRat_fin, zpow_neg]
  norm_num

theorem toRat_half_ratio : toRat (fin false 6755399441055744 (-54)) = 3 / 8 := by
  rw [toRat_fin, zpow_neg]
  norm_num

theorem toRat_c0_5 : toRat c0_5 = 1 / 2 := by
  unfold c0_5
  rw [toRat_fin, zpow_neg]
  norm_num

/-- The double `scaleX(x)`, when finite, is the exact value
`(x / 640 - 1/2) * gScale + gOffsetX` up to the accumulated rounding error of
its four operations. -/
theorem scaleX_err (s : State) (x : Int) (hx : x.natAbs < 2 ^ 53) (hG : 0 ≤ toRat s.gScale)
    (hfin : isFinite (scaleX s x) = true) :
    |toRat (scaleX s x) - (((x : ℚ) / 640 - 1 / 2) * toRat s.gScale + toRat s.gOffsetX)|
      ≤ 9 * ((|(x : ℚ)| / 640 + 1 / 2) * toRat s.gScale) / 2 ^ 53
        + |toRat s.gOffsetX| / 2 ^ 53 + 3 / 2 ^ 1075 := by
  unfold scaleX at hfin ⊢
  rw [width_double] at hfin ⊢
  obtain ⟨f1, -, hd⟩ := add_err _ _ hfin
  obtain ⟨f2, -, hc⟩ := mul_err _ _ f1
  obtain ⟨f3, -, h2⟩ := sub_err _ _ f2
  obtain ⟨-, h1⟩ := div_err _ _ _ (by norm_num) f3
  obtain ⟨-, h0⟩ := ofInt_exact x hx
  rw [h0, toRat_width] at h1
  rw [toRat_c0_5] at h2
  have hL : |(x : ℚ) / 640| + 1 / 2 ≤ |(x : ℚ)| / 640 + 1 / 2 := by
    rw [abs_div, abs_of_pos (by norm_num : (0 : ℚ) < 640)]
  obtain ⟨hB, hb⟩ := head_x _ _ _ _ hL h1 h2
  exact affine_err _ _ _ _ _ _ _ hG hB hb hc hd

/-- The double `scaleY(y)`, when finite, is the exact value
`-(y / 480 * (3/4) - 3/8) * gScale + gOffsetY` up to the accumulated rounding
error of its operations; `3/4` and `3/8` are the exact values of the doubles
`SCREEN_RATIO` and `SCREEN_RATIO / 2`. -/
theorem scaleY_err (s : State) (y : Int) (hy : y.natAbs < 2 ^ 53) (hG : 0 ≤ toRat s.gScale)
    (hfin : isFinite (scaleY s y) = true) :
    |toRat (scaleY s y)
        - (-((y : ℚ) / 480 * (3 / 4) - 3 / 8) * toRat s.gScale + toRat s.gOffsetY)|
      ≤ 9 * ((|(y : ℚ)| / 640 + 1 / 2) * toRat s.gScale) / 2 ^ 53
        + |toRat s.gOffsetY| / 2 ^ 53 + 3 / 2 ^ 1075 := by
  unfold scaleY at hfin ⊢
  rw [height_double, half_ratio_double, ratio_double] at hfin ⊢
  obtain ⟨f1, -, hd⟩ := add_err _ _ hfin
  obtain ⟨f2, -, hc⟩ := mul_err _ _ f1
  rw [isFinite_neg] at f2
  rw [toRat_neg] at hc
  obtain ⟨f3, -, h3⟩ := sub_err _ _ f2
  obtain ⟨f4, -, h2⟩ := mul_err _ _ f3
  obtain ⟨-, h1⟩ := div_err _ _ _ (by norm_num) f4
  obtain ⟨-, h0⟩ := ofInt_exact y hy
  rw [h0, toRat_height] at h1
  rw [toRat_ratio] at h2
  rw [toRat_half_ratio] at h3
  have hL : |(y : ℚ) / 480| * (3 / 4) + 1 / 2 ≤ |(y : ℚ)| / 640 + 1 / 2 := by
    rw [abs_div, abs_of_pos (by norm_num : (0 : ℚ) < 480)]
    have : |(y : ℚ)| / 480 * (3 / 4) = |(y : ℚ)| / 640 := by ring
    rw [this]
  obtain ⟨hB, hb⟩ := head_y _ _ _ _ _ hL h1 h2 h3
  exact affine_err _ _ _ _ _ _ _ hG hB hb hc hd

/-- Two error bounds of the same shape add up to the tolerance of a step. -/
theorem step_tolerance (v1 v0 e1 e0 G O a1 a0 : ℚ) (hG : 0 ≤ G) (ha1 : 0 ≤ a1) (ha0 : 0 ≤ a0)
    (h1 : |v1 - e1| ≤ 9 * ((a1 / 640 + 1 / 2) * G) / 2 ^ 53 + |O| / 2 ^ 53 + 3 / 2 ^ 1075)
    (h0 : |v0 - e0| ≤ 9 * ((a0 / 640 + 1 / 2) * G) / 2 ^ 53 + |O| / 2 ^ 53 + 3 / 2 ^ 1075) :
    |(v1 - v0) - (e1 - e0)| ≤ (a0 + a1 + 640) * G / 2 ^ 59 + |O| / 2 ^ 52 + 1 / 2 ^ 1072 := by
  have h : |(v1 - v0) - (e1 - e0)| ≤ |v1 - e1| + |v0 - e0| := by
    have e : (v1 - v0) - (e1 - e0) = (v1 - e1) - (v0 - e0) := by ring
    rw [e]
    exact abs_sub _ _
  have hO : 0 ≤ |O| := abs_nonneg O
  have p1 : 0 ≤ a1 * G := mul_nonneg ha1 hG
  have p0 : 0 ≤ a0 * G := mul_nonneg ha0 hG
  have q1 : 9 * ((a1 / 640 + 1 / 2) * G) / 2 ^ 53
      = 9 / 640 / 2 ^ 53 * (a1 * G) + 9 / 2 / 2 ^ 53 * G := by ring
  have q0 : 9 * ((a0 / 640 + 1 / 2) * G) / 2 ^ 53
      = 9 / 640 / 2 ^ 53 * (a0 * G) + 9 / 2 / 2 ^ 53 * G := by ring
  have q2 : (a0 + a1 + 640) * G / 2 ^ 59
      = 1 / 2 ^ 59 * (a0 * G) + 1 / 2 ^ 59 * (a1 * G) + 640 / 2 ^ 59 * G := by ring
  rw [q1] at h1
  rw [q0] at h0
  rw [q2]
  generalize |(v1 - v0) - (e1 - e0)| = y at h ⊢
  generalize |v1 - e1| = y1 at h h1
  generalize |v0 - e0| = y0 at h h0
  generalize |O| = x at hO h1 h0 ⊢
  generalize a1 * G = t1 at p1 h1 ⊢
  generalize a0 * G = t0 at p0 h0 ⊢
  linarith

/-- C17 (amended). The mapping is undistorted and vertically flipped up to
rounding. For every viewport with a finite `gScale > 0` and finite offsets:
`scaleX` is non-decreasing in `sx` and `scaleY` non-increasing in `sy`, over
all integers; and for every `int` pixel coordinate whose two mapped values are
finite, the horizontal step `scaleX(sx+1) - scaleX(sx)` and the negated
vertical step `-(scaleY(sy+1) - scaleY(sy))`, as exact differences of the
doubles, each lie within
`(|s| + |s+1| + 640) * gScale / 2^59 + |offset| / 2^52 + 2^-1072` of
`gScale / SCREEN_WIDTH`. -/
theorem pixel_steps (s : State) (hs : isFinite s.gScale = true)
    (hp : F64.lt (ofInt 0) s.gScale = true) (hx : isFinite s.gOffsetX = true)
    (hy : isFinite s.gOffsetY = true) :
    (∀ sx sx1 : Int, sx ≤ sx1 → F64.le (scaleX s sx) (scaleX s sx1) = true) ∧
    (∀ sy sy1 : Int, sy ≤ sy1 → F64.le (scaleY s sy1) (scaleY s sy) = true) ∧
    (∀ sx : Int, -2 ^ 31 ≤ sx → sx + 1 < 2 ^ 31 →
      isFinite (scaleX s sx) = true → isFinite (scaleX s (sx + 1)) = true →
      |(toRat (scaleX s (sx + 1)) - toRat (scaleX s sx))
          - toRat s.gScale / ((SCREEN_WIDTH : Int) : ℚ)|
        ≤ (|(sx : ℚ)| + |((sx + 1 : Int) : ℚ)| + 640) * toRat s.gScale / 2 ^ 59
          + |toRat s.gOffsetX| / 2 ^ 52 + 1 / 2 ^ 1072) ∧
    (∀ sy : Int, -2 ^ 31 ≤ sy → sy + 1 < 2 ^ 31 →
      isFinite (scaleY s sy) = true → isFinite (scaleY s (sy + 1)) = true →
      |-(toRat (scaleY s (sy + 1)) - toRat (scaleY s sy))
          - toRat s.gScale / ((SCREEN_WIDTH : Int) : ℚ)|
        ≤ (|(sy : ℚ)| + |((sy + 1 : Int) : ℚ)| + 640) * toRat s.gScale / 2 ^ 59
          + |toRat s.gOffsetY| / 2 ^ 52 + 1 / 2 ^ 1072) := by
  obtain ⟨n, f, hg, -⟩ := pos_finite _ hs hp
  have hG : 0 ≤ toRat s.gScale := by
    rw [hg, toRat_fin]
    simp only [Bool.false_eq_true, if_false, one_mul]
    positivity
  have hW : ((SCREEN_WIDTH : Int) : ℚ) = 640 := by
    unfold SCREEN_WIDTH
    norm_num
  refine ⟨scaleX_mono s hs hp hx, scaleY_anti s hs hp hy, ?_, ?_⟩
  · intro sx h1 h2 f0 f1
    have b0 := scaleX_err s sx (by omega) hG f0
    have b1 := scaleX_err s (sx + 1) (by omega) hG f1
    have h := step_tolerance _ _ _ _ _ _ _ _ hG (abs_nonneg _) (abs_nonneg _) b1 b0
    have e : (((sx + 1 : Int) : ℚ) / 640 - 1 / 2) * toRat s.gScale + toRat s.gOffsetX
        - (((sx : ℚ) / 640 - 1 / 2) * toRat s.gScale + toRat s.gOffsetX)
        = toRat s.gScale / 640 := by
      push_cast
      ring
    rw [e] at h
    rw [hW]
    exact h
  · intro sy h1 h2 f0 f1
    have b0 := scaleY_err s sy (by omega) hG f0
    have b1 := scaleY_err s (sy + 1) (by omega) hG f1
    have h := step_tolerance _ _ _ _ _ _ _ _ hG (abs_nonneg _) (abs_nonneg _) b1 b0
    have e : -(((sy + 1 : Int) : ℚ) / 480 * (3 / 4) - 3 / 8) * toRat s.gScale + toRat s.gOffsetY
        - (-((sy : ℚ) / 480 * (3 / 4) - 3 / 8) * toRat s.gScale + toRat s.gOffsetY)
        = -(toRat s.gScale / 640) := by
      push_cast
      ring
    rw [e] at h
    have e2 : -(toRat (scaleY s (sy + 1)) - toRat (scaleY s sy)) - toRat s.gScale / 640
        = -((toRat (scaleY s (sy + 1)) - toRat (scaleY s sy)) - -(toRat s.gScale / 640)) := by
      ring
    rw [hW, e2, abs_neg]
    exact h

theorem pixel_steps_witness :
    isFinite initState.gScale = true ∧ F64.lt (ofInt 0) initState.gScale = true ∧
    isFinite initState.gOffsetX = true ∧ isFinite initState.gOffsetY = true ∧
    (-2 ^ 31 ≤ (0 : Int) ∧ (0 : Int) + 1 < 2 ^ 31) ∧
    isFinite (scaleX initState 0) = true ∧ isFinite (scaleX initState (0 + 1)) = true ∧
    isFinite (scaleY initState 0) = true ∧ isFinite (scaleY initState (0 + 1)) = true ∧
    F64.le (scaleX initState 0) (scaleX initState 1) = true ∧
    F64.le (scaleY initState 1) (scaleY initState 0) = true ∧
    |(toRat (scaleX initState (0 + 1)) - toRat (scaleX initState 0))
        - toRat initState.gScale / ((SCREEN_WIDTH : Int) : ℚ)|
      ≤ (|((0 : Int) : ℚ)| + |(((0 : Int) + 1 : Int) : ℚ)| + 640) * toRat initState.gScale / 2 ^ 59
        + |toRat initState.gOffsetX| / 2 ^ 52 + 1 / 2 ^ 1072 ∧
    |-(toRat (scaleY initState (0 + 1)) - toRat (scaleY initState 0))
        - toRat initState.gScale / ((SCREEN_WIDTH : Int) : ℚ)|
      ≤ (|((0 : Int) : ℚ)| + |(((0 : Int) + 1 : Int) : ℚ)| + 640) * toRat initState.gScale / 2 ^ 59
        + |toRat initState.gOffsetY| / 2 ^ 52 + 1 / 2 ^ 1072 :=
  ⟨by decide, by decide, by decide, by decide, by decide, by decide, by decide, by decide,
    by decide,
    (pixel_steps initState (by decide) (by decide) (by decide) (by decide)).1 0 1 (by decide),
    (pixel_steps initState (by decide) (by decide) (by decide) (by decide)).2.1 0 1
      (by decide),
    (pixel_steps initState (by decide) (by decide) (by decide) (by decide)).2.2.1 0
      (by decide) (by decide) (by decide) (by decide),
    (pixel_steps initState (by decide) (by decide) (by decide) (by decide)).2.2.2 0
      (by decide) (by decide) (by decide) (by decide)⟩

end Mandel
